import Mathlib

/-!
spicedb: the tuple grammar and the zedtoken codec.

A shallow embedding of `pkg/tuple/tuple.go` and `pkg/zedtoken/zedtoken.go`, with models of
the library calls they make: Go `regexp` for the tuple patterns, and `encoding/base64`, the
protobuf wire format and `shopspring/decimal` for the tokens.
-/

/-- Go's `string` type; in the tuple package the text is taken as its sequence of code points. -/
abbrev GoString := String

/-- Outcome of a Go call that may panic; `diverge` stands for a call still running when
the recursion budget of the model is used up. -/
inductive Result (α : Type) where
  | ok (v : α)
  | panic (msg : GoString)
  | diverge
deriving DecidableEq, Repr

/-- Sequencing of calls: a panic or a divergence of the first one is the outcome. -/
def Result.bind {α β : Type} (x : Result α) (f : α → Result β) : Result β :=
  match x with
  | .ok v => f v
  | .panic m => .panic m
  | .diverge => .diverge

namespace regexp

/-- Syntax of the fragment of Go regular expressions used by the tuple patterns. -/
inductive Re where
  | chr (c : Char)
  | cls (ranges : List (Char × Char))
  | cat (a b : Re)
  | alt (a b : Re)
  | rep (r : Re) (min max : Nat)
  | opt (r : Re)
  | grp (name : GoString) (r : Re)
  | bol
  | eol
deriving DecidableEq, Repr

/-- Matcher thread: offset in the text, the text still to read, and the capture slots. -/
structure MState where
  pos : Nat
  rest : List Char
  caps : List (List Char)
deriving DecidableEq, Repr

/-- Membership in a bracket expression given by its ranges. -/
def inClass (ranges : List (Char × Char)) (c : Char) : Bool :=
  ranges.any fun r => decide (r.1 ≤ c) && decide (c ≤ r.2)

/-- Number of capture groups, `Regexp.NumSubexp`. -/
def numGroups : Re → Nat
  | .chr _ => 0
  | .cls _ => 0
  | .cat a b => numGroups a + numGroups b
  | .alt a b => numGroups a + numGroups b
  | .rep r _ _ => numGroups r
  | .opt r => numGroups r
  | .grp _ r => 1 + numGroups r
  | .bol => 0
  | .eol => 0

/-- Names of the capture groups in order of their opening parenthesis. -/
def groupNames : Re → List GoString
  | .chr _ => []
  | .cls _ => []
  | .cat a b => groupNames a ++ groupNames b
  | .alt a b => groupNames a ++ groupNames b
  | .rep r _ _ => groupNames r
  | .opt r => groupNames r
  | .grp n r => n :: groupNames r
  | .bol => []
  | .eol => []

/-- Go `Regexp.SubexpNames`: slot 0 is the whole match and has the empty name. -/
def SubexpNames (re : Re) : List GoString := "" :: groupNames re

/-- Consume one character satisfying `p`. -/
def step (p : Char → Bool) (st : MState) : List MState :=
  match st.rest with
  | [] => []
  | c :: cs => if p c then [{ st with pos := st.pos + 1, rest := cs }] else []

/-- Greedy bounded repetition `r{min,max}`: one more iteration is preferred to stopping. -/
def repM {σ : Type} (f : σ → List σ) : Nat → Nat → σ → List σ
  | 0, 0, st => [st]
  | _ + 1, 0, _ => []
  | 0, max + 1, st => (f st).flatMap (repM f 0 max) ++ [st]
  | min + 1, max + 1, st => (f st).flatMap (repM f min max)

/-- Record in slot `idx` the text read between thread `st` and thread `st1`. -/
def capture (idx : Nat) (st st1 : MState) : MState :=
  { st1 with caps := st1.caps.set idx (st.rest.take (st.rest.length - st1.rest.length)) }

/-- Backtracking semantics: every way `re` can match at `st`, in preference order
(leftmost-first, as Go's `regexp` chooses). `base` is the number of groups opened so far. -/
def run : Re → Nat → MState → List MState
  | .chr c, _, st => step (fun x => x == c) st
  | .cls rs, _, st => step (inClass rs) st
  | .cat a b, base, st => (run a base st).flatMap (run b (base + numGroups a))
  | .alt a b, base, st => run a base st ++ run b (base + numGroups a) st
  | .rep r min max, base, st => repM (run r base) min max st
  | .opt r, base, st => run r base st ++ [st]
  | .grp _ r, base, st => (run r (base + 1) st).map (capture (base + 1) st)
  | .bol, _, st => if st.pos = 0 then [st] else []
  | .eol, _, st => if st.rest = [] then [st] else []

/-- Try to match `re` starting at offset `k` of `s`; on success the capture slots,
slot 0 holding the whole match. -/
def matchAt (re : Re) (s : List Char) (k : Nat) : Option (List (List Char)) :=
  let st0 : MState := ⟨k, s.drop k, List.replicate (numGroups re + 1) []⟩
  match run re 0 st0 with
  | [] => none
  | st1 :: _ => some ((capture 0 st0 st1).caps)

/-- Go `Regexp.FindStringSubmatch`: the leftmost match and its submatches, `[]` (nil) if none. -/
def FindStringSubmatch (re : Re) (s : GoString) : List GoString :=
  match (List.range (s.data.length + 1)).findSome? (matchAt re s.data) with
  | none => []
  | some caps => caps.map String.mk

/-- Go `Regexp.MatchString`. -/
def MatchString (re : Re) (s : GoString) : Bool :=
  ((List.range (s.data.length + 1)).findSome? (matchAt re s.data)).isSome

/-- Consume one character satisfying `p`, captures left aside. -/
def stepL (p : Char → Bool) (s : List Char) : List (List Char) :=
  match s with
  | [] => []
  | c :: cs => if p c then [cs] else []

/-- Capture-free reading of `run`: what is left of the text after each way of matching. -/
def accepts : Re → List Char → List (List Char)
  | .chr c, s => stepL (fun x => x == c) s
  | .cls rs, s => stepL (inClass rs) s
  | .cat a b, s => (accepts a s).flatMap (accepts b)
  | .alt a b, s => accepts a s ++ accepts b s
  | .rep r min max, s => repM (accepts r) min max s
  | .opt r, s => accepts r s ++ [s]
  | .grp _ r, s => accepts r s
  | .bol, s => [s]
  | .eol, s => if s = [] then [s] else []

/-- The whole of `w` is matched by `re`. -/
def Matches (re : Re) (w : List Char) : Bool := (accepts re w).contains []

/-- Characters that may occur in a text matched by `re`. -/
def alphabet : Re → Char → Bool
  | .chr c, x => x == c
  | .cls rs, x => inClass rs x
  | .cat a b, x => alphabet a x || alphabet b x
  | .alt a b, x => alphabet a x || alphabet b x
  | .rep r _ _, x => alphabet r x
  | .opt r, x => alphabet r x
  | .grp _ r, x => alphabet r x
  | .bol, _ => false
  | .eol, _ => false

/-- The expression has no `^`. -/
def noBol : Re → Bool
  | .chr _ => true
  | .cls _ => true
  | .cat a b => noBol a && noBol b
  | .alt a b => noBol a && noBol b
  | .rep r _ _ => noBol r
  | .opt r => noBol r
  | .grp _ r => noBol r
  | .bol => false
  | .eol => true

/-- The expression has neither `^` nor `$`. -/
def anchorFree : Re → Bool
  | .chr _ => true
  | .cls _ => true
  | .cat a b => anchorFree a && anchorFree b
  | .alt a b => anchorFree a && anchorFree b
  | .rep r _ _ => anchorFree r
  | .opt r => anchorFree r
  | .grp _ r => anchorFree r
  | .bol => false
  | .eol => false

/-- The capture slots of `y` agree with those of `x` outside the slots `lo+1 .. hi`. -/
def Frame (lo hi : Nat) (x y : MState) : Prop :=
  y.caps.length = x.caps.length ∧ ∀ i, (i ≤ lo ∨ hi < i) → y.caps[i]? = x.caps[i]?

end regexp

namespace stringz

/-- Go `stringz.SliceIndex`: index of the first occurrence of `needle`, `-1` if absent. -/
def SliceIndex (haystack : List GoString) (needle : GoString) : Int :=
  match haystack.indexOf? needle with
  | some i => i
  | none => -1

/-- Go `stringz.Default`: `fallback` when `val` equals one of `zeroValues`. -/
def Default (val fallback : GoString) (zeroValues : List GoString) : GoString :=
  if zeroValues.contains val then fallback else val

/-- Go `stringz.DefaultEmpty`. -/
def DefaultEmpty (val fallback : GoString) : GoString :=
  Default val fallback [""]

end stringz

namespace tuple

open regexp

/-- The v0 `ObjectAndRelation` message. -/
structure ObjectAndRelation where
  Namespace : GoString
  ObjectId : GoString
  Relation : GoString
deriving DecidableEq, Repr

/-- The v0 `User` message; its oneof has the single alternative `Userset`. -/
structure User where
  Userset : Option ObjectAndRelation
deriving DecidableEq, Repr

/-- The v0 `RelationTuple` message; `none` is a nil pointer. -/
structure RelationTuple where
  ObjectAndRelation : Option ObjectAndRelation
  User : Option User
deriving DecidableEq, Repr

def ellipsis : GoString := "..."

def lower : List (Char × Char) := [('a', 'z')]
def lowerDigit : List (Char × Char) := [('a', 'z'), ('0', '9')]
def lowerDigitUnderscore : List (Char × Char) := [('a', 'z'), ('0', '9'), ('_', '_')]

/-- Pattern `([a-z][a-z0-9_]{2,61}[a-z0-9]/)?[a-z][a-z0-9_]{2,62}[a-z0-9]` -/
def namespaceNameExpr : Re :=
  .cat
    (.opt (.grp "" (.cat (.cls lower) (.cat (.rep (.cls lowerDigitUnderscore) 2 61)
      (.cat (.cls lowerDigit) (.chr '/'))))))
    (.cat (.cls lower) (.cat (.rep (.cls lowerDigitUnderscore) 2 62) (.cls lowerDigit)))

/-- Pattern `[a-zA-Z0-9_][a-zA-Z0-9/_-]{0,127}` -/
def objectIDExpr : Re :=
  .cat (.cls [('a', 'z'), ('A', 'Z'), ('0', '9'), ('_', '_')])
    (.rep (.cls [('a', 'z'), ('A', 'Z'), ('0', '9'), ('/', '/'), ('_', '_'), ('-', '-')]) 0 127)

/-- Pattern `[a-z][a-z0-9_]{2,62}[a-z0-9]` -/
def relationExpr : Re :=
  .cat (.cls lower) (.cat (.rep (.cls lowerDigitUnderscore) 2 62) (.cls lowerDigit))

/-- Pattern `(?P<resourceType>(%s)):(?P<resourceID>%s)#(?P<resourceRel>%s)` -/
def onrExpr : Re :=
  .cat (.grp "resourceType" (.grp "" namespaceNameExpr))
    (.cat (.chr ':') (.cat (.grp "resourceID" objectIDExpr)
      (.cat (.chr '#') (.grp "resourceRel" relationExpr))))

/-- Pattern `%s|\.\.\.` inside the `subjectRel` group: a relation name or the wildcard. -/
def subjectRelExpr : Re :=
  .alt relationExpr (.cat (.chr '.') (.cat (.chr '.') (.chr '.')))

/-- Pattern `(?P<subjectType>(%s)):(?P<subjectID>%s)(#(?P<subjectRel>%s|\.\.\.))?` -/
def subjectExpr : Re :=
  .cat (.grp "subjectType" (.grp "" namespaceNameExpr))
    (.cat (.chr ':') (.cat (.grp "subjectID" objectIDExpr)
      (.opt (.grp "" (.cat (.chr '#') (.grp "subjectRel" subjectRelExpr))))))

/-- Pattern `^%s$` around `e`. -/
def anchored (e : Re) : Re := .cat .bol (.cat e .eol)

def onrRegex : Re := anchored onrExpr
def subjectRegex : Re := anchored subjectExpr

/-- Pattern `%s@%s` over `onrExpr` and `subjectExpr`: what `parserRegex` has between
its anchors. -/
def parserBody : Re := .cat onrExpr (.cat (.chr '@') subjectExpr)

/-- Pattern `^%s@%s$` over `onrExpr` and `subjectExpr`. -/
def parserRegex : Re := anchored parserBody

/-- Modelled from the spec: `StringONR` is defined in a file of the package that is not
part of the sources at hand. Section 4.1: a triple is formatted as
`namespace:objectId#relation`, and a tuple as `resourceId@subjectId` "using the same scheme,
with the subject's relation segment omitted entirely when it equals the wildcard". `String`
below formats both halves through this one function, so the omission is made here. A nil
triple gives the empty text. -/
def StringONR (onr : Option ObjectAndRelation) : GoString :=
  match onr with
  | none => ""
  | some o =>
    if o.Relation = ellipsis then o.Namespace ++ ":" ++ o.ObjectId
    else o.Namespace ++ ":" ++ o.ObjectId ++ "#" ++ o.Relation

/-- Go `tpl.User.GetUserset()`: nil-safe getter. -/
def User.GetUserset (u : Option User) : Option ObjectAndRelation :=
  match u with
  | none => none
  | some u => u.Userset

/-- Go `String` converts a tuple to a string. -/
def String (tpl : Option RelationTuple) : GoString :=
  match tpl with
  | none => ""
  | some t =>
    if t.ObjectAndRelation = none ∨ t.User = none ∨ User.GetUserset t.User = none then ""
    else StringONR t.ObjectAndRelation ++ "@" ++ StringONR (User.GetUserset t.User)

/-- Go `groups[i]` for an index computed by `SliceIndex`. -/
def group (groups : List GoString) (i : Int) : GoString := groups.getD i.toNat ""

/-- Go `Parse` converts a serialized tuple into the proto version; `none` is nil. -/
def Parse (tpl : GoString) : Option RelationTuple :=
  let groups := FindStringSubmatch parserRegex tpl
  if groups.length = 0 then none
  else
    let subjectRelIndex := stringz.SliceIndex (SubexpNames parserRegex) "subjectRel"
    let subjectRelation :=
      if (group groups subjectRelIndex).length > 0 then group groups subjectRelIndex else ellipsis
    some {
      ObjectAndRelation := some {
        Namespace := group groups (stringz.SliceIndex (SubexpNames parserRegex) "resourceType")
        ObjectId := group groups (stringz.SliceIndex (SubexpNames parserRegex) "resourceID")
        Relation := group groups (stringz.SliceIndex (SubexpNames parserRegex) "resourceRel") }
      User := some { Userset := some {
        Namespace := group groups (stringz.SliceIndex (SubexpNames parserRegex) "subjectType")
        ObjectId := group groups (stringz.SliceIndex (SubexpNames parserRegex) "subjectID")
        Relation := subjectRelation } } }

/-- The tuple built by `Parse` from the texts of the fields. -/
def mkTuple (ns id rel sns sid : List Char) (srel : GoString) : RelationTuple :=
  { ObjectAndRelation := some ⟨String.mk ns, String.mk id, String.mk rel⟩
    User := some ⟨some ⟨String.mk sns, String.mk sid, srel⟩⟩ }

/-- A namespace name in the sense of the tuple grammar. -/
def IsNamespace (s : GoString) : Bool := MatchString (anchored namespaceNameExpr) s

/-- An object id in the sense of the tuple grammar. -/
def IsObjectID (s : GoString) : Bool := MatchString (anchored objectIDExpr) s

/-- A relation name in the sense of the tuple grammar. -/
def IsRelation (s : GoString) : Bool := MatchString (anchored relationExpr) s

/-- Grammar-valid resource triple: namespace, object id and relation name. -/
def ObjectAndRelation.validResource (o : ObjectAndRelation) : Bool :=
  IsNamespace o.Namespace && IsObjectID o.ObjectId && IsRelation o.Relation

/-- Grammar-valid subject triple: the relation is a relation name or the wildcard. -/
def ObjectAndRelation.validSubject (o : ObjectAndRelation) : Bool :=
  IsNamespace o.Namespace && IsObjectID o.ObjectId &&
    (IsRelation o.Relation || decide (o.Relation = ellipsis))

/-- The v1 `ObjectReference` message. -/
structure ObjectReference where
  ObjectType : GoString
  ObjectId : GoString
deriving DecidableEq, Repr

/-- The v1 `SubjectReference` message. -/
structure SubjectReference where
  Object : Option ObjectReference
  OptionalRelation : GoString
deriving DecidableEq, Repr

/-- The v1 `Relationship` message. -/
structure Relationship where
  Resource : Option ObjectReference
  Relation : GoString
  Subject : Option SubjectReference
deriving DecidableEq, Repr

/-- Modelled from the spec: the generated `Validate` method of the v0 `RelationTuple`
message belongs to the API module and is not part of the sources at hand. Sections 3 and
4.3: the tuple is validated against the tuple grammar, each field must match its lexical
rule, and the wildcard relation is allowed in subject position only. The result is the
validation error, `none` when the tuple is valid. -/
def RelationTuple.Validate (tpl : RelationTuple) : Option GoString :=
  match tpl.ObjectAndRelation with
  | none => some "invalid RelationTuple.ObjectAndRelation: value is required"
  | some onr =>
    if !onr.validResource then
      some "invalid RelationTuple.ObjectAndRelation: embedded message failed validation"
    else match tpl.User with
      | none => some "invalid RelationTuple.User: value is required"
      | some u =>
        match u.Userset with
        | none => some "invalid User.UserOneof: value is required"
        | some us =>
          if !us.validSubject then
            some "invalid User.Userset: embedded message failed validation"
          else none

/-- Grammar-valid reference: object type and object id. -/
def ObjectReference.valid (o : ObjectReference) : Bool :=
  IsNamespace o.ObjectType && IsObjectID o.ObjectId

/-- Modelled from the spec: the generated `Validate` method of the v1 `Relationship`
message belongs to the API module and is not part of the sources at hand. Section 3:
resource and subject identifiers must independently satisfy the tuple grammar, and the
subject relation is optional. The result is the validation error, `none` when valid. -/
def Relationship.Validate (r : Relationship) : Option GoString :=
  match r.Resource with
  | none => some "invalid Relationship.Resource: value is required"
  | some res =>
    if !res.valid then
      some "invalid Relationship.Resource: embedded message failed validation"
    else if !IsRelation r.Relation then
      some "invalid Relationship.Relation: value does not match regex pattern"
    else match r.Subject with
      | none => some "invalid Relationship.Subject: value is required"
      | some sub =>
        match sub.Object with
        | none => some "invalid SubjectReference.Object: value is required"
        | some obj =>
          if !obj.valid then
            some "invalid SubjectReference.Object: embedded message failed validation"
          else if !(decide (sub.OptionalRelation = "") || IsRelation sub.OptionalRelation) then
            some "invalid SubjectReference.OptionalRelation: value does not match regex pattern"
          else none

def nilDereference : GoString := "runtime error: invalid memory address or nil pointer dereference"

/-- Go `ToRelationship` converts a RelationTuple into a Relationship. -/
def ToRelationship (tpl : RelationTuple) : Result Relationship :=
  match tpl.Validate with
  | some err => .panic ("invalid tuple: " ++ String (some tpl) ++ " " ++ err)
  | none =>
    match tpl.ObjectAndRelation, User.GetUserset tpl.User with
    | some onr, some us =>
      .ok {
        Resource := some { ObjectType := onr.Namespace, ObjectId := onr.ObjectId }
        Relation := onr.Relation
        Subject := some {
          Object := some { ObjectType := us.Namespace, ObjectId := us.ObjectId }
          OptionalRelation := stringz.Default us.Relation "" ["..."] } }
    | _, _ => .panic nilDereference

mutual

/-- Go `RelString` converts a relationship into a string. -/
def RelString : Nat → Relationship → Result GoString
  | 0, _ => .diverge
  | fuel + 1, tpl => (FromRelationship fuel tpl).bind fun t => .ok (String (some t))

/-- Go `FromRelationship` converts a Relationship into a RelationTuple. The first
argument bounds the depth of the calls between `FromRelationship` and `RelString`. -/
def FromRelationship : Nat → Relationship → Result RelationTuple
  | 0, _ => .diverge
  | fuel + 1, r =>
    match r.Validate with
    | some err =>
      (RelString fuel r).bind fun s => .panic ("invalid relationship: " ++ s ++ " " ++ err)
    | none =>
      match r.Resource, r.Subject with
      | some res, some sub =>
        match sub.Object with
        | some obj =>
          .ok {
            ObjectAndRelation := some {
              Namespace := res.ObjectType, ObjectId := res.ObjectId, Relation := r.Relation }
            User := some { Userset := some {
              Namespace := obj.ObjectType
              ObjectId := obj.ObjectId
              Relation := stringz.DefaultEmpty sub.OptionalRelation "..." } } }
        | none => .panic nilDereference
      | _, _ => .panic nilDereference

end

/-- A character of `[a-z]`. -/
def isLower (c : Char) : Bool := decide ('a' ≤ c) && decide (c ≤ 'z')

/-- A character of `[A-Z]`. -/
def isUpper (c : Char) : Bool := decide ('A' ≤ c) && decide (c ≤ 'Z')

/-- A character of `[0-9]`. -/
def isDigit (c : Char) : Bool := decide ('0' ≤ c) && decide (c ≤ '9')

/-- A lowercase letter, a digit or the underscore. -/
def isNameChar (c : Char) : Bool := isLower c || isDigit c || c == '_'

/-- A lowercase letter or a digit. -/
def isNameEnd (c : Char) : Bool := isLower c || isDigit c

/-- A character of `[A-Za-z0-9_]`. -/
def isIdFirst (c : Char) : Bool := isLower c || isUpper c || isDigit c || c == '_'

/-- A character of `[A-Za-z0-9/_-]`. -/
def isIdChar (c : Char) : Bool :=
  isLower c || isUpper c || isDigit c || c == '/' || c == '_' || c == '-'

/-- The wording of the lexical rules for a name: one lowercase letter, then `lo` to `hi`
characters from lowercase letters, digits and underscore, then one lowercase letter or
digit. -/
def nameShape (lo hi : Nat) (w : List Char) : Bool :=
  match w with
  | [] => false
  | c :: rest =>
    isLower c && decide (lo + 1 ≤ rest.length) && decide (rest.length ≤ hi + 1) &&
      rest.dropLast.all isNameChar && rest.getLast?.any isNameEnd

/-- The same rule with the three parts of the name made explicit. -/
def NameForm (lo hi : Nat) (w : List Char) : Prop :=
  ∃ c mid cl, w = c :: (mid ++ [cl]) ∧ isLower c = true ∧ lo ≤ mid.length ∧ mid.length ≤ hi ∧
    (∀ x ∈ mid, isNameChar x = true) ∧ isNameEnd cl = true

/-- The wording of the lexical rule for a namespace: an optional tenant, a name with `tlo`
to `thi` middle characters followed by `/`, and then a name with `nlo` to `nhi` middle
characters. -/
def namespaceShape (tlo thi nlo nhi : Nat) (w : List Char) : Bool :=
  nameShape nlo nhi w ||
    (match w.dropWhile fun c => c != '/' with
     | [] => false
     | _ :: name => nameShape tlo thi (w.takeWhile fun c => c != '/') && nameShape nlo nhi name)

/-- The wording of the lexical rule for an object id: 1 to 128 characters, the first one
from `[A-Za-z0-9_]` and the others from `[A-Za-z0-9/_-]`. -/
def objectIdShape (w : List Char) : Bool :=
  match w with
  | [] => false
  | c :: rest => isIdFirst c && decide (rest.length ≤ 127) && rest.all isIdChar

/-- Modelled from the spec: the enum `RelationTupleUpdate.Operation` of the v0 API module,
which is not part of the sources at hand. Section 3 names the tags CREATE, TOUCH and
DELETE; `other` stands for every other value of the underlying integer, the zero value
included. -/
inductive RelationTupleUpdate_Operation where
  | CREATE
  | TOUCH
  | DELETE
  | other (value : Int)
deriving DecidableEq, Repr

/-- Modelled from the spec: the enum `RelationshipUpdate.Operation` of the v1 API module,
which is not part of the sources at hand, with the like-named tags; `other` stands for
every other value of the underlying integer, the zero value included. -/
inductive RelationshipUpdate_Operation where
  | OPERATION_CREATE
  | OPERATION_TOUCH
  | OPERATION_DELETE
  | other (value : Int)
deriving DecidableEq, Repr

/-- The v0 `RelationTupleUpdate` message; the tuple is a pointer that is not nil. -/
structure RelationTupleUpdate where
  Operation : RelationTupleUpdate_Operation
  Tuple : RelationTuple
deriving DecidableEq, Repr

/-- The v1 `RelationshipUpdate` message; the relationship is a pointer that is not nil. -/
structure RelationshipUpdate where
  Operation : RelationshipUpdate_Operation
  Relationship : Relationship
deriving DecidableEq, Repr

/-- The v1 `SubjectFilter.RelationFilter` message. -/
structure SubjectFilter_RelationFilter where
  Relation : GoString
deriving DecidableEq, Repr

/-- The v1 `SubjectFilter` message. -/
structure SubjectFilter where
  SubjectType : GoString
  OptionalSubjectId : GoString
  OptionalRelation : Option SubjectFilter_RelationFilter
deriving DecidableEq, Repr

/-- The v1 `RelationshipFilter` message. -/
structure RelationshipFilter where
  ResourceType : GoString
  OptionalResourceId : GoString
  OptionalRelation : GoString
  OptionalSubjectFilter : Option SubjectFilter
deriving DecidableEq, Repr

/-- Go `Create`. -/
def Create (tpl : RelationTuple) : RelationTupleUpdate :=
  { Operation := .CREATE, Tuple := tpl }

/-- Go `Touch`. -/
def Touch (tpl : RelationTuple) : RelationTupleUpdate :=
  { Operation := .TOUCH, Tuple := tpl }

/-- Go `Delete`. -/
def Delete (tpl : RelationTuple) : RelationTupleUpdate :=
  { Operation := .DELETE, Tuple := tpl }

/-- Go `ToFilter` converts a RelationTuple into a RelationshipFilter. -/
def ToFilter (tpl : RelationTuple) : Result RelationshipFilter :=
  match tpl.Validate with
  | some err => .panic ("invalid tuple: " ++ String (some tpl) ++ " " ++ err)
  | none =>
    match tpl.ObjectAndRelation, User.GetUserset tpl.User with
    | some onr, some us =>
      .ok {
        ResourceType := onr.Namespace
        OptionalResourceId := onr.ObjectId
        OptionalRelation := onr.Relation
        OptionalSubjectFilter := some {
          SubjectType := us.Namespace
          OptionalSubjectId := us.ObjectId
          OptionalRelation := some { Relation := stringz.Default us.Relation "" ["..."] } } }
    | _, _ => .panic nilDereference

/-- Go `UpdateToRelationshipUpdate` converts a RelationTupleUpdate into a
RelationshipUpdate. -/
def UpdateToRelationshipUpdate (update : RelationTupleUpdate) : Result RelationshipUpdate :=
  let op : Result RelationshipUpdate_Operation :=
    match update.Operation with
    | .CREATE => .ok .OPERATION_CREATE
    | .DELETE => .ok .OPERATION_DELETE
    | .TOUCH => .ok .OPERATION_TOUCH
    | .other _ => .panic "unknown tuple mutation"
  op.bind fun op =>
    (ToRelationship update.Tuple).bind fun rel => .ok { Operation := op, Relationship := rel }

/-- Go `UpdateFromRelationshipUpdate` converts a RelationshipUpdate into a
RelationTupleUpdate; the first argument is the recursion budget of `FromRelationship`. -/
def UpdateFromRelationshipUpdate (fuel : Nat) (update : RelationshipUpdate) :
    Result RelationTupleUpdate :=
  let op : Result RelationTupleUpdate_Operation :=
    match update.Operation with
    | .OPERATION_CREATE => .ok .CREATE
    | .OPERATION_DELETE => .ok .DELETE
    | .OPERATION_TOUCH => .ok .TOUCH
    | .other _ => .panic "unknown tuple mutation"
  op.bind fun op =>
    (FromRelationship fuel update.Relationship).bind fun tpl => .ok { Operation := op, Tuple := tpl }

end tuple


/-! ## The zedtoken package and the libraries it calls -/

/-- A Go string or byte slice as its sequence of bytes, each byte a number below 256. -/
abbrev Bytes := List Nat

deriving instance DecidableEq for Except

/-- The bytes of an ASCII literal. -/
def ascii (s : String) : Bytes := s.data.map Char.toNat

namespace utf8

/-- A continuation byte `10xxxxxx`. -/
def isCont (b : Nat) : Bool := decide (0x80 ≤ b) && decide (b ≤ 0xBF)

/-- Go `utf8.Valid`: the bytes are a sequence of well-formed UTF-8 encodings. -/
def Valid : Bytes → Bool
  | [] => true
  | b0 :: rest =>
    if b0 < 0x80 then Valid rest
    else match rest with
      | [] => false
      | b1 :: rest1 =>
        if 0xC2 ≤ b0 ∧ b0 ≤ 0xDF then isCont b1 && Valid rest1
        else match rest1 with
          | [] => false
          | b2 :: rest2 =>
            if b0 = 0xE0 then decide (0xA0 ≤ b1) && decide (b1 ≤ 0xBF) && isCont b2 && Valid rest2
            else if b0 = 0xED then decide (0x80 ≤ b1) && decide (b1 ≤ 0x9F) && isCont b2 && Valid rest2
            else if 0xE1 ≤ b0 ∧ b0 ≤ 0xEF then isCont b1 && isCont b2 && Valid rest2
            else match rest2 with
              | [] => false
              | b3 :: rest3 =>
                if b0 = 0xF0 then
                  decide (0x90 ≤ b1) && decide (b1 ≤ 0xBF) && isCont b2 && isCont b3 && Valid rest3
                else if b0 = 0xF4 then
                  decide (0x80 ≤ b1) && decide (b1 ≤ 0x8F) && isCont b2 && isCont b3 && Valid rest3
                else if 0xF1 ≤ b0 ∧ b0 ≤ 0xF3 then
                  isCont b1 && isCont b2 && isCont b3 && Valid rest3
                else false

end utf8

namespace base64

/-- The character of the standard alphabet for a 6-bit value. -/
def encodeSextet (i : Nat) : Nat :=
  if i < 26 then 65 + i
  else if i < 52 then 97 + (i - 26)
  else if i < 62 then 48 + (i - 52)
  else if i = 62 then 43
  else 47

/-- The 6-bit value of a character of the standard alphabet. -/
def decodeSextet (c : Nat) : Option Nat :=
  if 65 ≤ c ∧ c ≤ 90 then some (c - 65)
  else if 97 ≤ c ∧ c ≤ 122 then some (c - 97 + 26)
  else if 48 ≤ c ∧ c ≤ 57 then some (c - 48 + 52)
  else if c = 43 then some 62
  else if c = 47 then some 63
  else none

/-- The padding character `=`. -/
def padChar : Nat := 61

/-- Go `StdEncoding.EncodeToString`. -/
def EncodeToString : Bytes → Bytes
  | [] => []
  | [a] => [encodeSextet (a / 4), encodeSextet (a % 4 * 16), padChar, padChar]
  | [a, b] =>
    [encodeSextet (a / 4), encodeSextet (a % 4 * 16 + b / 16), encodeSextet (b % 16 * 4), padChar]
  | a :: b :: c :: rest =>
    encodeSextet (a / 4) :: encodeSextet (a % 4 * 16 + b / 16) ::
      encodeSextet (b % 16 * 4 + c / 64) :: encodeSextet (c % 64) :: EncodeToString rest

/-- Decoding of the text once line breaks are left out, four characters at a time; a
padded group must be the last one. `none` is a `CorruptInputError`. -/
def decodeQuanta : Bytes → Option Bytes
  | [] => some []
  | a :: b :: c :: d :: rest =>
    match decodeSextet a, decodeSextet b with
    | some s0, some s1 =>
      match decodeSextet c, decodeSextet d with
      | some s2, some s3 =>
        match decodeQuanta rest with
        | some out =>
          some ((s0 * 4 + s1 / 16) % 256 :: (s1 * 16 + s2 / 4) % 256 :: (s2 * 64 + s3) % 256 :: out)
        | none => none
      | some s2, none =>
        if d = padChar ∧ rest = [] then some [(s0 * 4 + s1 / 16) % 256, (s1 * 16 + s2 / 4) % 256]
        else none
      | none, _ =>
        if c = padChar ∧ d = padChar ∧ rest = [] then some [(s0 * 4 + s1 / 16) % 256] else none
    | _, _ => none
  | _ => none

/-- Go `StdEncoding.DecodeString`: carriage returns and line feeds are skipped. -/
def DecodeString (s : Bytes) : Option Bytes :=
  decodeQuanta (s.filter fun c => c != 10 && c != 13)

end base64


namespace decimal

/-- The arbitrary-precision decimal of `shopspring/decimal`: `value * 10 ^ exp`, where
`exp` is a 32-bit integer. -/
structure Decimal where
  value : Int
  exp : Int
deriving DecidableEq, Repr

/-- Decimal digits of `n`, most significant first; `fuel` bounds the number of digits. -/
def natDigits : Nat → Nat → Bytes
  | 0, _ => []
  | fuel + 1, n => if n < 10 then [48 + n] else natDigits fuel (n / 10) ++ [48 + n % 10]

/-- The text of a natural number in base 10. -/
def natToString (n : Nat) : Bytes := natDigits (n + 1) n

/-- Go `big.Int.String`: base 10 with a leading `-` for negative numbers. -/
def intToString (z : Int) : Bytes :=
  if z < 0 then 45 :: natToString z.natAbs else natToString z.natAbs

/-- Removal of the zeros at the end of the fractional part. -/
def trimTrailingZeros (l : Bytes) : Bytes :=
  (l.reverse.dropWhile fun c => c == 48).reverse

/-- Go `Decimal.String`: the fixed-point text, without the zeros at the end of the
fractional part. -/
def Decimal.String (d : Decimal) : Bytes :=
  if 0 ≤ d.exp then intToString (d.value * 10 ^ d.exp.toNat)
  else
    let str := natToString d.value.natAbs
    let e := (-d.exp).toNat
    let intPart := if str.length > e then str.take (str.length - e) else [48]
    let fractionalPart :=
      if str.length > e then str.drop (str.length - e)
      else List.replicate (e - str.length) 48 ++ str
    let fractionalPart := trimTrailingZeros fractionalPart
    let number := if fractionalPart.length > 0 then intPart ++ 46 :: fractionalPart else intPart
    if d.value < 0 then 45 :: number else number

/-- A decimal digit. -/
def isDigit (c : Nat) : Bool := decide (48 ≤ c) && decide (c ≤ 57)

/-- Value of a sequence of decimal digits. -/
def ofDigits (l : Bytes) : Nat := l.foldl (fun acc c => acc * 10 + (c - 48)) 0

/-- A nonempty sequence of decimal digits as a number. -/
def parseNat (l : Bytes) : Option Nat :=
  if l ≠ [] ∧ l.all isDigit then some (ofDigits l) else none

/-- An optional sign and a nonempty sequence of decimal digits, as `strconv.ParseInt` and
`big.Int.SetString` read them in base 10. -/
def parseInt (l : Bytes) : Option Int :=
  match l with
  | 43 :: ds => (parseNat ds).map fun n => (n : Int)
  | 45 :: ds => (parseNat ds).map fun n => -(n : Int)
  | ds => (parseNat ds).map fun n => (n : Int)

def MinInt32 : Int := -2147483648
def MaxInt32 : Int := 2147483647

/-- Go `NewFromString`: an integer part, an optional fractional part after one `.`, and
an optional exponent after `e` or `E`. The result is the error text when the input is not
a number. -/
def NewFromString (value : Bytes) : Except String Decimal :=
  let mantissa := value.takeWhile fun c => c != 69 && c != 101
  let expPart : Except String Int :=
    match value.dropWhile fun c => c != 69 && c != 101 with
    | [] => .ok 0
    | _ :: e =>
      match parseInt e with
      | none => .error "can't convert to decimal: exponent is not numeric"
      | some x =>
        if x < MinInt32 ∨ x > MaxInt32 then .error "can't convert to decimal: fractional part too long"
        else .ok x
  match expPart with
  | .error msg => .error msg
  | .ok exp0 =>
    let intPart := mantissa.takeWhile fun c => c != 46
    let pointAndFraction := mantissa.dropWhile fun c => c != 46
    let fractional := pointAndFraction.drop 1
    if fractional.contains 46 then .error "can't convert to decimal: too many .s"
    else
      let intString := intPart ++ fractional
      let exp := if pointAndFraction = [] then exp0 else exp0 - (fractional.length : Int)
      match parseInt intString with
      | none => .error "can't convert to decimal"
      | some dValue =>
        if exp < MinInt32 ∨ exp > MaxInt32 then
          .error "can't convert to decimal: fractional part too long"
        else .ok { value := dValue, exp := exp }

/-- The fixed-point text with sign `neg`, integer digits `ip` and fractional digits `fp`. -/
def fixedText (neg : Bool) (ip fp : Bytes) : Bytes :=
  (if neg then [45] else []) ++ (ip ++ (if fp.length > 0 then 46 :: fp else []))

/-- Go `NewFromInt`. -/
def NewFromInt (value : Int) : Decimal := { value := value, exp := 0 }

/-- Go `decimal.Zero`, which is `New(0, 1)`. -/
def Zero : Decimal := { value := 0, exp := 1 }

/-- Go `Decimal.Equal`: both numbers are brought to the smaller exponent and the
integers compared. -/
def Decimal.Equal (d d2 : Decimal) : Bool :=
  let m := min d.exp d2.exp
  d.value * 10 ^ (d.exp - m).toNat == d2.value * 10 ^ (d2.exp - m).toNat

end decimal


namespace zedtoken

/-- The v1 `ZedToken` message. -/
structure ZedToken where
  Token : Bytes
deriving DecidableEq, Repr

/-- Modelled from the spec: the generated message `DecodedZedToken.V1Zookie` belongs to
the package `internal/proto/impl/v1`, which is not among the sources at hand. Section 3:
the legacy variant holds the revision as a fixed-width 64-bit integer. `DecodeRevision`
reads the field through the conversion `int64(...)`, which Go code needs only for a field
that is not an `int64` already: the field is the unsigned 64-bit integer that the varint
on the wire encodes. -/
structure DecodedZedToken_V1Zookie where
  Revision : Nat
deriving DecidableEq, Repr

/-- Modelled from the spec: the generated message `DecodedZedToken.V1ZedToken` (package
`internal/proto/impl/v1`, not among the sources at hand). Section 3: the current variant
holds the revision rendered as text. -/
structure DecodedZedToken_V1ZedToken where
  Revision : Bytes
deriving DecidableEq, Repr

/-- Modelled from the spec: the two alternatives of the oneof `version_oneof` (section 3:
exactly one of the legacy variant and the current variant). -/
inductive isDecodedZedToken_VersionOneof where
  | DeprecatedV1Zookie (m : DecodedZedToken_V1Zookie)
  | V1 (m : DecodedZedToken_V1ZedToken)
deriving DecidableEq, Repr

/-- Modelled from the spec: the generated message `DecodedZedToken`, the envelope of
section 3; `none` is the unset oneof. -/
structure DecodedZedToken where
  VersionOneof : Option isDecodedZedToken_VersionOneof
deriving DecidableEq, Repr

end zedtoken

namespace protowire

/-- Base-128 digits of `v`, least significant first, every byte but the last one with
the continuation bit. -/
def appendVarintAux : Nat → Nat → Bytes
  | 0, _ => []
  | fuel + 1, v => if v < 128 then [v] else (v % 128 + 128) :: appendVarintAux fuel (v / 128)

/-- Go `protowire.AppendVarint` for an unsigned 64-bit number: at most ten bytes. -/
def AppendVarint (v : Nat) : Bytes := appendVarintAux 10 (v % 2 ^ 64)

/-- Reading of a varint of at most `fuel` bytes; the tenth byte may only be 0 or 1. -/
def consumeVarintAux : Nat → Bytes → Option (Nat × Bytes)
  | 0, _ => none
  | _, [] => none
  | fuel + 1, b :: rest =>
    if b < 128 then
      if fuel = 0 ∧ 2 ≤ b then none else some (b, rest)
    else
      match consumeVarintAux fuel rest with
      | some (v, rest1) => some (b % 128 + 128 * v, rest1)
      | none => none

/-- Go `protowire.ConsumeVarint`: the number and the bytes after it. -/
def ConsumeVarint (b : Bytes) : Option (Nat × Bytes) := consumeVarintAux 10 b

/-- Go `protowire.ConsumeBytes`: a length and as many bytes. -/
def ConsumeBytes (b : Bytes) : Option (Bytes × Bytes) :=
  match ConsumeVarint b with
  | none => none
  | some (n, rest) => if n ≤ rest.length then some (rest.take n, rest.drop n) else none

/-- Reading of a tag: field number and wire type. Field number 0 and numbers above
`2 ^ 29 - 1` are invalid. -/
def ConsumeTag (b : Bytes) : Option (Nat × Nat × Bytes) :=
  match ConsumeVarint b with
  | none => none
  | some (t, rest) =>
    if t / 8 = 0 ∨ t / 8 > 536870911 then none else some (t / 8, t % 8, rest)

/-- Go `protowire.ConsumeFieldValue`: the bytes after the value of a field of wire type
`typ`; a group runs to the end-group tag with its own number. `fuel` bounds the nesting
and the number of fields read. -/
def ConsumeFieldValue : Nat → Nat → Nat → Bytes → Option Bytes
  | 0, _, _, _ => none
  | fuel + 1, num, typ, b =>
    if typ = 0 then (ConsumeVarint b).map fun r => r.2
    else if typ = 1 then (if 8 ≤ b.length then some (b.drop 8) else none)
    else if typ = 2 then (ConsumeBytes b).map fun r => r.2
    else if typ = 5 then (if 4 ≤ b.length then some (b.drop 4) else none)
    else if typ = 3 then
      match ConsumeTag b with
      | none => none
      | some (num2, typ2, rest) =>
        if typ2 = 4 then (if num2 = num then some rest else none)
        else
          match ConsumeFieldValue fuel num2 typ2 rest with
          | none => none
          | some rest2 => ConsumeFieldValue fuel num 3 rest2
    else none

end protowire

namespace proto

open zedtoken protowire

/-- Fields of `V1Zookie`: field 1 is the revision, a varint; other fields are skipped. -/
def unmarshalV1Zookie : Nat → Bytes → DecodedZedToken_V1Zookie → Option DecodedZedToken_V1Zookie
  | 0, _, _ => none
  | _ + 1, [], m => some m
  | fuel + 1, b, m =>
    match ConsumeTag b with
    | none => none
    | some (num, typ, rest) =>
      if num = 1 ∧ typ = 0 then
        match ConsumeVarint rest with
        | none => none
        | some (v, rest1) => unmarshalV1Zookie fuel rest1 { Revision := v }
      else
        match ConsumeFieldValue (rest.length + 1) num typ rest with
        | none => none
        | some rest1 => unmarshalV1Zookie fuel rest1 m

/-- Fields of `V1ZedToken`: field 1 is the revision, a string, which must be valid UTF-8;
other fields are skipped. -/
def unmarshalV1ZedToken :
    Nat → Bytes → DecodedZedToken_V1ZedToken → Option DecodedZedToken_V1ZedToken
  | 0, _, _ => none
  | _ + 1, [], m => some m
  | fuel + 1, b, m =>
    match ConsumeTag b with
    | none => none
    | some (num, typ, rest) =>
      if num = 1 ∧ typ = 2 then
        match ConsumeBytes rest with
        | none => none
        | some (v, rest1) =>
          if utf8.Valid v then unmarshalV1ZedToken fuel rest1 { Revision := v } else none
      else
        match ConsumeFieldValue (rest.length + 1) num typ rest with
        | none => none
        | some rest1 => unmarshalV1ZedToken fuel rest1 m

/-- Fields of the envelope: field 2 is the legacy variant and field 3 the current one,
both embedded messages. A later occurrence of the same variant is merged into the earlier
one, another variant replaces it; other fields are skipped. -/
def unmarshalDecodedZedToken : Nat → Bytes → DecodedZedToken → Option DecodedZedToken
  | 0, _, _ => none
  | _ + 1, [], m => some m
  | fuel + 1, b, m =>
    match ConsumeTag b with
    | none => none
    | some (num, typ, rest) =>
      if num = 2 ∧ typ = 2 then
        match ConsumeBytes rest with
        | none => none
        | some (v, rest1) =>
          let init : DecodedZedToken_V1Zookie :=
            match m.VersionOneof with
            | some (.DeprecatedV1Zookie old) => old
            | _ => { Revision := 0 }
          match unmarshalV1Zookie (v.length + 1) v init with
          | none => none
          | some inner =>
            unmarshalDecodedZedToken fuel rest1 { VersionOneof := some (.DeprecatedV1Zookie inner) }
      else if num = 3 ∧ typ = 2 then
        match ConsumeBytes rest with
        | none => none
        | some (v, rest1) =>
          let init : DecodedZedToken_V1ZedToken :=
            match m.VersionOneof with
            | some (.V1 old) => old
            | _ => { Revision := [] }
          match unmarshalV1ZedToken (v.length + 1) v init with
          | none => none
          | some inner => unmarshalDecodedZedToken fuel rest1 { VersionOneof := some (.V1 inner) }
      else
        match ConsumeFieldValue (rest.length + 1) num typ rest with
        | none => none
        | some rest1 => unmarshalDecodedZedToken fuel rest1 m

/-- Go `proto.Unmarshal` into an empty `DecodedZedToken`; `none` is the parse error. -/
def Unmarshal (b : Bytes) : Option DecodedZedToken :=
  unmarshalDecodedZedToken (b.length + 1) b { VersionOneof := none }

/-- Wire form of `V1Zookie`: a zero revision is left out. -/
def marshalV1Zookie (m : DecodedZedToken_V1Zookie) : Bytes :=
  if m.Revision % 2 ^ 64 = 0 then [] else 0x08 :: AppendVarint m.Revision

/-- Wire form of `V1ZedToken`: an empty revision is left out. -/
def marshalV1ZedToken (m : DecodedZedToken_V1ZedToken) : Bytes :=
  if m.Revision = [] then [] else 0x0a :: (AppendVarint m.Revision.length ++ m.Revision)

/-- Go `proto.Marshal` of a `DecodedZedToken`; `none` is the marshalling error, raised
for a string that is not valid UTF-8. -/
def Marshal (m : DecodedZedToken) : Option Bytes :=
  match m.VersionOneof with
  | none => some []
  | some (.DeprecatedV1Zookie z) =>
    some (0x12 :: (AppendVarint (marshalV1Zookie z).length ++ marshalV1Zookie z))
  | some (.V1 z) =>
    if utf8.Valid z.Revision then
      some (0x1a :: (AppendVarint (marshalV1ZedToken z).length ++ marshalV1ZedToken z))
    else none

end proto

namespace zedtoken

/-- Go errors of the package: the sentinel, the errors of the libraries, and wrapping
with `%w`. -/
inductive Error where
  | ErrNilZedToken
  | CorruptInputError
  | protoError
  | utf8Error
  | decimalError (msg : String)
  | errorf (msg : String)
  | wrap (format : String) (cause : Error)
deriving DecidableEq, Repr

/-- Go `errors.Unwrap`. -/
def Error.Unwrap : Error → Option Error
  | .wrap _ cause => some cause
  | _ => none

/-- Go `errors.Is`: the target is reached along the chain of causes. -/
def Error.Is : Error → Error → Bool
  | .wrap f cause, target => decide (Error.wrap f cause = target) || Error.Is cause target
  | e, target => decide (e = target)

def errEncodeError : String := "error encoding zedtoken: %w"
def errDecodeError : String := "error decoding zedtoken: %w"

/-- Go `Encode` converts a decoded zedtoken to its opaque version: the token, or the error
returned with a nil token. -/
def Encode (decoded : DecodedZedToken) : Except Error ZedToken :=
  match proto.Marshal decoded with
  | none => .error (.wrap errEncodeError .utf8Error)
  | some marshalled => .ok { Token := base64.EncodeToString marshalled }

/-- Go `NewFromRevision` generates an encoded zedtoken from an integral revision. -/
def NewFromRevision (revision : decimal.Decimal) : Result ZedToken :=
  let toEncode : DecodedZedToken := { VersionOneof := some (.V1 { Revision := revision.String }) }
  match Encode toEncode with
  | .error _ =>
    .panic "error encoding zedtoken: error encoding zedtoken: string field contains invalid UTF-8"
  | .ok encoded => .ok encoded

/-- Go `Decode` converts an encoded zedtoken to its decoded version: the envelope, or the
error returned with a nil envelope. -/
def Decode (encoded : Option ZedToken) : Except Error DecodedZedToken :=
  match encoded with
  | none => .error (.wrap errDecodeError .ErrNilZedToken)
  | some enc =>
    match base64.DecodeString enc.Token with
    | none => .error (.wrap errDecodeError .CorruptInputError)
    | some decodedBytes =>
      match proto.Unmarshal decodedBytes with
      | none => .error (.wrap errDecodeError .protoError)
      | some decoded => .ok decoded

/-- Go conversion `int64(x)` of an unsigned 64-bit number: the same 64 bits read as a
signed number. -/
def toInt64 (x : Nat) : Int :=
  if x % 2 ^ 64 < 2 ^ 63 then ((x % 2 ^ 64 : Nat) : Int) else ((x % 2 ^ 64 : Nat) : Int) - 2 ^ 64

/-- Go `DecodeRevision` converts and extracts the revision from a zedtoken or legacy
zookie. -/
def DecodeRevision (encoded : Option ZedToken) : decimal.Decimal × Option Error :=
  match Decode encoded with
  | .error err => (decimal.Zero, some err)
  | .ok decoded =>
    match decoded.VersionOneof with
    | some (.DeprecatedV1Zookie ver) => (decimal.NewFromInt (toInt64 ver.Revision), none)
    | some (.V1 ver) =>
      match decimal.NewFromString ver.Revision with
      | .error msg => (decimal.Zero, some (.wrap errDecodeError (.decimalError msg)))
      | .ok parsed => (parsed, none)
    | none =>
      (decimal.Zero, some (.wrap errDecodeError (.errorf "unknown zookie version: <nil>")))

end zedtoken

/-! ## The matcher and its capture-free reading -/

namespace regexp

theorem repM_map {σ τ : Type} (g : σ → τ) (f : σ → List σ) (f1 : τ → List τ)
    (h : ∀ st, (f st).map g = f1 (g st)) (max : Nat) :
    ∀ (min : Nat) (st : σ), (repM f min max st).map g = repM f1 min max (g st) := by
  induction max with
  | zero =>
    intro min st
    cases min <;> simp [repM]
  | succ k ih =>
    intro min st
    cases min with
    | zero =>
      simp only [repM, List.map_append, List.map_flatMap, List.map_cons, List.map_nil]
      rw [← h st, List.flatMap_map]
      simp only [ih]
    | succ m =>
      simp only [repM, List.map_flatMap]
      rw [← h st, List.flatMap_map]
      simp only [ih]

theorem step_rest (p : Char → Bool) (st : MState) :
    (step p st).map (fun x => x.rest) = stepL p st.rest := by
  unfold step stepL
  cases st.rest with
  | nil => rfl
  | cons c cs => by_cases hc : p c <;> simp [hc]

/-- The texts left over by `run` are those of `accepts`, in the same order. -/
theorem run_rest (r : Re) : noBol r = true → ∀ (b : Nat) (st : MState),
    (run r b st).map (fun x => x.rest) = accepts r st.rest := by
  induction r with
  | chr c => intro _ b st; simpa [run, accepts] using step_rest _ st
  | cls rs => intro _ b st; simpa [run, accepts] using step_rest _ st
  | cat a b iha ihb =>
    intro h base st
    simp only [noBol, Bool.and_eq_true] at h
    simp only [run, accepts, List.map_flatMap]
    rw [← iha h.1 base st, List.flatMap_map]
    simp only [ihb h.2]
  | alt a b iha ihb =>
    intro h base st
    simp only [noBol, Bool.and_eq_true] at h
    simp only [run, accepts, List.map_append, iha h.1, ihb h.2]
  | rep r min max ih =>
    intro h base st
    simp only [noBol] at h
    simp only [run, accepts]
    exact repM_map (fun x => x.rest) (run r base) (accepts r) (ih h base) max min st
  | opt r ih =>
    intro h base st
    simp only [noBol] at h
    simp only [run, accepts, List.map_append, ih h, List.map_cons, List.map_nil]
  | grp n r ih =>
    intro h base st
    simp only [noBol] at h
    simp only [run, accepts, List.map_map]
    rw [← ih h (base + 1) st]
    rfl
  | bol => intro h; simp [noBol] at h
  | eol =>
    intro _ base st
    simp only [run, accepts]
    by_cases hs : st.rest = [] <;> simp [hs]

theorem stepL_mem (p : Char → Bool) (s x : List Char) :
    x ∈ stepL p s ↔ ∃ c, p c = true ∧ s = c :: x := by
  unfold stepL
  cases s with
  | nil => simp
  | cons c cs =>
    by_cases hc : p c
    · simp only [hc, if_true, List.mem_singleton, List.cons.injEq]
      constructor
      · intro h; exact ⟨c, hc, rfl, h.symm⟩
      · rintro ⟨d, _, _, h⟩; exact h.symm
    · simp only [hc, List.cons.injEq]
      constructor
      · intro h; simp at h
      · rintro ⟨d, hd, h1, _⟩; subst h1; exact absurd hd hc

theorem repM_extend (f : List Char → List (List Char)) (t : List Char)
    (hf : ∀ w x, x ∈ f w → x ++ t ∈ f (w ++ t)) (max : Nat) :
    ∀ (min : Nat) (w x : List Char), x ∈ repM f min max w → x ++ t ∈ repM f min max (w ++ t) := by
  induction max with
  | zero =>
    intro min w x h
    cases min with
    | zero => simp only [repM, List.mem_singleton] at h ⊢; rw [h]
    | succ m => simp [repM] at h
  | succ k ih =>
    intro min w x h
    cases min with
    | zero =>
      simp only [repM, List.mem_append, List.mem_flatMap, List.mem_singleton] at h ⊢
      rcases h with ⟨y, hy, hx⟩ | h
      · exact Or.inl ⟨y ++ t, hf w y hy, ih 0 y x hx⟩
      · exact Or.inr (by rw [h])
    | succ m =>
      simp only [repM, List.mem_flatMap] at h ⊢
      obtain ⟨y, hy, hx⟩ := h
      exact ⟨y ++ t, hf w y hy, ih m y x hx⟩

/-- A match of a text without anchors is still a match when more text follows. -/
theorem accepts_extend (r : Re) (t : List Char) : anchorFree r = true →
    ∀ (w x : List Char), x ∈ accepts r w → x ++ t ∈ accepts r (w ++ t) := by
  induction r with
  | chr c =>
    intro _ w x h
    simp only [accepts, stepL_mem] at h ⊢
    obtain ⟨d, hd, hw⟩ := h
    exact ⟨d, hd, by rw [hw]; rfl⟩
  | cls rs =>
    intro _ w x h
    simp only [accepts, stepL_mem] at h ⊢
    obtain ⟨d, hd, hw⟩ := h
    exact ⟨d, hd, by rw [hw]; rfl⟩
  | cat a b iha ihb =>
    intro h w x hx
    simp only [anchorFree, Bool.and_eq_true] at h
    simp only [accepts, List.mem_flatMap] at hx ⊢
    obtain ⟨y, hy, hx⟩ := hx
    exact ⟨y ++ t, iha h.1 w y hy, ihb h.2 y x hx⟩
  | alt a b iha ihb =>
    intro h w x hx
    simp only [anchorFree, Bool.and_eq_true] at h
    simp only [accepts, List.mem_append] at hx ⊢
    rcases hx with hx | hx
    · exact Or.inl (iha h.1 w x hx)
    · exact Or.inr (ihb h.2 w x hx)
  | rep r min max ih =>
    intro h w x hx
    simp only [anchorFree] at h
    simp only [accepts] at hx ⊢
    exact repM_extend (accepts r) t (ih h) max min w x hx
  | opt r ih =>
    intro h w x hx
    simp only [anchorFree] at h
    simp only [accepts, List.mem_append, List.mem_singleton] at hx ⊢
    rcases hx with hx | hx
    · exact Or.inl (ih h w x hx)
    · exact Or.inr (by rw [hx])
  | grp n r ih =>
    intro h w x hx
    simp only [anchorFree] at h
    simp only [accepts] at hx ⊢
    exact ih h w x hx
  | bol => intro h; simp [anchorFree] at h
  | eol => intro h; simp [anchorFree] at h

theorem repM_consumed (f : List Char → List (List Char)) (A : Char → Bool)
    (hext : ∀ t w x, x ∈ f w → x ++ t ∈ f (w ++ t))
    (hf : ∀ s x, x ∈ f s → ∃ w, s = w ++ x ∧ [] ∈ f w ∧ ∀ c ∈ w, A c = true) (max : Nat) :
    ∀ (min : Nat) (s x : List Char), x ∈ repM f min max s →
      ∃ w, s = w ++ x ∧ [] ∈ repM f min max w ∧ ∀ c ∈ w, A c = true := by
  induction max with
  | zero =>
    intro min s x h
    cases min with
    | zero =>
      simp only [repM, List.mem_singleton] at h
      exact ⟨[], by simp [h], by simp [repM], by simp⟩
    | succ m => simp [repM] at h
  | succ k ih =>
    intro min s x h
    have key : ∀ (m : Nat) (y : List Char), y ∈ f s → x ∈ repM f m k y →
        ∃ w, s = w ++ x ∧ (∃ z, z ∈ f w ∧ [] ∈ repM f m k z) ∧ ∀ c ∈ w, A c = true := by
      intro m y hy hx
      obtain ⟨w1, hs, hw1, ha1⟩ := hf s y hy
      obtain ⟨w2, hy2, hw2, ha2⟩ := ih m y x hx
      refine ⟨w1 ++ w2, by rw [hs, hy2, List.append_assoc], ⟨w2, ?_, hw2⟩, ?_⟩
      · simpa using hext w2 w1 [] hw1
      · intro c hc
        rcases List.mem_append.mp hc with hc | hc
        · exact ha1 c hc
        · exact ha2 c hc
    cases min with
    | zero =>
      simp only [repM, List.mem_append, List.mem_flatMap, List.mem_singleton] at h ⊢
      rcases h with ⟨y, hy, hx⟩ | h
      · obtain ⟨w, hs, hz, ha⟩ := key 0 y hy hx
        exact ⟨w, hs, Or.inl hz, ha⟩
      · exact ⟨[], by simp [h], Or.inr rfl, by simp⟩
    | succ m =>
      simp only [repM, List.mem_flatMap] at h ⊢
      obtain ⟨y, hy, hx⟩ := h
      exact key m y hy hx

/-- What `accepts` leaves over is a final segment of the text, and the part read is
itself matched and drawn from the alphabet of the expression. -/
theorem accepts_consumed (r : Re) : anchorFree r = true →
    ∀ (s x : List Char), x ∈ accepts r s →
      ∃ w, s = w ++ x ∧ [] ∈ accepts r w ∧ ∀ c ∈ w, alphabet r c = true := by
  induction r with
  | chr c =>
    intro _ s x h
    simp only [accepts, stepL_mem] at h
    obtain ⟨d, hd, hs⟩ := h
    refine ⟨[d], by simp [hs], ?_, ?_⟩
    · simp only [accepts, stepL_mem]; exact ⟨d, hd, rfl⟩
    · intro e he; simp only [List.mem_singleton] at he; subst he; simpa [alphabet] using hd
  | cls rs =>
    intro _ s x h
    simp only [accepts, stepL_mem] at h
    obtain ⟨d, hd, hs⟩ := h
    refine ⟨[d], by simp [hs], ?_, ?_⟩
    · simp only [accepts, stepL_mem]; exact ⟨d, hd, rfl⟩
    · intro e he; simp only [List.mem_singleton] at he; subst he; simpa [alphabet] using hd
  | cat a b iha ihb =>
    intro h s x hx
    simp only [anchorFree, Bool.and_eq_true] at h
    simp only [accepts, List.mem_flatMap] at hx
    obtain ⟨y, hy, hx⟩ := hx
    obtain ⟨w1, hs, hw1, ha1⟩ := iha h.1 s y hy
    obtain ⟨w2, hy2, hw2, ha2⟩ := ihb h.2 y x hx
    refine ⟨w1 ++ w2, by rw [hs, hy2, List.append_assoc], ?_, ?_⟩
    · simp only [accepts, List.mem_flatMap]
      exact ⟨w2, by simpa using accepts_extend a w2 h.1 w1 [] hw1, hw2⟩
    · intro c hc
      simp only [alphabet, Bool.or_eq_true]
      rcases List.mem_append.mp hc with hc | hc
      · exact Or.inl (ha1 c hc)
      · exact Or.inr (ha2 c hc)
  | alt a b iha ihb =>
    intro h s x hx
    simp only [anchorFree, Bool.and_eq_true] at h
    simp only [accepts, List.mem_append] at hx
    rcases hx with hx | hx
    · obtain ⟨w, hs, hw, ha⟩ := iha h.1 s x hx
      exact ⟨w, hs, by simp only [accepts, List.mem_append]; exact Or.inl hw,
        fun c hc => by simp only [alphabet, Bool.or_eq_true]; exact Or.inl (ha c hc)⟩
    · obtain ⟨w, hs, hw, ha⟩ := ihb h.2 s x hx
      exact ⟨w, hs, by simp only [accepts, List.mem_append]; exact Or.inr hw,
        fun c hc => by simp only [alphabet, Bool.or_eq_true]; exact Or.inr (ha c hc)⟩
  | rep r min max ih =>
    intro h s x hx
    simp only [anchorFree] at h
    simp only [accepts] at hx ⊢
    exact repM_consumed (accepts r) (alphabet r) (fun t => accepts_extend r t h) (ih h)
      max min s x hx
  | opt r ih =>
    intro h s x hx
    simp only [anchorFree] at h
    simp only [accepts, List.mem_append, List.mem_singleton] at hx
    rcases hx with hx | hx
    · obtain ⟨w, hs, hw, ha⟩ := ih h s x hx
      exact ⟨w, hs, by simp only [accepts, List.mem_append]; exact Or.inl hw, ha⟩
    · exact ⟨[], by simp [hx], by simp [accepts], by simp⟩
  | grp n r ih =>
    intro h s x hx
    simp only [anchorFree] at h
    simp only [accepts] at hx
    obtain ⟨w, hs, hw, ha⟩ := ih h s x hx
    exact ⟨w, hs, by simpa only [accepts] using hw, ha⟩
  | bol => intro h; simp [anchorFree] at h
  | eol => intro h; simp [anchorFree] at h

theorem Frame.refl (lo hi : Nat) (x : MState) : Frame lo hi x x := ⟨rfl, fun _ _ => rfl⟩

theorem Frame.trans {lo hi : Nat} {x y z : MState} (h1 : Frame lo hi x y) (h2 : Frame lo hi y z) :
    Frame lo hi x z :=
  ⟨h2.1.trans h1.1, fun i hi => (h2.2 i hi).trans (h1.2 i hi)⟩

theorem Frame.mono {lo hi lo1 hi1 : Nat} {x y : MState} (h : Frame lo hi x y)
    (hlo : lo1 ≤ lo) (hhi : hi ≤ hi1) : Frame lo1 hi1 x y :=
  ⟨h.1, fun i hi => h.2 i (by omega)⟩

theorem step_frame (p : Char → Bool) (lo hi : Nat) (st y : MState) (h : y ∈ step p st) :
    Frame lo hi st y := by
  unfold step at h
  cases hr : st.rest with
  | nil => simp [hr] at h
  | cons c cs =>
    simp only [hr] at h
    by_cases hc : p c
    · simp only [hc, if_true, List.mem_singleton] at h
      subst h
      exact ⟨rfl, fun _ _ => rfl⟩
    · simp [hc] at h

theorem repM_frame (f : MState → List MState) (lo hi : Nat)
    (hf : ∀ st y, y ∈ f st → Frame lo hi st y) (max : Nat) :
    ∀ (min : Nat) (st y : MState), y ∈ repM f min max st → Frame lo hi st y := by
  induction max with
  | zero =>
    intro min st y h
    cases min with
    | zero => simp only [repM, List.mem_singleton] at h; subst h; exact Frame.refl _ _ _
    | succ m => simp [repM] at h
  | succ k ih =>
    intro min st y h
    cases min with
    | zero =>
      simp only [repM, List.mem_append, List.mem_flatMap, List.mem_singleton] at h
      rcases h with ⟨z, hz, hy⟩ | h
      · exact (hf st z hz).trans (ih 0 z y hy)
      · subst h; exact Frame.refl _ _ _
    | succ m =>
      simp only [repM, List.mem_flatMap] at h
      obtain ⟨z, hz, hy⟩ := h
      exact (hf st z hz).trans (ih m z y hy)

/-- Matching `r` with `b` groups opened before it writes only to the slots of its own groups. -/
theorem run_frame (r : Re) : ∀ (b : Nat) (st y : MState), y ∈ run r b st →
    Frame b (b + numGroups r) st y := by
  induction r with
  | chr c => intro b st y h; exact step_frame _ _ _ st y h
  | cls rs => intro b st y h; exact step_frame _ _ _ st y h
  | cat a c iha ihc =>
    intro b st y h
    simp only [run, List.mem_flatMap] at h
    obtain ⟨z, hz, hy⟩ := h
    simp only [numGroups]
    exact ((iha b st z hz).mono (Nat.le_refl _) (by omega)).trans
      ((ihc _ z y hy).mono (by omega) (by omega))
  | alt a c iha ihc =>
    intro b st y h
    simp only [run, List.mem_append] at h
    simp only [numGroups]
    rcases h with h | h
    · exact (iha b st y h).mono (Nat.le_refl _) (by omega)
    · exact (ihc _ st y h).mono (by omega) (by omega)
  | rep r min max ih =>
    intro b st y h
    simp only [run] at h
    simp only [numGroups]
    exact repM_frame (run r b) _ _ (ih b) max min st y h
  | opt r ih =>
    intro b st y h
    simp only [run, List.mem_append, List.mem_singleton] at h
    simp only [numGroups]
    rcases h with h | h
    · exact ih b st y h
    · subst h; exact Frame.refl _ _ _
  | grp n r ih =>
    intro b st y h
    simp only [run, List.mem_map] at h
    obtain ⟨z, hz, hy⟩ := h
    subst hy
    have hfr := ih (b + 1) st z hz
    refine ⟨?_, ?_⟩
    · simp only [capture, List.length_set]; exact hfr.1
    · intro i hi
      simp only [numGroups] at hi
      have hne : b + 1 ≠ i := by omega
      simp only [capture, List.getElem?_set_ne hne]
      exact hfr.2 i (by omega)
  | bol =>
    intro b st y h
    simp only [run] at h
    by_cases hp : st.pos = 0
    · simp only [hp, if_true, List.mem_singleton] at h; subst h; exact Frame.refl _ _ _
    · simp [hp] at h
  | eol =>
    intro b st y h
    simp only [run] at h
    by_cases hp : st.rest = []
    · simp only [hp, if_true, List.mem_singleton] at h; subst h; exact Frame.refl _ _ _
    · simp [hp] at h

/-- What a capture group around an anchor-free expression does: it reads a text `w`
matched by the expression and stores it in its own slot. -/
theorem run_grp_field (n : GoString) (r : Re) (hr : anchorFree r = true) (hb : noBol r = true)
    (b : Nat) (st y : MState) (h : y ∈ run (.grp n r) b st) (hlen : b + 1 < st.caps.length) :
    ∃ w, st.rest = w ++ y.rest ∧ Matches r w = true ∧ (∀ c ∈ w, alphabet r c = true) ∧
      y.caps[b + 1]? = some w ∧ Frame b (b + 1 + numGroups r) st y := by
  have hfr := run_frame (.grp n r) b st y h
  simp only [run, List.mem_map] at h
  obtain ⟨z, hz, hy⟩ := h
  have hzr : z.rest ∈ accepts r st.rest := by
    rw [← run_rest r hb (b + 1) st]
    exact List.mem_map.mpr ⟨z, hz, rfl⟩
  obtain ⟨w, hs, hw, ha⟩ := accepts_consumed r hr st.rest z.rest hzr
  have hz1 := (run_frame r (b + 1) st z hz).1
  subst hy
  refine ⟨w, by simpa [capture] using hs, by simpa [Matches] using hw, ha, ?_, ?_⟩
  · simp only [capture]
    rw [List.getElem?_set_self (by omega)]
    rw [hs]
    simp
  · simpa [numGroups, Nat.add_assoc, Nat.add_comm] using hfr

theorem mem_run_cat {a c : Re} {b : Nat} {st y : MState} :
    y ∈ run (.cat a c) b st ↔ ∃ z, z ∈ run a b st ∧ y ∈ run c (b + numGroups a) z := by
  simp only [run, List.mem_flatMap]

theorem mem_run_opt {r : Re} {b : Nat} {st y : MState} :
    y ∈ run (.opt r) b st ↔ y ∈ run r b st ∨ y = st := by
  simp only [run, List.mem_append, List.mem_singleton]

theorem mem_run_grp {n : GoString} {r : Re} {b : Nat} {st y : MState} :
    y ∈ run (.grp n r) b st ↔ ∃ z, z ∈ run r (b + 1) st ∧ capture (b + 1) st z = y := by
  simp only [run, List.mem_map]

theorem mem_run_chr {c : Char} {b : Nat} {st y : MState} (h : y ∈ run (.chr c) b st) :
    st.rest = c :: y.rest ∧ y.caps = st.caps := by
  simp only [run, step] at h
  cases hr : st.rest with
  | nil => simp [hr] at h
  | cons d ds =>
    simp only [hr] at h
    by_cases hc : d = c
    · simp only [hc, beq_self_eq_true, if_true, List.mem_singleton] at h
      subst h
      exact ⟨by rw [hc], rfl⟩
    · have : (d == c) = false := by simpa using hc
      simp [this] at h

theorem Frame.of_caps_eq {lo hi : Nat} {x y : MState} (h : y.caps = x.caps) : Frame lo hi x y :=
  ⟨by rw [h], fun _ _ => by rw [h]⟩

theorem matches_alphabet (r : Re) (hr : anchorFree r = true) (w : List Char)
    (h : Matches r w = true) : ∀ c ∈ w, alphabet r c = true := by
  have hm : [] ∈ accepts r w := by simpa [Matches] using h
  obtain ⟨w1, hs, _, ha⟩ := accepts_consumed r hr w [] hm
  simp only [List.append_nil] at hs
  subst hs
  exact ha

/-- With the `^` anchor a match can only start at offset 0. -/
theorem matchAt_anchored_pos (e : Re) (s : List Char) (k : Nat) :
    matchAt (tuple.anchored e) s (k + 1) = none := by
  simp [matchAt, tuple.anchored, run]

theorem tuple_anchored_def (e : Re) : tuple.anchored e = .cat .bol (.cat e .eol) := rfl

theorem find_anchored (e : Re) (s : List Char) (n : Nat) :
    (List.range (n + 1)).findSome? (matchAt (tuple.anchored e) s) =
      matchAt (tuple.anchored e) s 0 := by
  rw [List.range_succ_eq_map, List.findSome?_cons]
  cases h0 : matchAt (tuple.anchored e) s 0 with
  | some c => rfl
  | none =>
    simp only [List.findSome?_eq_none_iff, List.mem_map]
    rintro x ⟨k, _, rfl⟩
    exact matchAt_anchored_pos e s k

theorem mem_run_anchored (e : Re) (st y : MState) (hp : st.pos = 0) :
    y ∈ run (tuple.anchored e) 0 st ↔ y ∈ run e 0 st ∧ y.rest = [] := by
  simp only [tuple.anchored, run, hp, if_true, List.flatMap_cons, List.flatMap_nil,
    List.append_nil, List.mem_flatMap, numGroups, Nat.add_zero]
  constructor
  · rintro ⟨z, hz, hy⟩
    by_cases hr : z.rest = []
    · simp only [hr, if_true, List.mem_singleton] at hy
      subst hy
      exact ⟨hz, hr⟩
    · simp [hr] at hy
  · rintro ⟨hy, hr⟩
    exact ⟨y, hy, by simp [hr]⟩

/-- The thread a search starts from. -/
theorem matchAt_anchored_some (e : Re) (s : List Char) (caps : List (List Char))
    (h : matchAt (tuple.anchored e) s 0 = some caps) :
    ∃ y, y ∈ run e 0 ⟨0, s, List.replicate (numGroups e + 1) []⟩ ∧ y.rest = [] ∧
      caps = y.caps.set 0 s := by
  have hn : numGroups (tuple.anchored e) = numGroups e := by simp [tuple.anchored, numGroups]
  simp only [matchAt, List.drop_zero, hn] at h
  cases hl : run (tuple.anchored e) 0 ⟨0, s, List.replicate (numGroups e + 1) []⟩ with
  | nil => simp [hl] at h
  | cons st1 tl =>
    simp only [hl, Option.some.injEq] at h
    have hmem : st1 ∈ run (tuple.anchored e) 0 ⟨0, s, List.replicate (numGroups e + 1) []⟩ := by
      rw [hl]; exact List.mem_cons_self _ _
    obtain ⟨h1, h2⟩ := (mem_run_anchored e _ st1 rfl).mp hmem
    refine ⟨st1, h1, h2, ?_⟩
    rw [← h]
    simp [capture, h2]

theorem matchAt_anchored_isSome (e : Re) (s : List Char) (y : MState)
    (hy : y ∈ run e 0 ⟨0, s, List.replicate (numGroups e + 1) []⟩) (hr : y.rest = []) :
    (matchAt (tuple.anchored e) s 0).isSome = true := by
  have hn : numGroups (tuple.anchored e) = numGroups e := by simp [tuple.anchored, numGroups]
  have hmem := (mem_run_anchored e ⟨0, s, List.replicate (numGroups e + 1) []⟩ y rfl).mpr ⟨hy, hr⟩
  simp only [matchAt, List.drop_zero, hn]
  cases hl : run (tuple.anchored e) 0 ⟨0, s, List.replicate (numGroups e + 1) []⟩ with
  | nil => rw [hl] at hmem; simp at hmem
  | cons st1 tl => rfl

/-- An anchored expression matches a text exactly when its body matches the whole of it. -/
theorem matchString_anchored (e : Re) (hb : noBol e = true) (s : GoString) :
    MatchString (tuple.anchored e) s = Matches e s.data := by
  unfold MatchString
  rw [find_anchored]
  cases hm : Matches e s.data with
  | true =>
    have h1 : [] ∈ accepts e s.data := by simpa [Matches] using hm
    rw [← run_rest e hb 0 ⟨0, s.data, List.replicate (numGroups e + 1) []⟩] at h1
    obtain ⟨y, hy, hr⟩ := List.mem_map.mp h1
    exact matchAt_anchored_isSome e s.data y hy hr
  | false =>
    cases hc : matchAt (tuple.anchored e) s.data 0 with
    | none => rfl
    | some caps =>
      obtain ⟨y, hy, hr, _⟩ := matchAt_anchored_some e s.data caps hc
      have h1 : [] ∈ accepts e s.data := by
        rw [← run_rest e hb 0 ⟨0, s.data, List.replicate (numGroups e + 1) []⟩]
        exact List.mem_map.mpr ⟨y, hy, hr⟩
      have : Matches e s.data = true := by simpa [Matches] using h1
      rw [hm] at this
      exact absurd this (by decide)

end regexp

/-! ## The tuple pattern -/

namespace tuple

open regexp

theorem numGroups_namespaceNameExpr : numGroups namespaceNameExpr = 1 := by decide
theorem numGroups_objectIDExpr : numGroups objectIDExpr = 0 := by decide
theorem numGroups_relationExpr : numGroups relationExpr = 0 := by decide
theorem numGroups_subjectRelExpr : numGroups subjectRelExpr = 0 := by decide

theorem matches_grp (n : GoString) (r : Re) (w : List Char) :
    Matches (.grp n r) w = Matches r w := rfl

/-- What `onrExpr` reads and captures when `b` groups were opened before it. -/
theorem run_onr (b : Nat) (st y : MState) (h : y ∈ run onrExpr b st)
    (hlen : b + 5 < st.caps.length) :
    ∃ ns id rel, st.rest = ns ++ ':' :: (id ++ '#' :: (rel ++ y.rest)) ∧
      Matches namespaceNameExpr ns = true ∧ Matches objectIDExpr id = true ∧
      Matches relationExpr rel = true ∧
      y.caps[b + 1]? = some ns ∧ y.caps[b + 4]? = some id ∧ y.caps[b + 5]? = some rel ∧
      Frame b (b + 5) st y := by
  unfold onrExpr at h
  obtain ⟨z1, hz1, h⟩ := mem_run_cat.mp h
  obtain ⟨ns, e1, m1, -, c1, f1⟩ :=
    run_grp_field _ _ (by decide) (by decide) b st z1 hz1 (by omega)
  obtain ⟨z2, hz2, h⟩ := mem_run_cat.mp h
  obtain ⟨e2, k2⟩ := mem_run_chr hz2
  obtain ⟨z3, hz3, h⟩ := mem_run_cat.mp h
  simp only [numGroups, numGroups_namespaceNameExpr, numGroups_objectIDExpr,
    numGroups_relationExpr] at h hz3 f1
  have l1 := f1.1
  obtain ⟨id, e3, m3, -, c3, f3⟩ :=
    run_grp_field _ _ (by decide) (by decide) _ z2 z3 hz3 (by rw [k2]; omega)
  obtain ⟨z4, hz4, h⟩ := mem_run_cat.mp h
  obtain ⟨e4, k4⟩ := mem_run_chr hz4
  simp only [numGroups, numGroups_objectIDExpr] at h f3 c3
  have l3 := f3.1
  obtain ⟨rel, e5, m5, -, c5, f5⟩ :=
    run_grp_field _ _ (by decide) (by decide) _ z4 y h (by rw [k4, l3, k2]; omega)
  simp only [numGroups_relationExpr] at f5
  refine ⟨ns, id, rel, ?_, by simpa [matches_grp] using m1, m3, m5, ?_, ?_, ?_, ?_⟩
  · rw [e1, e2, e3, e4, e5]
  · rw [f5.2 (b + 1) (by omega), k4, f3.2 (b + 1) (by omega), k2]
    exact c1
  · rw [f5.2 (b + 4) (by omega), k4]
    have : b + (1 + (1 + 1)) + 0 + 1 = b + 4 := by omega
    rw [← this]; exact c3
  · have : b + (1 + (1 + 1)) + 0 + (1 + 0) + 0 + 1 = b + 5 := by omega
    rw [← this]; exact c5
  · exact (f1.mono (Nat.le_refl _) (by omega)).trans
      ((Frame.of_caps_eq k2).trans ((f3.mono (by omega) (by omega)).trans
        ((Frame.of_caps_eq k4).trans (f5.mono (by omega) (by omega)))))

/-- What `subjectExpr` reads and captures when `b` groups were opened before it: the
`subjectRel` slot is written only when the suffix is there. -/
theorem run_subject (b : Nat) (st y : MState) (h : y ∈ run subjectExpr b st)
    (hlen : b + 6 < st.caps.length) :
    ∃ sns sid sfx, st.rest = sns ++ ':' :: (sid ++ (sfx ++ y.rest)) ∧
      Matches namespaceNameExpr sns = true ∧ Matches objectIDExpr sid = true ∧
      y.caps[b + 1]? = some sns ∧ y.caps[b + 4]? = some sid ∧
      ((sfx = [] ∧ y.caps[b + 6]? = st.caps[b + 6]?) ∨
        (∃ srel, sfx = '#' :: srel ∧ Matches subjectRelExpr srel = true ∧
          y.caps[b + 6]? = some srel)) := by
  unfold subjectExpr at h
  obtain ⟨z1, hz1, h⟩ := mem_run_cat.mp h
  obtain ⟨sns, e1, m1, -, c1, f1⟩ :=
    run_grp_field _ _ (by decide) (by decide) b st z1 hz1 (by omega)
  obtain ⟨z2, hz2, h⟩ := mem_run_cat.mp h
  obtain ⟨e2, k2⟩ := mem_run_chr hz2
  obtain ⟨z3, hz3, h⟩ := mem_run_cat.mp h
  simp only [numGroups, numGroups_namespaceNameExpr, numGroups_objectIDExpr,
    numGroups_relationExpr] at h hz3 f1
  have l1 := f1.1
  obtain ⟨sid, e3, m3, -, c3, f3⟩ :=
    run_grp_field _ _ (by decide) (by decide) _ z2 z3 hz3 (by rw [k2]; omega)
  simp only [numGroups, numGroups_objectIDExpr] at h f3 c3
  have l3 := f3.1
  have i4 : b + (1 + (1 + 1)) + 0 + 1 = b + 4 := by omega
  have hfr := run_frame _ _ z3 y h
  simp only [numGroups, numGroups_subjectRelExpr] at hfr
  have c1y : y.caps[b + 1]? = some sns := by
    rw [hfr.2 (b + 1) (by omega), f3.2 (b + 1) (by omega), k2]; exact c1
  have c3y : y.caps[b + 4]? = some sid := by
    rw [hfr.2 (b + 4) (by omega), ← i4]; exact c3
  rcases mem_run_opt.mp h with h | h
  · obtain ⟨z5, hz5, hy⟩ := mem_run_grp.mp h
    obtain ⟨z4, hz4, hz5⟩ := mem_run_cat.mp hz5
    obtain ⟨e4, k4⟩ := mem_run_chr hz4
    obtain ⟨srel, e5, m5, -, c5, f5⟩ :=
      run_grp_field _ _ (by decide) (by decide) _ z4 z5 hz5
        (by rw [k4, l3, k2]; simp only [numGroups]; omega)
    simp only [numGroups] at c5
    subst hy
    refine ⟨sns, sid, '#' :: srel, ?_, by simpa [matches_grp] using m1, m3, c1y, c3y, Or.inr
      ⟨srel, rfl, m5, ?_⟩⟩
    · simp only [capture]
      rw [e1, e2, e3, e4, e5]
      simp
    · simp only [capture]
      rw [List.getElem?_set_ne (by omega)]
      convert c5 using 2
  · subst h
    refine ⟨sns, sid, [], ?_, by simpa [matches_grp] using m1, m3, c1y, c3y, Or.inl ⟨rfl, ?_⟩⟩
    · rw [e1, e2, e3]; simp
    · rw [f3.2 (b + 6) (by omega), k2, f1.2 (b + 6) (by omega)]

/-- Every complete match of the tuple pattern splits the text into its fields, each
matched by its own expression, and leaves the fields in the capture slots. -/
theorem run_parserBody (s : List Char) (y : MState)
    (h : y ∈ run parserBody 0 ⟨0, s, List.replicate 12 []⟩) (hr : y.rest = []) :
    ∃ ns id rel sns sid sfx, s = ns ++ ':' :: (id ++ '#' :: (rel ++ '@' :: (sns ++ ':' ::
        (sid ++ sfx)))) ∧
      Matches namespaceNameExpr ns = true ∧ Matches objectIDExpr id = true ∧
      Matches relationExpr rel = true ∧
      Matches namespaceNameExpr sns = true ∧ Matches objectIDExpr sid = true ∧
      y.caps[1]? = some ns ∧ y.caps[4]? = some id ∧ y.caps[5]? = some rel ∧
      y.caps[6]? = some sns ∧ y.caps[9]? = some sid ∧
      ((sfx = [] ∧ y.caps[11]? = some []) ∨
        (∃ srel, sfx = '#' :: srel ∧ Matches subjectRelExpr srel = true ∧
          y.caps[11]? = some srel)) := by
  unfold parserBody at h
  obtain ⟨z1, hz1, h⟩ := mem_run_cat.mp h
  obtain ⟨ns, id, rel, e1, m1, m2, m3, c1, c4, c5, f1⟩ := run_onr 0 _ z1 hz1 (by simp)
  obtain ⟨z2, hz2, h⟩ := mem_run_cat.mp h
  obtain ⟨e2, k2⟩ := mem_run_chr hz2
  have hn : 0 + numGroups onrExpr + numGroups (Re.chr '@') = 5 := by decide
  rw [hn] at h
  have l1 : z1.caps.length = 12 := by simpa using f1.1
  have hfr := run_frame _ _ z2 y h
  have hns : numGroups subjectExpr = 6 := by decide
  rw [hns] at hfr
  obtain ⟨sns, sid, sfx, e3, m4, m5, c6, c9, hs⟩ := run_subject 5 z2 y h (by rw [k2, l1]; omega)
  simp only [Nat.zero_add] at c1 c4 c5
  refine ⟨ns, id, rel, sns, sid, sfx, ?_, m1, m2, m3, m4, m5, ?_, ?_, ?_, c6, c9, ?_⟩
  · simp only at e1
    rw [e1, e2, e3, hr]
    simp
  · rw [hfr.2 1 (by omega), k2]; exact c1
  · rw [hfr.2 4 (by omega), k2]; exact c4
  · rw [hfr.2 5 (by omega), k2]; exact c5
  · rcases hs with ⟨h1, h2⟩ | ⟨srel, h1, h2, h3⟩
    · refine Or.inl ⟨h1, ?_⟩
      rw [h2, k2, f1.2 11 (by omega)]
      simp
    · exact Or.inr ⟨srel, h1, h2, h3⟩

theorem group_caps (caps : List (List Char)) (w0 w : List Char) (i : Nat) (hi : i ≠ 0)
    (h : caps[i]? = some w) :
    group ((caps.set 0 w0).map String.mk) (i : Int) = String.mk w := by
  unfold group
  simp [List.getD_eq_getElem?_getD, List.getElem?_map, List.getElem?_set_ne (Ne.symm hi), h]

theorem findStringSubmatch_parserRegex (s : GoString) :
    FindStringSubmatch parserRegex s =
      match matchAt parserRegex s.data 0 with
      | none => []
      | some caps => caps.map String.mk := by
  unfold FindStringSubmatch parserRegex
  rw [find_anchored]

theorem matches_subjectRel_ne_nil (w : List Char) (h : Matches subjectRelExpr w = true) :
    w ≠ [] := by
  rintro rfl
  revert h
  decide

/-- Soundness of `Parse`: a parsed text is the fields of the result joined by the
delimiters, with nothing before or after, and every field is matched by its expression. -/
theorem parse_sound (s : GoString) (t : RelationTuple) (h : Parse s = some t) :
    ∃ ns id rel sns sid sfx, s.data = ns ++ ':' :: (id ++ '#' :: (rel ++ '@' :: (sns ++ ':' ::
        (sid ++ sfx)))) ∧
      Matches namespaceNameExpr ns = true ∧ Matches objectIDExpr id = true ∧
      Matches relationExpr rel = true ∧
      Matches namespaceNameExpr sns = true ∧ Matches objectIDExpr sid = true ∧
      ((sfx = [] ∧ t = mkTuple ns id rel sns sid ellipsis) ∨
        (∃ srel, sfx = '#' :: srel ∧ Matches subjectRelExpr srel = true ∧
          t = mkTuple ns id rel sns sid (String.mk srel))) := by
  unfold Parse at h
  simp only [findStringSubmatch_parserRegex] at h
  cases hm : matchAt parserRegex s.data 0 with
  | none => simp [hm] at h
  | some caps =>
    obtain ⟨y, hy, hr, hc⟩ := matchAt_anchored_some parserBody s.data caps hm
    have hn : numGroups parserBody + 1 = 12 := by decide
    rw [hn] at hy
    obtain ⟨ns, id, rel, sns, sid, sfx, e, m1, m2, m3, m4, m5, c1, c4, c5, c6, c9, hs⟩ :=
      run_parserBody s.data y hy hr
    have hlen : y.caps.length = 12 := by simpa using (run_frame _ _ _ y hy).1
    have i1 : stringz.SliceIndex (SubexpNames parserRegex) "resourceType" = ((1 : Nat) : Int) := by
      decide
    have i4 : stringz.SliceIndex (SubexpNames parserRegex) "resourceID" = ((4 : Nat) : Int) := by
      decide
    have i5 : stringz.SliceIndex (SubexpNames parserRegex) "resourceRel" = ((5 : Nat) : Int) := by
      decide
    have i6 : stringz.SliceIndex (SubexpNames parserRegex) "subjectType" = ((6 : Nat) : Int) := by
      decide
    have i9 : stringz.SliceIndex (SubexpNames parserRegex) "subjectID" = ((9 : Nat) : Int) := by
      decide
    have i11 : stringz.SliceIndex (SubexpNames parserRegex) "subjectRel" = ((11 : Nat) : Int) := by
      decide
    rw [hm] at h
    simp only [i1, i4, i5, i6, i9, i11] at h
    subst hc
    have hl0 : ¬ (List.map String.mk (y.caps.set 0 s.data)).length = 0 := by
      rw [List.length_map, List.length_set, hlen]; decide
    rw [if_neg hl0, group_caps _ _ _ 1 (by decide) c1, group_caps _ _ _ 4 (by decide) c4,
      group_caps _ _ _ 5 (by decide) c5, group_caps _ _ _ 6 (by decide) c6,
      group_caps _ _ _ 9 (by decide) c9] at h
    refine ⟨ns, id, rel, sns, sid, sfx, e, m1, m2, m3, m4, m5, ?_⟩
    rcases hs with ⟨h1, h2⟩ | ⟨srel, h1, h2, h3⟩
    · refine Or.inl ⟨h1, ?_⟩
      rw [group_caps _ _ _ 11 (by decide) h2] at h
      simp at h
      rw [← h]; rfl
    · refine Or.inr ⟨srel, h1, h2, ?_⟩
      rw [group_caps _ _ _ 11 (by decide) h3] at h
      have hne := matches_subjectRel_ne_nil srel h2
      have hl : (String.mk srel).length > 0 := by
        show srel.length > 0
        exact List.length_pos.mpr hne
      simp only [hl, if_true] at h
      simp at h
      rw [← h]; rfl

theorem matches_iff (r : Re) (w : List Char) : Matches r w = true ↔ [] ∈ accepts r w := by
  simp [Matches]

theorem accepts_cat_of_matches (a c : Re) (ha : anchorFree a = true) (w t x : List Char)
    (hw : Matches a w = true) (hx : x ∈ accepts c t) : x ∈ accepts (.cat a c) (w ++ t) := by
  simp only [accepts, List.mem_flatMap]
  exact ⟨t, by simpa using accepts_extend a t ha w [] ((matches_iff a w).mp hw), hx⟩

theorem accepts_chr_cons (c : Char) (r : Re) (t x : List Char) (hx : x ∈ accepts r t) :
    x ∈ accepts (.cat (.chr c) r) (c :: t) := by
  simp only [accepts, List.mem_flatMap, stepL_mem]
  exact ⟨t, ⟨c, by simp, rfl⟩, hx⟩

theorem matches_onrExpr (ns id rel : List Char) (h1 : Matches namespaceNameExpr ns = true)
    (h2 : Matches objectIDExpr id = true) (h3 : Matches relationExpr rel = true) :
    Matches onrExpr (ns ++ ':' :: (id ++ '#' :: rel)) = true := by
  rw [matches_iff]
  unfold onrExpr
  refine accepts_cat_of_matches _ _ (by decide) _ _ _ (by simpa [matches_grp] using h1) ?_
  refine accepts_chr_cons _ _ _ _ ?_
  refine accepts_cat_of_matches _ _ (by decide) _ _ _ (by simpa [matches_grp] using h2) ?_
  refine accepts_chr_cons _ _ _ _ ?_
  exact (matches_iff _ _).mp (by simpa [matches_grp] using h3)

theorem matches_subjectExpr (sns sid sfx : List Char) (h1 : Matches namespaceNameExpr sns = true)
    (h2 : Matches objectIDExpr sid = true)
    (h3 : sfx = [] ∨ ∃ srel, sfx = '#' :: srel ∧ Matches subjectRelExpr srel = true) :
    Matches subjectExpr (sns ++ ':' :: (sid ++ sfx)) = true := by
  rw [matches_iff]
  unfold subjectExpr
  refine accepts_cat_of_matches _ _ (by decide) _ _ _ (by simpa [matches_grp] using h1) ?_
  refine accepts_chr_cons _ _ _ _ ?_
  refine accepts_cat_of_matches _ _ (by decide) _ _ _ (by simpa [matches_grp] using h2) ?_
  rcases h3 with h3 | ⟨srel, h3, h4⟩
  · subst h3
    simp only [accepts, List.mem_append, List.mem_singleton]
    exact Or.inr trivial
  · subst h3
    have h5 : [] ∈ accepts (Re.grp "" (Re.cat (Re.chr '#') (Re.grp "subjectRel" subjectRelExpr)))
        ('#' :: srel) := by
      show [] ∈ accepts (Re.cat (Re.chr '#') (Re.grp "subjectRel" subjectRelExpr)) ('#' :: srel)
      exact accepts_chr_cons _ _ _ _ ((matches_iff _ _).mp h4)
    rw [accepts]
    exact List.mem_append_left _ h5

theorem matches_parserBody (ns id rel sns sid sfx : List Char)
    (h1 : Matches namespaceNameExpr ns = true) (h2 : Matches objectIDExpr id = true)
    (h3 : Matches relationExpr rel = true) (h4 : Matches namespaceNameExpr sns = true)
    (h5 : Matches objectIDExpr sid = true)
    (h6 : sfx = [] ∨ ∃ srel, sfx = '#' :: srel ∧ Matches subjectRelExpr srel = true) :
    Matches parserBody (ns ++ ':' :: (id ++ '#' :: (rel ++ '@' :: (sns ++ ':' ::
      (sid ++ sfx))))) = true := by
  rw [matches_iff]
  unfold parserBody
  have e : ns ++ ':' :: (id ++ '#' :: (rel ++ '@' :: (sns ++ ':' :: (sid ++ sfx)))) =
      (ns ++ ':' :: (id ++ '#' :: rel)) ++ '@' :: (sns ++ ':' :: (sid ++ sfx)) := by simp
  rw [e]
  refine accepts_cat_of_matches _ _ (by decide) _ _ _ (matches_onrExpr ns id rel h1 h2 h3) ?_
  refine accepts_chr_cons _ _ _ _ ?_
  exact (matches_iff _ _).mp (matches_subjectExpr sns sid sfx h4 h5 h6)

/-- Completeness of `Parse`: a text matched by the body of the pattern is parsed. -/
theorem parse_isSome (s : GoString) (h : Matches parserBody s.data = true) :
    ∃ t, Parse s = some t := by
  have h1 : [] ∈ accepts parserBody s.data := (matches_iff _ _).mp h
  rw [← run_rest parserBody (by decide) 0 ⟨0, s.data, List.replicate (numGroups parserBody + 1) []⟩]
    at h1
  obtain ⟨y, hy, hr⟩ := List.mem_map.mp h1
  have hs := matchAt_anchored_isSome parserBody s.data y hy hr
  have hlen : y.caps.length = 12 := by simpa using (run_frame _ _ _ y hy).1
  cases hm : matchAt (anchored parserBody) s.data 0 with
  | none => rw [hm] at hs; exact absurd hs (by decide)
  | some caps =>
    obtain ⟨y1, hy1, _, hc⟩ := matchAt_anchored_some parserBody s.data caps hm
    have hlen1 : y1.caps.length = 12 := by simpa using (run_frame _ _ _ y1 hy1).1
    have hl0 : ¬ (List.map String.mk caps).length = 0 := by
      rw [List.length_map, hc, List.length_set, hlen1]; decide
    unfold Parse
    simp only [findStringSubmatch_parserRegex]
    have hm1 : matchAt parserRegex s.data 0 = some caps := hm
    rw [hm1]
    simp only [if_neg hl0]
    exact ⟨_, rfl⟩

theorem split_unique (c : Char) : ∀ (a a1 b b1 : List Char), a ++ c :: b = a1 ++ c :: b1 →
    c ∉ a → c ∉ a1 → a = a1 ∧ b = b1 := by
  intro a
  induction a with
  | nil =>
    intro a1 b b1 h _ h1
    cases a1 with
    | nil => simpa using h
    | cons x xs =>
      simp only [List.nil_append, List.cons_append, List.cons.injEq] at h
      exact absurd (by rw [← h.1]; exact List.mem_cons_self _ _) h1
  | cons x xs ih =>
    intro a1 b b1 h h0 h1
    cases a1 with
    | nil =>
      simp only [List.nil_append, List.cons_append, List.cons.injEq] at h
      exact absurd (by rw [h.1]; exact List.mem_cons_self _ _) h0
    | cons z zs =>
      simp only [List.cons_append, List.cons.injEq] at h
      obtain ⟨r1, r2⟩ := ih zs b b1 h.2 (fun hm => h0 (List.mem_cons_of_mem _ hm))
        (fun hm => h1 (List.mem_cons_of_mem _ hm))
      exact ⟨by rw [h.1, r1], r2⟩

theorem not_mem_of_alphabet (r : Re) (hr : anchorFree r = true) (w : List Char)
    (h : Matches r w = true) (c : Char) (hc : alphabet r c = false) : c ∉ w := by
  intro hm
  have := matches_alphabet r hr w h c hm
  rw [hc] at this
  exact absurd this (by decide)

theorem tail_unique (sid sfx sid1 sfx1 : List Char) (e : sid ++ sfx = sid1 ++ sfx1)
    (h : '#' ∉ sid) (h1 : '#' ∉ sid1) (hs : sfx = [] ∨ ∃ r, sfx = '#' :: r)
    (hs1 : sfx1 = [] ∨ ∃ r, sfx1 = '#' :: r) : sid = sid1 ∧ sfx = sfx1 := by
  rcases hs with rfl | ⟨r, rfl⟩ <;> rcases hs1 with rfl | ⟨r1, rfl⟩
  · simp only [List.append_nil] at e
    exact ⟨e, rfl⟩
  · simp only [List.append_nil] at e
    exact absurd (by rw [e]; simp) h
  · simp only [List.append_nil] at e
    exact absurd (by rw [← e]; simp) h1
  · obtain ⟨r1, r2⟩ := split_unique '#' sid sid1 r r1 e h h1
    exact ⟨r1, by rw [r2]⟩

/-- The delimiters occur in no field, so a text splits into fields in one way only. -/
theorem fields_unique (ns id rel sns sid sfx ns1 id1 rel1 sns1 sid1 sfx1 : List Char)
    (e : ns ++ ':' :: (id ++ '#' :: (rel ++ '@' :: (sns ++ ':' :: (sid ++ sfx)))) =
      ns1 ++ ':' :: (id1 ++ '#' :: (rel1 ++ '@' :: (sns1 ++ ':' :: (sid1 ++ sfx1)))))
    (m1 : Matches namespaceNameExpr ns = true) (m2 : Matches objectIDExpr id = true)
    (m3 : Matches relationExpr rel = true) (m4 : Matches namespaceNameExpr sns = true)
    (m5 : Matches objectIDExpr sid = true) (hs : sfx = [] ∨ ∃ r, sfx = '#' :: r)
    (n1 : Matches namespaceNameExpr ns1 = true) (n2 : Matches objectIDExpr id1 = true)
    (n3 : Matches relationExpr rel1 = true) (n4 : Matches namespaceNameExpr sns1 = true)
    (n5 : Matches objectIDExpr sid1 = true) (hs1 : sfx1 = [] ∨ ∃ r, sfx1 = '#' :: r) :
    ns = ns1 ∧ id = id1 ∧ rel = rel1 ∧ sns = sns1 ∧ sid = sid1 ∧ sfx = sfx1 := by
  obtain ⟨r1, e⟩ := split_unique ':' _ _ _ _ e
    (not_mem_of_alphabet _ (by decide) ns m1 ':' (by decide))
    (not_mem_of_alphabet _ (by decide) ns1 n1 ':' (by decide))
  obtain ⟨r2, e⟩ := split_unique '#' _ _ _ _ e
    (not_mem_of_alphabet _ (by decide) id m2 '#' (by decide))
    (not_mem_of_alphabet _ (by decide) id1 n2 '#' (by decide))
  obtain ⟨r3, e⟩ := split_unique '@' _ _ _ _ e
    (not_mem_of_alphabet _ (by decide) rel m3 '@' (by decide))
    (not_mem_of_alphabet _ (by decide) rel1 n3 '@' (by decide))
  obtain ⟨r4, e⟩ := split_unique ':' _ _ _ _ e
    (not_mem_of_alphabet _ (by decide) sns m4 ':' (by decide))
    (not_mem_of_alphabet _ (by decide) sns1 n4 ':' (by decide))
  obtain ⟨r5, r6⟩ := tail_unique _ _ _ _ e
    (not_mem_of_alphabet _ (by decide) sid m5 '#' (by decide))
    (not_mem_of_alphabet _ (by decide) sid1 n5 '#' (by decide)) hs hs1
  exact ⟨r1, r2, r3, r4, r5, r6⟩

theorem isNamespace_iff (s : GoString) : IsNamespace s = Matches namespaceNameExpr s.data :=
  matchString_anchored _ (by decide) s

theorem isObjectID_iff (s : GoString) : IsObjectID s = Matches objectIDExpr s.data :=
  matchString_anchored _ (by decide) s

theorem isRelation_iff (s : GoString) : IsRelation s = Matches relationExpr s.data :=
  matchString_anchored _ (by decide) s

theorem isRelation_ne_ellipsis (s : GoString) (h : IsRelation s = true) : s ≠ ellipsis := by
  rintro rfl
  revert h
  decide

theorem matches_subjectRel_of_relation (w : List Char) (h : Matches relationExpr w = true) :
    Matches subjectRelExpr w = true := by
  rw [matches_iff] at h ⊢
  unfold subjectRelExpr
  rw [accepts]
  exact List.mem_append_left _ h

/-- The text of a tuple with all parts present, character by character. -/
theorem string_data (res sub : ObjectAndRelation) (hres : res.Relation ≠ ellipsis) :
    (String (some ⟨some res, some ⟨some sub⟩⟩)).data =
      res.Namespace.data ++ ':' :: (res.ObjectId.data ++ '#' :: (res.Relation.data ++ '@' ::
        (sub.Namespace.data ++ ':' :: (sub.ObjectId.data ++
          (if sub.Relation = ellipsis then [] else '#' :: sub.Relation.data))))) := by
  by_cases hsub : sub.Relation = ellipsis
  · simp [String, StringONR, User.GetUserset, hres, hsub]
  · simp [String, StringONR, User.GetUserset, hres, hsub]

/-- C1: for every tuple whose resource namespace, object id and relation and whose
subject namespace and object id satisfy the tuple grammar, and whose subject relation is a
relation name or the wildcard, parsing the text of the tuple gives the tuple back. -/
theorem parse_string_roundtrip (res sub : ObjectAndRelation)
    (hres : res.validResource = true) (hsub : sub.validSubject = true) :
    Parse (String (some ⟨some res, some ⟨some sub⟩⟩)) = some ⟨some res, some ⟨some sub⟩⟩ := by
  simp only [ObjectAndRelation.validResource, ObjectAndRelation.validSubject, Bool.and_eq_true,
    Bool.or_eq_true, decide_eq_true_eq, isNamespace_iff, isObjectID_iff] at hres hsub
  obtain ⟨⟨m1, m2⟩, m3r⟩ := hres
  obtain ⟨⟨m4, m5⟩, m6⟩ := hsub
  have hne := isRelation_ne_ellipsis _ m3r
  have m3 : Matches relationExpr res.Relation.data = true := by rw [← isRelation_iff]; exact m3r
  have hsfx : (if sub.Relation = ellipsis then [] else '#' :: sub.Relation.data) = [] ∨
      ∃ srel, (if sub.Relation = ellipsis then [] else '#' :: sub.Relation.data) = '#' :: srel ∧
        Matches subjectRelExpr srel = true := by
    by_cases hw : sub.Relation = ellipsis
    · exact Or.inl (by simp [hw])
    · rcases m6 with m6 | m6
      · refine Or.inr ⟨sub.Relation.data, by simp [hw], ?_⟩
        exact matches_subjectRel_of_relation _ (by rw [← isRelation_iff]; exact m6)
      · exact absurd m6 hw
  have hd := string_data res sub hne
  have hm := matches_parserBody _ _ _ _ _ _ m1 m2 m3 m4 m5 hsfx
  rw [← hd] at hm
  obtain ⟨t, ht⟩ := parse_isSome _ hm
  rw [ht]
  obtain ⟨ns, id, rel, sns, sid, sfx, e, n1, n2, n3, n4, n5, hs⟩ := parse_sound _ t ht
  rw [hd] at e
  have hs1 : sfx = [] ∨ ∃ r, sfx = '#' :: r := by
    rcases hs with ⟨h, _⟩ | ⟨r, h, _⟩
    · exact Or.inl h
    · exact Or.inr ⟨r, h⟩
  have hs0 : (if sub.Relation = ellipsis then [] else '#' :: sub.Relation.data) = [] ∨
      ∃ r, (if sub.Relation = ellipsis then [] else '#' :: sub.Relation.data) = '#' :: r := by
    rcases hsfx with h | ⟨r, h, _⟩
    · exact Or.inl h
    · exact Or.inr ⟨r, h⟩
  obtain ⟨r1, r2, r3, r4, r5, r6⟩ :=
    fields_unique _ _ _ _ _ _ _ _ _ _ _ _ e m1 m2 m3 m4 m5 hs0 n1 n2 n3 n4 n5 hs1
  subst r1 r2 r3 r4 r5
  rcases hs with ⟨h, ht1⟩ | ⟨r, h, _, ht1⟩
  · rw [h] at r6
    by_cases hw : sub.Relation = ellipsis
    · rw [ht1, mkTuple, ← hw]
    · simp [hw] at r6
  · rw [h] at r6
    by_cases hw : sub.Relation = ellipsis
    · simp [hw] at r6
    · simp only [hw, if_false, List.cons.injEq, true_and] at r6
      subst r6
      rw [ht1, mkTuple]

/-- Witness for C1 at the tuple `document:123#viewer@user:456#member`. -/
theorem parse_string_roundtrip_witness :
    (ObjectAndRelation.mk "document" "123" "viewer").validResource = true ∧
    (ObjectAndRelation.mk "user" "456" "member").validSubject = true ∧
    Parse (String (some ⟨some ⟨"document", "123", "viewer"⟩,
      some ⟨some ⟨"user", "456", "member"⟩⟩⟩)) =
      some ⟨some ⟨"document", "123", "viewer"⟩, some ⟨some ⟨"user", "456", "member"⟩⟩⟩ :=
  ⟨by decide, by decide, parse_string_roundtrip _ _ (by decide) (by decide)⟩

/-- C5: the text of a grammar-valid tuple whose subject relation is the wildcard is
`namespace:objectId#relation@namespace:objectId`, without a subject relation segment; the
text `document:123#viewer@user:456#...` parses to the tuple with resource
`document`, `123`, `viewer` and subject `user`, `456`, wildcard, whose text is exactly
`document:123#viewer@user:456`. -/
theorem string_wildcard_omitted (res sub : ObjectAndRelation)
    (hvalid : res.validResource = true ∧ sub.validSubject = true)
    (hw : sub.Relation = "...") :
    String (some ⟨some res, some ⟨some sub⟩⟩) =
        res.Namespace ++ ":" ++ res.ObjectId ++ "#" ++ res.Relation ++ "@" ++
          sub.Namespace ++ ":" ++ sub.ObjectId ∧
      Parse "document:123#viewer@user:456#..." =
        some ⟨some ⟨"document", "123", "viewer"⟩, some ⟨some ⟨"user", "456", "..."⟩⟩⟩ ∧
      String (Parse "document:123#viewer@user:456#...") = "document:123#viewer@user:456" := by
  refine ⟨?_, by decide, by decide⟩
  have hres := hvalid.1
  simp only [ObjectAndRelation.validResource, Bool.and_eq_true] at hres
  have hne := isRelation_ne_ellipsis _ hres.2
  have hw1 : sub.Relation = ellipsis := hw
  simp [String, StringONR, User.GetUserset, hne, hw1, String.append_assoc]

/-- Witness for C5 at the tuple `document:123#viewer@user:456#...`. -/
theorem string_wildcard_omitted_witness :
    String (some ⟨some ⟨"document", "123", "viewer"⟩, some ⟨some ⟨"user", "456", "..."⟩⟩⟩) =
      "document" ++ ":" ++ "123" ++ "#" ++ "viewer" ++ "@" ++ "user" ++ ":" ++ "456" :=
  (string_wildcard_omitted ⟨"document", "123", "viewer"⟩ ⟨"user", "456", "..."⟩
    ⟨by decide, by decide⟩ rfl).1

theorem string_mk_data (ns id rel sns sid sfx : List Char) (s : GoString)
    (e : s.data = ns ++ ':' :: (id ++ '#' :: (rel ++ '@' :: (sns ++ ':' :: (sid ++ sfx))))) :
    s = String.mk ns ++ ":" ++ String.mk id ++ "#" ++ String.mk rel ++ "@" ++ String.mk sns ++
      ":" ++ String.mk sid ++ String.mk sfx := by
  apply String.ext
  rw [e]
  simp [String.data_append]

/-- C10: `Parse` returns a tuple only when the whole text is the fields of that tuple
joined by the delimiters, the subject relation segment being either absent (the relation of
the result is then the wildcard) or `#` followed by the relation, with nothing before or
after; so a text without `@` yields no value. -/
theorem parse_whole_string (s : GoString) :
    (∀ t, Parse s = some t → ∃ res sub, t = ⟨some res, some ⟨some sub⟩⟩ ∧
      ((s = res.Namespace ++ ":" ++ res.ObjectId ++ "#" ++ res.Relation ++ "@" ++
            sub.Namespace ++ ":" ++ sub.ObjectId ∧ sub.Relation = "...") ∨
        s = res.Namespace ++ ":" ++ res.ObjectId ++ "#" ++ res.Relation ++ "@" ++
            sub.Namespace ++ ":" ++ sub.ObjectId ++ "#" ++ sub.Relation)) ∧
    ('@' ∉ s.data → Parse s = none) := by
  have key : ∀ t, Parse s = some t → ∃ res sub, t = ⟨some res, some ⟨some sub⟩⟩ ∧
      ((s = res.Namespace ++ ":" ++ res.ObjectId ++ "#" ++ res.Relation ++ "@" ++
            sub.Namespace ++ ":" ++ sub.ObjectId ∧ sub.Relation = "...") ∨
        s = res.Namespace ++ ":" ++ res.ObjectId ++ "#" ++ res.Relation ++ "@" ++
            sub.Namespace ++ ":" ++ sub.ObjectId ++ "#" ++ sub.Relation) := by
    intro t ht
    obtain ⟨ns, id, rel, sns, sid, sfx, e, -, -, -, -, -, hs⟩ := parse_sound s t ht
    have hstr := string_mk_data ns id rel sns sid sfx s e
    rcases hs with ⟨h, ht1⟩ | ⟨r, h, _, ht1⟩
    · subst h
      refine ⟨⟨String.mk ns, String.mk id, String.mk rel⟩, ⟨String.mk sns, String.mk sid, "..."⟩,
        ht1, Or.inl ⟨?_, rfl⟩⟩
      rw [hstr]
      apply String.ext
      simp [String.data_append]
    · subst h
      refine ⟨⟨String.mk ns, String.mk id, String.mk rel⟩,
        ⟨String.mk sns, String.mk sid, String.mk r⟩, ht1, Or.inr ?_⟩
      rw [hstr]
      apply String.ext
      simp [String.data_append]
  refine ⟨key, ?_⟩
  intro hat
  cases hp : Parse s with
  | none => rfl
  | some t =>
    exfalso
    obtain ⟨ns, id, rel, sns, sid, sfx, e, -⟩ := parse_sound s t hp
    apply hat
    rw [e]
    simp

/-- Witness for C10: the text `document:123#viewer@user:456`, and the text
`not-a-valid-tuple-string`, which has no `@`. -/
theorem parse_whole_string_witness :
    (∃ res sub, (⟨some ⟨"document", "123", "viewer"⟩, some ⟨some ⟨"user", "456", "..."⟩⟩⟩ :
        RelationTuple) = ⟨some res, some ⟨some sub⟩⟩ ∧
      (("document:123#viewer@user:456" = res.Namespace ++ ":" ++ res.ObjectId ++ "#" ++
            res.Relation ++ "@" ++ sub.Namespace ++ ":" ++ sub.ObjectId ∧
          sub.Relation = "...") ∨
        "document:123#viewer@user:456" = res.Namespace ++ ":" ++ res.ObjectId ++ "#" ++
            res.Relation ++ "@" ++ sub.Namespace ++ ":" ++ sub.ObjectId ++ "#" ++
            sub.Relation)) ∧
    Parse "not-a-valid-tuple-string" = none :=
  ⟨(parse_whole_string "document:123#viewer@user:456").1 _ (by decide),
    (parse_whole_string "not-a-valid-tuple-string").2 (by decide)⟩

theorem isRelation_ne_empty (s : GoString) (h : IsRelation s = true) : s ≠ "" := by
  rintro rfl
  revert h
  decide

theorem validate_tuple_ok (res sub : ObjectAndRelation)
    (hres : res.validResource = true) (hsub : sub.validSubject = true) :
    RelationTuple.Validate ⟨some res, some ⟨some sub⟩⟩ = none := by
  simp [RelationTuple.Validate, hres, hsub]

theorem validate_relationship_ok (res obj : ObjectReference) (rel opt : GoString)
    (hres : res.valid = true) (hrel : IsRelation rel = true) (hobj : obj.valid = true)
    (hopt : opt = "" ∨ IsRelation opt = true) :
    Relationship.Validate ⟨some res, rel, some ⟨some obj, opt⟩⟩ = none := by
  rcases hopt with hopt | hopt <;> simp [Relationship.Validate, hres, hrel, hobj, hopt]

/-- C3: for every grammar-valid tuple, whose subject relation is a relation name or the
wildcard, `FromRelationship (ToRelationship t)` returns a tuple equal to `t`. -/
theorem from_to_relationship (res sub : ObjectAndRelation) (fuel : Nat)
    (hres : res.validResource = true) (hsub : sub.validSubject = true) :
    (ToRelationship ⟨some res, some ⟨some sub⟩⟩).bind (FromRelationship (fuel + 1)) =
      .ok ⟨some res, some ⟨some sub⟩⟩ := by
  have hv := validate_tuple_ok res sub hres hsub
  simp only [ObjectAndRelation.validResource, ObjectAndRelation.validSubject, Bool.and_eq_true,
    Bool.or_eq_true, decide_eq_true_eq] at hres hsub
  obtain ⟨⟨m1, m2⟩, m3⟩ := hres
  obtain ⟨⟨m4, m5⟩, m6⟩ := hsub
  have hopt : stringz.Default sub.Relation "" ["..."] = "" ∨
      IsRelation (stringz.Default sub.Relation "" ["..."]) = true := by
    rcases m6 with m6 | m6
    · have hne : sub.Relation ≠ "..." := isRelation_ne_ellipsis _ m6
      exact Or.inr (by simpa [stringz.Default, hne] using m6)
    · exact Or.inl (by simp [stringz.Default, m6, ellipsis])
  have hback : stringz.DefaultEmpty (stringz.Default sub.Relation "" ["..."]) "..." =
      sub.Relation := by
    rcases m6 with m6 | m6
    · have hne : sub.Relation ≠ "..." := isRelation_ne_ellipsis _ m6
      have hne1 : sub.Relation ≠ "" := isRelation_ne_empty _ m6
      simp [stringz.Default, stringz.DefaultEmpty, hne, hne1]
    · simp [stringz.Default, stringz.DefaultEmpty, m6, ellipsis]
  have hv1 := validate_relationship_ok ⟨res.Namespace, res.ObjectId⟩ ⟨sub.Namespace, sub.ObjectId⟩
    res.Relation (stringz.Default sub.Relation "" ["..."])
    (by simp [ObjectReference.valid, m1, m2]) m3 (by simp [ObjectReference.valid, m4, m5]) hopt
  simp only [ToRelationship, hv, User.GetUserset, Result.bind, FromRelationship, hv1, hback]

/-- Witness for C3 at the tuple `document:123#viewer@user:456#...`. -/
theorem from_to_relationship_witness :
    (ObjectAndRelation.mk "document" "123" "viewer").validResource = true ∧
    (ObjectAndRelation.mk "user" "456" "...").validSubject = true ∧
    (ToRelationship ⟨some ⟨"document", "123", "viewer"⟩,
        some ⟨some ⟨"user", "456", "..."⟩⟩⟩).bind (FromRelationship 1) =
      .ok ⟨some ⟨"document", "123", "viewer"⟩, some ⟨some ⟨"user", "456", "..."⟩⟩⟩ :=
  ⟨by decide, by decide, from_to_relationship _ _ 0 (by decide) (by decide)⟩

/-- C4: for every grammar-valid relationship, whose optional subject relation is empty or
a relation name, `FromRelationship` returns a tuple that passes the validation of
`ToRelationship`, and `ToRelationship (FromRelationship r)` returns a relationship equal
to `r`. -/
theorem to_from_relationship (res obj : ObjectReference) (rel opt : GoString) (fuel : Nat)
    (hres : res.valid = true) (hrel : IsRelation rel = true) (hobj : obj.valid = true)
    (hopt : opt = "" ∨ IsRelation opt = true) :
    (∃ t, FromRelationship (fuel + 1) ⟨some res, rel, some ⟨some obj, opt⟩⟩ = .ok t ∧
      t.Validate = none) ∧
    (FromRelationship (fuel + 1) ⟨some res, rel, some ⟨some obj, opt⟩⟩).bind ToRelationship =
      .ok ⟨some res, rel, some ⟨some obj, opt⟩⟩ := by
  have hv := validate_relationship_ok res obj rel opt hres hrel hobj hopt
  simp only [ObjectReference.valid, Bool.and_eq_true] at hres hobj
  have hsr : IsRelation (stringz.DefaultEmpty opt "...") = true ∨
      stringz.DefaultEmpty opt "..." = ellipsis := by
    rcases hopt with hopt | hopt
    · exact Or.inr (by simp [stringz.Default, stringz.DefaultEmpty, hopt, ellipsis])
    · have hne1 : opt ≠ "" := isRelation_ne_empty _ hopt
      exact Or.inl (by simpa [stringz.Default, stringz.DefaultEmpty, hne1] using hopt)
  have hback : stringz.Default (stringz.DefaultEmpty opt "...") "" ["..."] = opt := by
    rcases hopt with hopt | hopt
    · simp [stringz.Default, stringz.DefaultEmpty, hopt]
    · have hne : opt ≠ "..." := isRelation_ne_ellipsis _ hopt
      have hne1 : opt ≠ "" := isRelation_ne_empty _ hopt
      simp [stringz.Default, stringz.DefaultEmpty, hne, hne1]
  have hv1 := validate_tuple_ok ⟨res.ObjectType, res.ObjectId, rel⟩
    ⟨obj.ObjectType, obj.ObjectId, stringz.DefaultEmpty opt "..."⟩
    (by simp [ObjectAndRelation.validResource, hres.1, hres.2, hrel])
    (by
      simp only [ObjectAndRelation.validSubject, hobj.1, hobj.2, Bool.and_self, Bool.true_and,
        Bool.or_eq_true, decide_eq_true_eq]
      exact hsr)
  refine ⟨⟨_, by simp only [FromRelationship, hv], hv1⟩, ?_⟩
  simp only [FromRelationship, hv, Result.bind, ToRelationship, hv1, User.GetUserset, hback]

/-- Witness for C4 at the relationship `document:123#viewer@user:456`. -/
theorem to_from_relationship_witness :
    (ObjectReference.mk "document" "123").valid = true ∧ IsRelation "viewer" = true ∧
    (ObjectReference.mk "user" "456").valid = true ∧
    (FromRelationship 1 ⟨some ⟨"document", "123"⟩, "viewer", some ⟨some ⟨"user", "456"⟩, ""⟩⟩).bind
        ToRelationship =
      .ok ⟨some ⟨"document", "123"⟩, "viewer", some ⟨some ⟨"user", "456"⟩, ""⟩⟩ :=
  ⟨by decide, by decide, by decide,
    (to_from_relationship _ _ _ _ 0 (by decide) (by decide) (by decide) (Or.inl rfl)).2⟩

end tuple

/-! ## Decoding a token -/

namespace zedtoken

/-- The errors of `Decode` for a token that is not nil. -/
theorem decode_some_error (t : ZedToken) (e : Error) (h : Decode (some t) = .error e) :
    e = .wrap errDecodeError .CorruptInputError ∨ e = .wrap errDecodeError .protoError := by
  unfold Decode at h
  cases hb : base64.DecodeString t.Token with
  | none =>
    simp only [hb, Except.error.injEq] at h
    exact Or.inl h.symm
  | some bs =>
    cases hu : proto.Unmarshal bs with
    | none =>
      simp only [hb, hu, Except.error.injEq] at h
      exact Or.inr h.symm
    | some m =>
      simp only [hb, hu] at h
      exact absurd h (by simp)

/-- C7: `Decode` returns an error exactly when the token is nil, or its text is not
valid standard base64, or the decoded bytes do not parse as the envelope; otherwise it
returns the parsed envelope; and every error it returns wraps its cause with the text
of `errDecodeError`. -/
theorem decode_error_iff (encoded : Option ZedToken) :
    ((∃ e, Decode encoded = .error e) ↔
      (encoded = none ∨ ∃ t, encoded = some t ∧ (base64.DecodeString t.Token = none ∨
        ∃ bs, base64.DecodeString t.Token = some bs ∧ proto.Unmarshal bs = none))) ∧
    (∀ t bs m, encoded = some t → base64.DecodeString t.Token = some bs →
      proto.Unmarshal bs = some m → Decode encoded = .ok m) ∧
    (∀ e, Decode encoded = .error e →
      ∃ cause, e = .wrap "error decoding zedtoken: %w" cause ∧ e.Unwrap = some cause ∧
        ((cause = .ErrNilZedToken ∧ encoded = none) ∨
         (cause = .CorruptInputError ∧ ∃ t, encoded = some t ∧
            base64.DecodeString t.Token = none) ∨
         (cause = .protoError ∧ ∃ t bs, encoded = some t ∧
            base64.DecodeString t.Token = some bs ∧ proto.Unmarshal bs = none))) := by
  cases encoded with
  | none =>
    refine ⟨⟨fun _ => Or.inl rfl, fun _ => ⟨_, rfl⟩⟩, ?_, ?_⟩
    · intro t bs m h; exact absurd h (by simp)
    · intro e he
      simp only [Decode, Except.error.injEq] at he
      subst he
      exact ⟨_, rfl, rfl, Or.inl ⟨rfl, rfl⟩⟩
  | some t =>
    cases hb : base64.DecodeString t.Token with
    | none =>
      refine ⟨⟨fun _ => Or.inr ⟨t, rfl, Or.inl hb⟩, fun _ => ⟨.wrap errDecodeError .CorruptInputError, by simp only [Decode, hb]⟩⟩, ?_, ?_⟩
      · intro t1 bs m h h1
        simp only [Option.some.injEq] at h
        subst h
        rw [hb] at h1
        exact absurd h1 (by simp)
      · intro e he
        simp only [Decode, hb, Except.error.injEq] at he
        subst he
        exact ⟨_, rfl, rfl, Or.inr (Or.inl ⟨rfl, t, rfl, hb⟩)⟩
    | some bs =>
      cases hu : proto.Unmarshal bs with
      | none =>
        refine ⟨⟨fun _ => Or.inr ⟨t, rfl, Or.inr ⟨bs, hb, hu⟩⟩,
          fun _ => ⟨.wrap errDecodeError .protoError, by simp only [Decode, hb, hu]⟩⟩, ?_, ?_⟩
        · intro t1 bs1 m h h1 h2
          simp only [Option.some.injEq] at h
          subst h
          rw [hb, Option.some.injEq] at h1
          subst h1
          rw [hu] at h2
          exact absurd h2 (by simp)
        · intro e he
          simp only [Decode, hb, hu, Except.error.injEq] at he
          subst he
          exact ⟨_, rfl, rfl, Or.inr (Or.inr ⟨rfl, t, bs, rfl, hb, hu⟩)⟩
      | some m =>
        have hd : Decode (some t) = .ok m := by simp only [Decode, hb, hu]
        refine ⟨⟨?_, ?_⟩, ?_, ?_⟩
        · rintro ⟨e, he⟩
          rw [hd] at he
          exact absurd he (by simp)
        · rintro (h | ⟨t1, h, h1 | ⟨bs1, h1, h2⟩⟩)
          · exact absurd h (by simp)
          · simp only [Option.some.injEq] at h
            subst h
            rw [hb] at h1
            exact absurd h1 (by simp)
          · simp only [Option.some.injEq] at h
            subst h
            rw [hb, Option.some.injEq] at h1
            subst h1
            rw [hu] at h2
            exact absurd h2 (by simp)
        · intro t1 bs1 m1 h h1 h2
          simp only [Option.some.injEq] at h
          subst h
          rw [hb, Option.some.injEq] at h1
          subst h1
          rw [hu, Option.some.injEq] at h2
          subst h2
          exact hd
        · intro e he
          rw [hd] at he
          exact absurd he (by simp)

/-- Witness for C7: the token `abc`, whose text is not valid base64, and the token
`CAIaAwoBMA==`, which decodes to the current variant with revision `0`. -/
theorem decode_error_iff_witness :
    (∃ e, Decode (some ⟨ascii "abc"⟩) = .error e) ∧
    Decode (some ⟨ascii "CAIaAwoBMA=="⟩) = .ok ⟨some (.V1 ⟨ascii "0"⟩)⟩ :=
  ⟨(decode_error_iff (some ⟨ascii "abc"⟩)).1.mpr (Or.inr ⟨_, rfl, Or.inl (by decide)⟩),
    (decode_error_iff (some ⟨ascii "CAIaAwoBMA=="⟩)).2.1 _ (ascii "\x08\x02\x1a\x03\x0a\x010") _ rfl
      (by decide) (by decide)⟩

/-- C8: `Decode` of a nil token returns an error whose cause is `ErrNilZedToken`, and no
error returned for a token that is not nil has `ErrNilZedToken` in its chain of causes. -/
theorem decode_nil_distinguishable :
    (∃ e, Decode none = .error e ∧ e.Unwrap = some .ErrNilZedToken ∧
      e.Is .ErrNilZedToken = true) ∧
    (∀ t e, Decode (some t) = .error e → e.Is .ErrNilZedToken = false) := by
  refine ⟨⟨_, rfl, rfl, by decide⟩, ?_⟩
  intro t e he
  rcases decode_some_error t e he with h | h
  · subst h; decide
  · subst h; decide

/-- Witness for C8 at the token `abc`, whose text is not valid base64. -/
theorem decode_nil_distinguishable_witness :
    Error.Is (.wrap errDecodeError .CorruptInputError) .ErrNilZedToken = false :=
  decode_nil_distinguishable.2 ⟨ascii "abc"⟩ _ (by decide)

/-- C9: when the decoded envelope has neither variant set, as for the token with the
empty text, `DecodeRevision` returns the decode error that names the unexpected variant,
not a revision without error. -/
theorem decodeRevision_unset_variant :
    (∀ t m, Decode (some t) = .ok m → m.VersionOneof = none →
      DecodeRevision (some t) = (decimal.Zero,
        some (.wrap "error decoding zedtoken: %w" (.errorf "unknown zookie version: <nil>")))) ∧
    Decode (some ⟨[]⟩) = .ok ⟨none⟩ ∧
    (DecodeRevision (some ⟨[]⟩)).2 =
      some (.wrap "error decoding zedtoken: %w" (.errorf "unknown zookie version: <nil>")) := by
  refine ⟨?_, by decide, by decide⟩
  intro t m hd hm
  simp only [DecodeRevision, hd, hm]
  rfl

/-- Witness for C9 at the token with the empty text. -/
theorem decodeRevision_unset_variant_witness :
    DecodeRevision (some ⟨[]⟩) = (decimal.Zero,
      some (.wrap "error decoding zedtoken: %w" (.errorf "unknown zookie version: <nil>"))) :=
  decodeRevision_unset_variant.1 ⟨[]⟩ ⟨none⟩ (by decide) rfl

end zedtoken

/-! ## Round trip through base64 -/

namespace base64

theorem decodeSextet_encodeSextet : ∀ i, i < 64 → decodeSextet (encodeSextet i) = some i := by
  decide

theorem encodeSextet_ge (i : Nat) : 43 ≤ encodeSextet i := by
  unfold encodeSextet
  split_ifs <;> omega

theorem decodeSextet_padChar : decodeSextet padChar = none := by decide

theorem keep_encodeSextet (i : Nat) :
    (encodeSextet i != 10 && encodeSextet i != 13) = true := by
  have := encodeSextet_ge i
  simp only [Bool.and_eq_true, bne_iff_ne, ne_eq]
  constructor <;> omega

theorem filter_encodeToString (bs : Bytes) :
    (EncodeToString bs).filter (fun c => c != 10 && c != 13) = EncodeToString bs := by
  induction bs using EncodeToString.induct with
  | case1 => rfl
  | case2 a => simp [EncodeToString, keep_encodeSextet, padChar]
  | case3 a b => simp [EncodeToString, keep_encodeSextet, padChar]
  | case4 a b c rest ih => simp [EncodeToString, keep_encodeSextet, ih]

theorem decodeQuanta_encodeToString (bs : Bytes) (h : ∀ b ∈ bs, b < 256) :
    decodeQuanta (EncodeToString bs) = some bs := by
  induction bs using EncodeToString.induct with
  | case1 => rfl
  | case2 a =>
    have ha : a < 256 := h a (by simp)
    simp only [EncodeToString, decodeQuanta]
    rw [decodeSextet_encodeSextet _ (by omega), decodeSextet_encodeSextet _ (by omega),
      decodeSextet_padChar]
    simp only [and_self, if_true, Option.some.injEq, List.cons.injEq, and_true]
    omega
  | case3 a b =>
    have ha : a < 256 := h a (by simp)
    have hb : b < 256 := h b (by simp)
    simp only [EncodeToString, decodeQuanta]
    rw [decodeSextet_encodeSextet _ (by omega), decodeSextet_encodeSextet _ (by omega),
      decodeSextet_encodeSextet _ (by omega), decodeSextet_padChar]
    simp only [and_self, if_true, Option.some.injEq, List.cons.injEq, and_true]
    constructor <;> omega
  | case4 a b c rest ih =>
    have ha : a < 256 := h a (by simp)
    have hb : b < 256 := h b (by simp)
    have hc : c < 256 := h c (by simp)
    have hr := ih (fun x hx => h x (by simp [hx]))
    simp only [EncodeToString, decodeQuanta]
    rw [decodeSextet_encodeSextet _ (by omega), decodeSextet_encodeSextet _ (by omega),
      decodeSextet_encodeSextet _ (by omega), decodeSextet_encodeSextet _ (by omega), hr]
    simp only [Option.some.injEq, List.cons.injEq, and_true]
    refine ⟨?_, ?_, ?_⟩ <;> omega

/-- Decoding the base64 text of a byte sequence gives the sequence back. -/
theorem decodeString_encodeToString (bs : Bytes) (h : ∀ b ∈ bs, b < 256) :
    DecodeString (EncodeToString bs) = some bs := by
  unfold DecodeString
  rw [filter_encodeToString, decodeQuanta_encodeToString bs h]

end base64

/-! ## Round trip through the wire format -/

namespace protowire

theorem appendVarintAux_lt (k : Nat) : ∀ v, ∀ b ∈ appendVarintAux k v, b < 256 := by
  induction k with
  | zero => intro v b hb; simp [appendVarintAux] at hb
  | succ k ih =>
    intro v b hb
    unfold appendVarintAux at hb
    by_cases hv : v < 128
    · simp only [hv, if_true, List.mem_singleton] at hb
      omega
    · simp only [hv, if_false, List.mem_cons] at hb
      rcases hb with hb | hb
      · omega
      · exact ih _ b hb

theorem appendVarint_lt (v : Nat) : ∀ b ∈ AppendVarint v, b < 256 :=
  appendVarintAux_lt 10 _

theorem appendVarintAux_length_le (k : Nat) : ∀ v, (appendVarintAux k v).length ≤ k := by
  induction k with
  | zero => intro v; simp [appendVarintAux]
  | succ k ih =>
    intro v
    unfold appendVarintAux
    by_cases hv : v < 128
    · simp [hv]
    · simp only [hv, if_false, List.length_cons]
      have := ih (v / 128)
      omega

theorem appendVarint_length_le (v : Nat) : (AppendVarint v).length ≤ 10 :=
  appendVarintAux_length_le 10 _

theorem consumeVarintAux_append (k : Nat) : ∀ (v : Nat) (rest : Bytes), v < 2 * 128 ^ k →
    consumeVarintAux (k + 1) (appendVarintAux (k + 1) v ++ rest) = some (v, rest) := by
  induction k with
  | zero =>
    intro v rest hv
    have hv1 : v < 128 := by omega
    have hv2 : ¬ 2 ≤ v := by omega
    simp [appendVarintAux, consumeVarintAux, hv1, hv2]
  | succ k ih =>
    intro v rest hv
    by_cases hv1 : v < 128
    · simp [appendVarintAux, consumeVarintAux, hv1]
    · have hdiv : v / 128 < 2 * 128 ^ k := by
        rw [Nat.div_lt_iff_lt_mul (by decide)]
        calc v < 2 * 128 ^ (k + 1) := hv
          _ = 2 * 128 ^ k * 128 := by rw [pow_succ]; ring
      have hb : ¬ (v % 128 + 128 < 128) := by omega
      rw [appendVarintAux]
      simp only [hv1, if_false, List.cons_append]
      rw [consumeVarintAux]
      simp only [hb, if_false, ih (v / 128) rest hdiv]
      congr 2
      omega

/-- Reading back a varint gives the 64-bit number written and the bytes after it. -/
theorem consumeVarint_appendVarint (v : Nat) (rest : Bytes) :
    ConsumeVarint (AppendVarint v ++ rest) = some (v % 2 ^ 64, rest) := by
  unfold ConsumeVarint AppendVarint
  exact consumeVarintAux_append 9 _ rest (by
    have : v % 2 ^ 64 < 2 ^ 64 := Nat.mod_lt _ (by decide)
    calc v % 2 ^ 64 < 2 ^ 64 := this
      _ = 2 * 128 ^ 9 := by norm_num)

theorem consumeBytes_append (payload rest : Bytes) (h : payload.length < 2 ^ 64) :
    ConsumeBytes (AppendVarint payload.length ++ (payload ++ rest)) = some (payload, rest) := by
  unfold ConsumeBytes
  rw [consumeVarint_appendVarint, Nat.mod_eq_of_lt h]
  simp

theorem consumeTag_small (t : Nat) (rest : Bytes) (h1 : t < 128) (h2 : 8 ≤ t) :
    ConsumeTag (t :: rest) = some (t / 8, t % 8, rest) := by
  have h3 : ¬ (t / 8 = 0 ∨ t / 8 > 536870911) := by omega
  simp [ConsumeTag, ConsumeVarint, consumeVarintAux, h1, h3]

end protowire

namespace utf8

theorem valid_of_ascii (bs : Bytes) (h : ∀ b ∈ bs, b < 128) : Valid bs = true := by
  induction bs with
  | nil => rfl
  | cons b rest ih =>
    have hb : b < 0x80 := h b (by simp)
    unfold Valid
    simp only [hb, if_true]
    exact ih (fun x hx => h x (by simp [hx]))

end utf8

namespace proto

open zedtoken protowire

theorem unmarshalV1Zookie_nil (fuel : Nat) (m : DecodedZedToken_V1Zookie) :
    unmarshalV1Zookie (fuel + 1) [] m = some m := rfl

theorem unmarshalDecodedZedToken_nil (fuel : Nat) (m : DecodedZedToken) :
    unmarshalDecodedZedToken (fuel + 1) [] m = some m := rfl

theorem unmarshalV1Zookie_marshal (n : Nat) :
    unmarshalV1Zookie ((marshalV1Zookie ⟨n⟩).length + 1) (marshalV1Zookie ⟨n⟩) ⟨0⟩ =
      some ⟨n % 2 ^ 64⟩ := by
  unfold marshalV1Zookie
  by_cases h0 : n % 2 ^ 64 = 0
  · rw [if_pos h0, h0]
    rfl
  · rw [if_neg h0]
    rw [unmarshalV1Zookie]
    · rw [consumeTag_small 8 _ (by decide) (by decide)]
      have e : AppendVarint n = AppendVarint n ++ [] := by simp
      simp only [Nat.reduceDiv, Nat.reduceMod, and_self, if_true]
      rw [e, consumeVarint_appendVarint]
      simp only [List.append_nil, List.length_cons]
      exact unmarshalV1Zookie_nil _ _
    · intro hb
      exact absurd hb (by simp)

theorem marshalV1Zookie_lt (n : Nat) : ∀ b ∈ marshalV1Zookie ⟨n⟩, b < 256 := by
  intro b hb
  unfold marshalV1Zookie at hb
  by_cases h0 : n % 2 ^ 64 = 0
  · rw [if_pos h0] at hb
    exact absurd hb (by simp)
  · rw [if_neg h0, List.mem_cons] at hb
    rcases hb with hb | hb
    · omega
    · exact appendVarint_lt n b hb

theorem marshalV1Zookie_length (n : Nat) : (marshalV1Zookie ⟨n⟩).length ≤ 11 := by
  unfold marshalV1Zookie
  by_cases h0 : n % 2 ^ 64 = 0
  · rw [if_pos h0]
    simp
  · rw [if_neg h0, List.length_cons]
    have := appendVarint_length_le n
    show (AppendVarint n).length + 1 ≤ 11
    omega

/-- The wire form of a legacy envelope is made of bytes and parses back to the envelope,
the revision being the 64-bit number written. -/
theorem unmarshal_marshal_deprecated (n : Nat) :
    ∃ bs, Marshal ⟨some (.DeprecatedV1Zookie ⟨n⟩)⟩ = some bs ∧ (∀ b ∈ bs, b < 256) ∧
      Unmarshal bs = some ⟨some (.DeprecatedV1Zookie ⟨n % 2 ^ 64⟩)⟩ := by
  refine ⟨_, rfl, ?_, ?_⟩
  · intro b hb
    simp only [List.mem_cons, List.mem_append] at hb
    rcases hb with hb | hb | hb
    · omega
    · exact appendVarint_lt _ b hb
    · exact marshalV1Zookie_lt n b hb
  · unfold Unmarshal
    simp only [List.length_cons]
    rw [unmarshalDecodedZedToken]
    · rw [consumeTag_small 0x12 _ (by decide) (by decide)]
      simp only [Nat.reduceDiv, Nat.reduceMod, and_self, if_true]
      have e : AppendVarint (marshalV1Zookie ⟨n⟩).length ++ marshalV1Zookie ⟨n⟩ =
          AppendVarint (marshalV1Zookie ⟨n⟩).length ++ (marshalV1Zookie ⟨n⟩ ++ []) := by simp
      rw [e, consumeBytes_append _ _ (by have := marshalV1Zookie_length n; omega)]
      simp only [unmarshalV1Zookie_marshal]
      exact unmarshalDecodedZedToken_nil _ _
    · intro hb
      exact absurd hb (by simp)

theorem unmarshalV1ZedToken_nil (fuel : Nat) (m : DecodedZedToken_V1ZedToken) :
    unmarshalV1ZedToken (fuel + 1) [] m = some m := rfl

theorem marshalV1ZedToken_length (rev : Bytes) :
    (marshalV1ZedToken ⟨rev⟩).length ≤ rev.length + 11 := by
  unfold marshalV1ZedToken
  by_cases h0 : rev = []
  · simp [h0]
  · simp only [h0, if_false, List.length_cons, List.length_append]
    have := appendVarint_length_le rev.length
    omega

theorem marshalV1ZedToken_lt (rev : Bytes) (h : ∀ b ∈ rev, b < 256) :
    ∀ b ∈ marshalV1ZedToken ⟨rev⟩, b < 256 := by
  intro b hb
  unfold marshalV1ZedToken at hb
  by_cases h0 : rev = []
  · simp [h0] at hb
  · simp only [h0, if_false, List.mem_cons, List.mem_append] at hb
    rcases hb with hb | hb | hb
    · omega
    · exact appendVarint_lt _ b hb
    · exact h b hb

theorem unmarshalV1ZedToken_marshal (rev : Bytes) (hv : utf8.Valid rev = true)
    (hlen : rev.length < 2 ^ 63) :
    unmarshalV1ZedToken ((marshalV1ZedToken ⟨rev⟩).length + 1) (marshalV1ZedToken ⟨rev⟩) ⟨[]⟩ =
      some ⟨rev⟩ := by
  unfold marshalV1ZedToken
  by_cases h0 : rev = []
  · simp only [h0, if_true]
    rfl
  · simp only [h0, if_false]
    rw [unmarshalV1ZedToken]
    · rw [consumeTag_small 0x0a _ (by decide) (by decide)]
      simp only [Nat.reduceDiv, Nat.reduceMod, and_self, if_true]
      have e : AppendVarint rev.length ++ rev = AppendVarint rev.length ++ (rev ++ []) := by simp
      rw [e, consumeBytes_append _ _ (by omega)]
      simp only [hv, if_true, List.length_cons]
      exact unmarshalV1ZedToken_nil _ _
    · intro hb
      exact absurd hb (by simp)

/-- The wire form of an envelope of the current variant whose revision is ASCII text is
made of bytes and parses back to the envelope. -/
theorem unmarshal_marshal_v1 (rev : Bytes) (hascii : ∀ b ∈ rev, b < 128)
    (hlen : rev.length < 2 ^ 63) :
    ∃ bs, Marshal ⟨some (.V1 ⟨rev⟩)⟩ = some bs ∧ (∀ b ∈ bs, b < 256) ∧
      Unmarshal bs = some ⟨some (.V1 ⟨rev⟩)⟩ := by
  have hv := utf8.valid_of_ascii rev hascii
  have hm : Marshal ⟨some (.V1 ⟨rev⟩)⟩ =
      some (0x1a :: (AppendVarint (marshalV1ZedToken ⟨rev⟩).length ++ marshalV1ZedToken ⟨rev⟩)) := by
    simp only [Marshal, hv, if_true]
  refine ⟨_, hm, ?_, ?_⟩
  · intro b hb
    simp only [List.mem_cons, List.mem_append] at hb
    rcases hb with hb | hb | hb
    · omega
    · exact appendVarint_lt _ b hb
    · exact marshalV1ZedToken_lt rev (fun x hx => by have := hascii x hx; omega) b hb
  · unfold Unmarshal
    simp only [List.length_cons]
    rw [unmarshalDecodedZedToken]
    · rw [consumeTag_small 0x1a _ (by decide) (by decide)]
      simp only [Nat.reduceDiv, Nat.reduceMod, and_self, if_true]
      have e : AppendVarint (marshalV1ZedToken ⟨rev⟩).length ++ marshalV1ZedToken ⟨rev⟩ =
          AppendVarint (marshalV1ZedToken ⟨rev⟩).length ++ (marshalV1ZedToken ⟨rev⟩ ++ []) := by
        simp
      rw [e, consumeBytes_append _ _ (by have := marshalV1ZedToken_length rev; omega)]
      simp only [unmarshalV1ZedToken_marshal rev hv hlen]
      simp only [Nat.reduceEqDiff, false_and, if_false]
      exact unmarshalDecodedZedToken_nil _ _
    · intro hb
      exact absurd hb (by simp)

end proto

namespace zedtoken

theorem toInt64_mod (n : Nat) : toInt64 (n % 2 ^ 64) = toInt64 n := by
  unfold toInt64
  rw [Nat.mod_mod]

/-- Decoding the token of a legacy envelope: the revision written on 64 bits comes back
read as a signed 64-bit number. -/
theorem decodeRevision_encode_deprecated (n : Nat) :
    ∃ tok, Encode ⟨some (.DeprecatedV1Zookie ⟨n⟩)⟩ = .ok tok ∧
      DecodeRevision (some tok) = (decimal.NewFromInt (toInt64 n), none) := by
  obtain ⟨bs, hm, hlt, hu⟩ := proto.unmarshal_marshal_deprecated n
  refine ⟨⟨base64.EncodeToString bs⟩, by simp only [Encode, hm], ?_⟩
  simp only [DecodeRevision, Decode, base64.decodeString_encodeToString bs hlt, hu, toInt64_mod]

end zedtoken


/-! ## Round trip through the text of a decimal -/

namespace decimal

theorem foldl_digits (b : Bytes) : ∀ acc : Nat,
    b.foldl (fun acc c => acc * 10 + (c - 48)) acc = acc * 10 ^ b.length + ofDigits b := by
  induction b with
  | nil => intro acc; simp [ofDigits]
  | cons c cs ih =>
    intro acc
    simp only [List.foldl_cons, List.length_cons, ofDigits]
    rw [ih, ih (0 * 10 + (c - 48))]
    ring

theorem ofDigits_append (a b : Bytes) :
    ofDigits (a ++ b) = ofDigits a * 10 ^ b.length + ofDigits b := by
  unfold ofDigits
  rw [List.foldl_append, foldl_digits]
  rfl

theorem ofDigits_replicate_zero (k : Nat) : ofDigits (List.replicate k 48) = 0 := by
  induction k with
  | zero => rfl
  | succ k ih =>
    rw [List.replicate_succ, show (48 :: List.replicate k 48) = [48] ++ List.replicate k 48 from rfl,
      ofDigits_append, ih]
    simp [ofDigits]

theorem isDigit_lt (c : Nat) (h : isDigit c = true) : 48 ≤ c ∧ c ≤ 57 := by
  simpa [isDigit] using h

/-- The digits of a number: there is at least one, they are digits, and their value is
the number. -/
theorem natDigits_spec (fuel : Nat) : ∀ n, n < fuel →
    natDigits fuel n ≠ [] ∧ (∀ c ∈ natDigits fuel n, isDigit c = true) ∧
      ofDigits (natDigits fuel n) = n := by
  induction fuel with
  | zero => intro n h; omega
  | succ fuel ih =>
    intro n h
    unfold natDigits
    by_cases hn : n < 10
    · simp only [hn, if_true]
      refine ⟨by simp, ?_, ?_⟩
      · intro c hc
        simp only [List.mem_singleton] at hc
        subst hc
        simp only [isDigit, Bool.and_eq_true, decide_eq_true_eq]
        omega
      · simp [ofDigits]
    · simp only [hn, if_false]
      obtain ⟨_, h2, h3⟩ := ih (n / 10) (by omega)
      refine ⟨by simp, ?_, ?_⟩
      · intro c hc
        rcases List.mem_append.mp hc with hc | hc
        · exact h2 c hc
        · simp only [List.mem_singleton] at hc
          subst hc
          simp only [isDigit, Bool.and_eq_true, decide_eq_true_eq]
          omega
      · rw [ofDigits_append, h3]
        simp only [List.length_singleton, pow_one, ofDigits, List.foldl_cons, List.foldl_nil]
        omega

theorem natToString_spec (n : Nat) :
    natToString n ≠ [] ∧ (∀ c ∈ natToString n, isDigit c = true) ∧ ofDigits (natToString n) = n :=
  natDigits_spec (n + 1) n (by omega)

/-- Trimming removes a run of zeros from the end. -/
theorem trimTrailingZeros_spec (l : Bytes) :
    ∃ k, l = trimTrailingZeros l ++ List.replicate k 48 := by
  refine ⟨(l.reverse.takeWhile fun c => c == 48).length, ?_⟩
  have h1 : (l.reverse.takeWhile fun c => c == 48) =
      List.replicate (l.reverse.takeWhile fun c => c == 48).length 48 := by
    apply List.eq_replicate_of_mem
    intro c hc
    simpa using List.mem_takeWhile_imp hc
  have h2 := List.takeWhile_append_dropWhile (fun c => c == 48) l.reverse
  have h3 : l = (l.reverse.dropWhile fun c => c == 48).reverse ++
      (l.reverse.takeWhile fun c => c == 48).reverse := by
    rw [← List.reverse_append, h2, List.reverse_reverse]
  unfold trimTrailingZeros
  rw [h1, List.reverse_replicate] at h3
  exact h3

theorem trimTrailingZeros_subset (l : Bytes) : ∀ c ∈ trimTrailingZeros l, c ∈ l := by
  intro c hc
  obtain ⟨k, hk⟩ := trimTrailingZeros_spec l
  rw [hk]
  exact List.mem_append_left _ hc

theorem parseNat_digits (l : Bytes) (hne : l ≠ []) (hd : ∀ c ∈ l, isDigit c = true) :
    parseNat l = some (ofDigits l) := by
  unfold parseNat
  have : l ≠ [] ∧ l.all isDigit = true := ⟨hne, by simpa [List.all_eq_true] using hd⟩
  rw [if_pos this]

theorem parseInt_minus (l : Bytes) : parseInt (45 :: l) = (parseNat l).map fun n => -(n : Int) := by
  rfl

theorem parseInt_digit (d : Nat) (l : Bytes) (hd : isDigit d = true) :
    parseInt (d :: l) = (parseNat (d :: l)).map fun n => (n : Int) := by
  have h := isDigit_lt d hd
  unfold parseInt
  split
  · rename_i ds heq
    simp only [List.cons.injEq] at heq
    omega
  · rename_i ds heq
    simp only [List.cons.injEq] at heq
    omega
  · rfl

/-- Reading a fixed-point text: the digits of both parts together are the value, and the
number of fractional digits is the exponent. -/
theorem newFromString_fixedText (neg : Bool) (ip fp : Bytes) (hip : ip ≠ [])
    (hipd : ∀ c ∈ ip, isDigit c = true) (hfpd : ∀ c ∈ fp, isDigit c = true)
    (hlen : MinInt32 ≤ -(fp.length : Int)) :
    NewFromString (fixedText neg ip fp) =
      .ok ⟨if neg then -(ofDigits (ip ++ fp) : Int) else (ofDigits (ip ++ fp) : Int),
        -(fp.length : Int)⟩ := by
  have hsign : ∀ c ∈ (if neg then [45] else ([] : Bytes)), c = 45 := by
    intro c hc
    cases neg <;> simp at hc
    exact hc
  have hE : ∀ c ∈ fixedText neg ip fp, (c != 69 && c != 101) = true := by
    intro c hc
    simp only [fixedText, List.mem_append] at hc
    simp only [Bool.and_eq_true, bne_iff_ne, ne_eq]
    rcases hc with hc | hc | hc
    · have := hsign c hc; omega
    · have := isDigit_lt c (hipd c hc); omega
    · by_cases hfp : fp.length > 0
      · simp only [hfp, if_true, List.mem_cons] at hc
        rcases hc with hc | hc
        · omega
        · have := isDigit_lt c (hfpd c hc); omega
      · simp [hfp] at hc
  have hT : (fixedText neg ip fp).takeWhile (fun c => c != 69 && c != 101) = fixedText neg ip fp :=
    List.takeWhile_eq_self_iff.mpr hE
  have hD : (fixedText neg ip fp).dropWhile (fun c => c != 69 && c != 101) = [] :=
    List.dropWhile_eq_nil_iff.mpr hE
  have hP : ∀ c ∈ (if neg then [45] else ([] : Bytes)) ++ ip, (c != 46) = true := by
    intro c hc
    simp only [bne_iff_ne, ne_eq]
    rcases List.mem_append.mp hc with hc | hc
    · have := hsign c hc; omega
    · have := isDigit_lt c (hipd c hc); omega
  have hform : fixedText neg ip fp =
      ((if neg then [45] else ([] : Bytes)) ++ ip) ++ (if fp.length > 0 then 46 :: fp else []) := by
    simp [fixedText]
  have hT2 : (fixedText neg ip fp).takeWhile (fun c => c != 46) =
      (if neg then [45] else ([] : Bytes)) ++ ip := by
    rw [hform, List.takeWhile_append_of_pos hP]
    by_cases hfp : fp.length > 0 <;> simp [hfp]
  have hD2 : (fixedText neg ip fp).dropWhile (fun c => c != 46) =
      (if fp.length > 0 then 46 :: fp else []) := by
    rw [hform, List.dropWhile_append_of_pos hP]
    by_cases hfp : fp.length > 0 <;> simp [hfp]
  have hfrac : (if fp.length > 0 then 46 :: fp else ([] : Bytes)).drop 1 = fp := by
    by_cases hfp : fp.length > 0
    · simp [hfp]
    · have : fp = [] := List.eq_nil_of_length_eq_zero (by omega)
      simp [this]
  have hnot : fp.contains 46 = false := by
    rw [Bool.eq_false_iff]
    intro hc
    have hm : 46 ∈ fp := by simpa using hc
    have := isDigit_lt 46 (hfpd 46 hm)
    omega
  have hexp : (if (if fp.length > 0 then 46 :: fp else ([] : Bytes)) = [] then (0 : Int)
      else 0 - (fp.length : Int)) = -(fp.length : Int) := by
    by_cases hfp : fp.length > 0
    · simp [hfp]
    · have : fp = [] := List.eq_nil_of_length_eq_zero (by omega)
      simp [this]
  have hdig : ∀ c ∈ ip ++ fp, isDigit c = true := by
    intro c hc
    rcases List.mem_append.mp hc with hc | hc
    · exact hipd c hc
    · exact hfpd c hc
  have hne : ip ++ fp ≠ [] := by simp [hip]
  have hparse : parseInt ((if neg then [45] else ([] : Bytes)) ++ ip ++ fp) =
      some (if neg then -(ofDigits (ip ++ fp) : Int) else (ofDigits (ip ++ fp) : Int)) := by
    cases neg with
    | true =>
      simp only [if_true, List.cons_append, List.nil_append, List.append_assoc]
      rw [parseInt_minus, parseNat_digits _ hne hdig]
      rfl
    | false =>
      simp only [Bool.false_eq_true, if_false, List.nil_append]
      cases hipc : ip with
      | nil => exact absurd hipc hip
      | cons d rest =>
        rw [hipc] at hdig hne
        rw [List.cons_append, parseInt_digit d _ (hdig d (by simp)),
          parseNat_digits _ (by simp) (by simpa using hdig)]
        rfl
  have hrange : ¬ (-(fp.length : Int) < MinInt32 ∨ -(fp.length : Int) > MaxInt32) := by
    unfold MaxInt32
    omega
  unfold NewFromString
  simp only [hT, hD, hT2, hD2, hfrac, hnot, hexp, hparse, hrange, if_false, Bool.false_eq_true]

theorem equal_of_scaled (a b : Int) (ea eb : Int) (k : Nat) (hk : ea = eb + k)
    (h : a * 10 ^ k = b) : Decimal.Equal ⟨a, ea⟩ ⟨b, eb⟩ = true := by
  have hm : min ea eb = eb := by omega
  simp only [Decimal.Equal, hm, beq_iff_eq]
  have h1 : (ea - eb).toNat = k := by omega
  have h2 : (eb - eb).toNat = 0 := by omega
  rw [h1, h2, h]
  simp

/-- The text of a decimal is a fixed-point text whose digits and number of fractional
digits denote a decimal equal to the one rendered. -/
theorem string_fixedText (v : Decimal) :
    ∃ neg ip fp, v.String = fixedText neg ip fp ∧ ip ≠ [] ∧
      (∀ c ∈ ip, isDigit c = true) ∧ (∀ c ∈ fp, isDigit c = true) ∧
      (fp.length : Int) ≤ max 0 (-v.exp) ∧
      Decimal.Equal ⟨if neg then -(ofDigits (ip ++ fp) : Int) else (ofDigits (ip ++ fp) : Int),
        -(fp.length : Int)⟩ v = true := by
  by_cases hexp : 0 ≤ v.exp
  · obtain ⟨h1, h2, h3⟩ := natToString_spec (v.value * 10 ^ v.exp.toNat).natAbs
    refine ⟨decide (v.value * 10 ^ v.exp.toNat < 0), natToString (v.value * 10 ^ v.exp.toNat).natAbs,
      [], ?_, h1, h2, by simp, by simp, ?_⟩
    · simp only [Decimal.String, hexp, if_true, intToString, fixedText]
      by_cases hz : v.value * 10 ^ v.exp.toNat < 0 <;> simp [hz]
    · have hval : (if decide (v.value * 10 ^ v.exp.toNat < 0) = true then
          -(ofDigits (natToString (v.value * 10 ^ v.exp.toNat).natAbs ++ []) : Int)
          else (ofDigits (natToString (v.value * 10 ^ v.exp.toNat).natAbs ++ []) : Int)) =
          v.value * 10 ^ v.exp.toNat := by
        rw [List.append_nil, h3]
        by_cases hz : v.value * 10 ^ v.exp.toNat < 0
        · simp only [hz, decide_True, if_true]; omega
        · simp only [hz, decide_False, Bool.false_eq_true, if_false]; omega
      rw [hval]
      have hm : min (-((([] : Bytes).length : Nat) : Int)) v.exp = -((([] : Bytes).length : Nat) : Int) := by
        simp only [List.length_nil]; omega
      simp only [Decimal.Equal, hm, beq_iff_eq]
      simp only [List.length_nil, Nat.cast_zero, neg_zero, sub_self, Int.toNat_zero, pow_zero,
        mul_one, sub_zero]
  · have hneg : v.exp < 0 := by omega
    obtain ⟨h1, h2, h3⟩ := natToString_spec v.value.natAbs
    obtain ⟨k, hk⟩ := trimTrailingZeros_spec
      (if (natToString v.value.natAbs).length > (-v.exp).toNat then
        (natToString v.value.natAbs).drop ((natToString v.value.natAbs).length - (-v.exp).toNat)
      else List.replicate ((-v.exp).toNat - (natToString v.value.natAbs).length) 48 ++
        natToString v.value.natAbs)
    generalize hstr : natToString v.value.natAbs = str at h1 h2 h3 hk
    generalize he : (-v.exp).toNat = e at hk
    generalize hfrac : (if str.length > e then str.drop (str.length - e)
      else List.replicate (e - str.length) 48 ++ str) = frac at hk
    generalize hfp : trimTrailingZeros frac = fp at hk
    have hfraclen : frac.length = e := by
      rw [← hfrac]
      by_cases hl : str.length > e
      · simp only [hl, if_true, List.length_drop]; omega
      · simp only [hl, if_false, List.length_append, List.length_replicate]; omega
    have hfracd : ∀ c ∈ frac, isDigit c = true := by
      intro c hc
      rw [← hfrac] at hc
      by_cases hl : str.length > e
      · simp only [hl, if_true] at hc
        exact h2 c (List.mem_of_mem_drop hc)
      · simp only [hl, if_false, List.mem_append] at hc
        rcases hc with hc | hc
        · have := List.eq_of_mem_replicate hc
          subst this
          decide
        · exact h2 c hc
    have hfpd : ∀ c ∈ fp, isDigit c = true := by
      intro c hc
      rw [← hfp] at hc
      exact hfracd c (trimTrailingZeros_subset frac c hc)
    have hlen : fp.length + k = e := by
      have := congrArg List.length hk
      rw [List.length_append, List.length_replicate, hfraclen] at this
      omega
    refine ⟨decide (v.value < 0), if str.length > e then str.take (str.length - e) else [48], fp,
      ?_, ?_, ?_, hfpd, by omega, ?_⟩
    · simp only [Decimal.String, hexp, if_false, hstr, he, hfrac, hfp, fixedText]
      by_cases hz : v.value < 0 <;> by_cases hf : fp.length > 0 <;> simp [hz, hf]
    · by_cases hl : str.length > e
      · simp only [hl, if_true]
        intro h0
        have := congrArg List.length h0
        rw [List.length_take] at this
        simp at this
        omega
      · simp [hl]
    · intro c hc
      by_cases hl : str.length > e
      · simp only [hl, if_true] at hc
        exact h2 c (List.mem_of_mem_take hc)
      · simp only [hl, if_false, List.mem_singleton] at hc
        subst hc
        decide
    · have hall : ofDigits ((if str.length > e then str.take (str.length - e) else [48]) ++ frac) =
          v.value.natAbs := by
        rw [← hfrac]
        by_cases hl : str.length > e
        · simp only [hl, if_true, List.take_append_drop]
          exact h3
        · simp only [hl, if_false]
          rw [← List.append_assoc, ofDigits_append, h3]
          have : ofDigits ([48] ++ List.replicate (e - str.length) 48) = 0 := by
            rw [show [48] ++ List.replicate (e - str.length) 48 =
              List.replicate (e - str.length + 1) 48 from by rw [List.replicate_succ]; rfl]
            exact ofDigits_replicate_zero _
          rw [this]
          simp
      rw [hk, ← List.append_assoc, ofDigits_append, ofDigits_replicate_zero,
        List.length_replicate, Nat.add_zero] at hall
      apply equal_of_scaled _ _ _ _ k (by omega)
      by_cases hz : v.value < 0
      · simp only [hz, decide_True, if_true]
        have hab : (v.value.natAbs : Int) = -v.value := by omega
        have : ((ofDigits ((if str.length > e then str.take (str.length - e) else [48]) ++ fp) *
            10 ^ k : Nat) : Int) = -v.value := by rw [hall, hab]
        rw [Nat.cast_mul, Nat.cast_pow, Nat.cast_ofNat] at this
        rw [neg_mul, this, neg_neg]
      · simp only [hz, decide_False, Bool.false_eq_true, if_false]
        have hab : (v.value.natAbs : Int) = v.value := by omega
        have : ((ofDigits ((if str.length > e then str.take (str.length - e) else [48]) ++ fp) *
            10 ^ k : Nat) : Int) = v.value := by rw [hall, hab]
        rw [Nat.cast_mul, Nat.cast_pow, Nat.cast_ofNat] at this
        exact this

end decimal

/-! ## Round trip of a revision through its token -/

namespace zedtoken

open decimal

theorem fixedText_ascii (neg : Bool) (ip fp : Bytes) (hipd : ∀ c ∈ ip, isDigit c = true)
    (hfpd : ∀ c ∈ fp, isDigit c = true) : ∀ c ∈ fixedText neg ip fp, c < 128 := by
  intro c hc
  simp only [fixedText, List.mem_append] at hc
  rcases hc with hc | hc | hc
  · cases neg <;> simp at hc
    omega
  · have := isDigit_lt c (hipd c hc); omega
  · by_cases hfp : fp.length > 0
    · simp only [hfp, if_true, List.mem_cons] at hc
      rcases hc with hc | hc
      · omega
      · have := isDigit_lt c (hfpd c hc); omega
    · simp [hfp] at hc

/-- C2: for every revision, a decimal with a 32-bit exponent whose text is a Go string,
`NewFromRevision` returns a token, and `DecodeRevision` of that token succeeds and returns
a revision equal to the one encoded. -/
theorem decodeRevision_newFromRevision (v : Decimal)
    (hexp : MinInt32 ≤ v.exp ∧ v.exp ≤ MaxInt32) (hsize : v.String.length < 2 ^ 63) :
    ∃ tok d, NewFromRevision v = .ok tok ∧ DecodeRevision (some tok) = (d, none) ∧
      d.Equal v = true := by
  obtain ⟨neg, ip, fp, hs, hip, hipd, hfpd, hfl, heq⟩ := string_fixedText v
  have hascii : ∀ c ∈ v.String, c < 128 := by
    rw [hs]; exact fixedText_ascii neg ip fp hipd hfpd
  obtain ⟨bs, hm, hlt, hu⟩ := proto.unmarshal_marshal_v1 v.String hascii hsize
  have hparse := newFromString_fixedText neg ip fp hip hipd hfpd (by
    have h1 := hexp.1
    unfold MinInt32 at h1 ⊢
    omega)
  rw [← hs] at hparse
  refine ⟨⟨base64.EncodeToString bs⟩, _, by simp only [NewFromRevision, Encode, hm], ?_, heq⟩
  simp only [DecodeRevision, Decode, base64.decodeString_encodeToString bs hlt, hu, hparse]

/-- Witness for C2 at the revision `123.45`. -/
theorem decodeRevision_newFromRevision_witness :
    (MinInt32 ≤ (-2 : Int) ∧ (-2 : Int) ≤ MaxInt32) ∧
    (Decimal.String ⟨12345, -2⟩).length < 2 ^ 63 ∧
    ∃ tok d, NewFromRevision ⟨12345, -2⟩ = .ok tok ∧ DecodeRevision (some tok) = (d, none) ∧
      d.Equal ⟨12345, -2⟩ = true :=
  ⟨by decide, by decide, decodeRevision_newFromRevision ⟨12345, -2⟩ (by decide) (by decide)⟩

/-- For a legacy revision below `2 ^ 63` the decoded revision is the number itself. -/
theorem decodeRevision_encode_deprecated_small (n : Nat) (h : n < 2 ^ 63) :
    ∃ tok, Encode ⟨some (.DeprecatedV1Zookie ⟨n⟩)⟩ = .ok tok ∧
      DecodeRevision (some tok) = (NewFromInt n, none) := by
  obtain ⟨tok, h1, h2⟩ := decodeRevision_encode_deprecated n
  refine ⟨tok, h1, ?_⟩
  rw [h2]
  have hm : n % 2 ^ 64 = n := Nat.mod_eq_of_lt (by omega)
  have : toInt64 n = (n : Int) := by
    unfold toInt64
    rw [hm, if_pos h]
  rw [this]

/-- C6, at the legacy revision `2 ^ 63`: the token of the envelope is
`EgsIgICAgICAgICAAQ==`, and `DecodeRevision` returns, without error, the decimal
`-9223372036854775808`, which is not equal to the revision `9223372036854775808` that the
envelope carries. -/
theorem decodeRevision_legacy_wraps :
    Encode ⟨some (.DeprecatedV1Zookie ⟨9223372036854775808⟩)⟩ =
      .ok ⟨ascii "EgsIgICAgICAgICAAQ=="⟩ ∧
    DecodeRevision (some ⟨ascii "EgsIgICAgICAgICAAQ=="⟩) =
      (⟨-9223372036854775808, 0⟩, none) ∧
    Decimal.Equal ⟨-9223372036854775808, 0⟩ (NewFromInt 9223372036854775808) = false := by
  refine ⟨by decide, by decide, by decide⟩

end zedtoken

/-! ## The adapter between tuples and relationships -/

namespace tuple

theorem default_ellipsis (rel : GoString) :
    stringz.Default rel "" ["..."] = if rel = "..." then "" else rel := by
  by_cases h : rel = "..." <;> simp [stringz.Default, h]

theorem defaultEmpty_ellipsis (opt : GoString) :
    stringz.DefaultEmpty opt "..." = if opt = "" then "..." else opt := by
  by_cases h : opt = "" <;> simp [stringz.DefaultEmpty, stringz.Default, h]

/-- What `ToRelationship` returns for a grammar-valid tuple. -/
theorem toRelationship_valid (res sub : ObjectAndRelation)
    (hres : res.validResource = true) (hsub : sub.validSubject = true) :
    ToRelationship ⟨some res, some ⟨some sub⟩⟩ =
      .ok ⟨some ⟨res.Namespace, res.ObjectId⟩, res.Relation,
        some ⟨some ⟨sub.Namespace, sub.ObjectId⟩, if sub.Relation = "..." then "" else sub.Relation⟩⟩ := by
  have hv := validate_tuple_ok res sub hres hsub
  simp only [ToRelationship, hv, User.GetUserset, default_ellipsis]

/-- What `FromRelationship` returns for a grammar-valid relationship. -/
theorem fromRelationship_valid (res obj : ObjectReference) (rel opt : GoString) (fuel : Nat)
    (hres : res.valid = true) (hrel : IsRelation rel = true) (hobj : obj.valid = true)
    (hopt : opt = "" ∨ IsRelation opt = true) :
    FromRelationship (fuel + 1) ⟨some res, rel, some ⟨some obj, opt⟩⟩ =
      .ok ⟨some ⟨res.ObjectType, res.ObjectId, rel⟩,
        some ⟨some ⟨obj.ObjectType, obj.ObjectId, if opt = "" then "..." else opt⟩⟩⟩ := by
  have hv := validate_relationship_ok res obj rel opt hres hrel hobj hopt
  simp only [FromRelationship, hv, defaultEmpty_ellipsis]

/-- The relationship of a grammar-valid tuple is grammar-valid and converts back to the
tuple. -/
theorem fromRelationship_of_toRelationship (res sub : ObjectAndRelation) (fuel : Nat)
    (hres : res.validResource = true) (hsub : sub.validSubject = true) :
    FromRelationship (fuel + 1) ⟨some ⟨res.Namespace, res.ObjectId⟩, res.Relation,
        some ⟨some ⟨sub.Namespace, sub.ObjectId⟩,
          if sub.Relation = "..." then "" else sub.Relation⟩⟩ =
      .ok ⟨some res, some ⟨some sub⟩⟩ := by
  have hres1 := hres
  have hsub1 := hsub
  simp only [ObjectAndRelation.validResource, ObjectAndRelation.validSubject, Bool.and_eq_true,
    Bool.or_eq_true, decide_eq_true_eq] at hres1 hsub1
  obtain ⟨⟨m1, m2⟩, m3⟩ := hres1
  obtain ⟨⟨m4, m5⟩, m6⟩ := hsub1
  have hopt : (if sub.Relation = "..." then "" else sub.Relation) = "" ∨
      IsRelation (if sub.Relation = "..." then "" else sub.Relation) = true := by
    by_cases hw : sub.Relation = "..."
    · exact Or.inl (by simp [hw])
    · rcases m6 with m6 | m6
      · exact Or.inr (by simpa [hw] using m6)
      · exact absurd m6 hw
  rw [fromRelationship_valid ⟨res.Namespace, res.ObjectId⟩ ⟨sub.Namespace, sub.ObjectId⟩ _ _ fuel
    (by simp [ObjectReference.valid, m1, m2]) m3 (by simp [ObjectReference.valid, m4, m5]) hopt]
  have hback : (if (if sub.Relation = "..." then "" else sub.Relation) = "" then "..."
      else (if sub.Relation = "..." then "" else sub.Relation)) = sub.Relation := by
    by_cases hw : sub.Relation = "..."
    · simp [hw]
    · rcases m6 with m6 | m6
      · have hne1 : sub.Relation ≠ "" := isRelation_ne_empty _ m6
        simp [hw, hne1]
      · exact absurd m6 hw
  rw [hback]

/-- C16: for each of CREATE, TOUCH and DELETE and every grammar-valid tuple, mapping the
tuple update to a relationship update and back gives the update with the operation tag it
had; each tag maps to the like-named relationship operation and back, and the three tags
stay distinct. -/
theorem update_operation_roundtrip (op : RelationTupleUpdate_Operation)
    (res sub : ObjectAndRelation) (fuel : Nat)
    (hop : op = .CREATE ∨ op = .TOUCH ∨ op = .DELETE)
    (hres : res.validResource = true) (hsub : sub.validSubject = true) :
    (∃ u, (UpdateToRelationshipUpdate ⟨op, ⟨some res, some ⟨some sub⟩⟩⟩).bind
        (UpdateFromRelationshipUpdate (fuel + 1)) = .ok u ∧ u.Operation = op ∧
        u.Tuple = ⟨some res, some ⟨some sub⟩⟩) ∧
    (∃ r, UpdateToRelationshipUpdate ⟨.CREATE, ⟨some res, some ⟨some sub⟩⟩⟩ =
          .ok ⟨.OPERATION_CREATE, r⟩ ∧
        UpdateToRelationshipUpdate ⟨.TOUCH, ⟨some res, some ⟨some sub⟩⟩⟩ =
          .ok ⟨.OPERATION_TOUCH, r⟩ ∧
        UpdateToRelationshipUpdate ⟨.DELETE, ⟨some res, some ⟨some sub⟩⟩⟩ =
          .ok ⟨.OPERATION_DELETE, r⟩ ∧
        UpdateFromRelationshipUpdate (fuel + 1) ⟨.OPERATION_CREATE, r⟩ =
          .ok ⟨.CREATE, ⟨some res, some ⟨some sub⟩⟩⟩ ∧
        UpdateFromRelationshipUpdate (fuel + 1) ⟨.OPERATION_TOUCH, r⟩ =
          .ok ⟨.TOUCH, ⟨some res, some ⟨some sub⟩⟩⟩ ∧
        UpdateFromRelationshipUpdate (fuel + 1) ⟨.OPERATION_DELETE, r⟩ =
          .ok ⟨.DELETE, ⟨some res, some ⟨some sub⟩⟩⟩) := by
  have h1 := toRelationship_valid res sub hres hsub
  have h2 := fromRelationship_of_toRelationship res sub fuel hres hsub
  refine ⟨?_, ⟨⟨some ⟨res.Namespace, res.ObjectId⟩, res.Relation,
    some ⟨some ⟨sub.Namespace, sub.ObjectId⟩, if sub.Relation = "..." then "" else sub.Relation⟩⟩,
    ?_, ?_, ?_, ?_, ?_, ?_⟩⟩
  · refine ⟨⟨op, ⟨some res, some ⟨some sub⟩⟩⟩, ?_, rfl, rfl⟩
    rcases hop with h | h | h <;> subst h <;>
      simp only [UpdateToRelationshipUpdate, UpdateFromRelationshipUpdate, Result.bind, h1, h2]
  all_goals simp only [UpdateToRelationshipUpdate, UpdateFromRelationshipUpdate, Result.bind, h1, h2]

/-- Witness for C16 at the update TOUCH of `document:123#viewer@user:456#...`. -/
theorem update_operation_roundtrip_witness :
    ∃ u, (UpdateToRelationshipUpdate (Touch ⟨some ⟨"document", "123", "viewer"⟩,
        some ⟨some ⟨"user", "456", "..."⟩⟩⟩)).bind (UpdateFromRelationshipUpdate 1) = .ok u ∧
      u.Operation = .TOUCH ∧
      u.Tuple = ⟨some ⟨"document", "123", "viewer"⟩, some ⟨some ⟨"user", "456", "..."⟩⟩⟩ :=
  (update_operation_roundtrip .TOUCH ⟨"document", "123", "viewer"⟩ ⟨"user", "456", "..."⟩ 0
    (Or.inr (Or.inl rfl)) (by decide) (by decide)).1

/-- C17: an update whose operation tag is none of CREATE, TOUCH and DELETE makes
`UpdateToRelationshipUpdate` panic with `unknown tuple mutation`, whatever the tuple, and
likewise a relationship update whose tag is none of the three makes
`UpdateFromRelationshipUpdate` panic; no such tag is turned into an operation. -/
theorem update_unknown_operation_panics :
    (∀ u : RelationTupleUpdate, u.Operation ≠ .CREATE → u.Operation ≠ .TOUCH →
      u.Operation ≠ .DELETE → UpdateToRelationshipUpdate u = .panic "unknown tuple mutation") ∧
    (∀ (fuel : Nat) (u : RelationshipUpdate), u.Operation ≠ .OPERATION_CREATE →
      u.Operation ≠ .OPERATION_TOUCH → u.Operation ≠ .OPERATION_DELETE →
      UpdateFromRelationshipUpdate fuel u = .panic "unknown tuple mutation") := by
  constructor
  · intro u h1 h2 h3
    cases hu : u.Operation with
    | CREATE => exact absurd hu h1
    | TOUCH => exact absurd hu h2
    | DELETE => exact absurd hu h3
    | other v => simp only [UpdateToRelationshipUpdate, hu, Result.bind]
  · intro fuel u h1 h2 h3
    cases hu : u.Operation with
    | OPERATION_CREATE => exact absurd hu h1
    | OPERATION_TOUCH => exact absurd hu h2
    | OPERATION_DELETE => exact absurd hu h3
    | other v => simp only [UpdateFromRelationshipUpdate, hu, Result.bind]

/-- Witness for C17 at the zero tag, with a valid tuple and a valid relationship. -/
theorem update_unknown_operation_panics_witness :
    UpdateToRelationshipUpdate ⟨.other 0, ⟨some ⟨"document", "123", "viewer"⟩,
        some ⟨some ⟨"user", "456", "..."⟩⟩⟩⟩ = .panic "unknown tuple mutation" ∧
    UpdateFromRelationshipUpdate 1 ⟨.other 0, ⟨some ⟨"document", "123"⟩, "viewer",
        some ⟨some ⟨"user", "456"⟩, ""⟩⟩⟩ = .panic "unknown tuple mutation" :=
  ⟨update_unknown_operation_panics.1 _ (by decide) (by decide) (by decide),
    update_unknown_operation_panics.2 1 _ (by decide) (by decide) (by decide)⟩

/-- C18: for a grammar-valid tuple, `ToRelationship` copies the resource namespace,
object id and relation and the subject namespace and object id, and its optional subject
relation is empty exactly when the subject relation of the tuple is the wildcard, and is
that relation otherwise; for a grammar-valid relationship, `FromRelationship` gives the
subject relation `...` exactly when the optional subject relation is empty. -/
theorem adapter_wildcard_mapping :
    (∀ res sub : ObjectAndRelation, res.validResource = true → sub.validSubject = true →
      ∃ opt, ToRelationship ⟨some res, some ⟨some sub⟩⟩ =
          .ok ⟨some ⟨res.Namespace, res.ObjectId⟩, res.Relation,
            some ⟨some ⟨sub.Namespace, sub.ObjectId⟩, opt⟩⟩ ∧
        (opt = "" ↔ sub.Relation = "...") ∧ (sub.Relation ≠ "..." → opt = sub.Relation)) ∧
    (∀ (res obj : ObjectReference) (rel opt : GoString) (fuel : Nat), res.valid = true →
      IsRelation rel = true → obj.valid = true → (opt = "" ∨ IsRelation opt = true) →
      ∃ srel, FromRelationship (fuel + 1) ⟨some res, rel, some ⟨some obj, opt⟩⟩ =
          .ok ⟨some ⟨res.ObjectType, res.ObjectId, rel⟩,
            some ⟨some ⟨obj.ObjectType, obj.ObjectId, srel⟩⟩⟩ ∧
        (srel = "..." ↔ opt = "") ∧ (opt ≠ "" → srel = opt)) := by
  constructor
  · intro res sub hres hsub
    refine ⟨_, toRelationship_valid res sub hres hsub, ?_, ?_⟩
    · by_cases hw : sub.Relation = "..."
      · simp [hw]
      · simp only [hw, if_false, iff_false]
        simp only [ObjectAndRelation.validSubject, Bool.and_eq_true, Bool.or_eq_true,
          decide_eq_true_eq] at hsub
        rcases hsub.2 with h | h
        · exact isRelation_ne_empty _ h
        · exact absurd h hw
    · intro hw
      simp [hw]
  · intro res obj rel opt fuel hres hrel hobj hopt
    refine ⟨_, fromRelationship_valid res obj rel opt fuel hres hrel hobj hopt, ?_, ?_⟩
    · by_cases he : opt = ""
      · simp [he]
      · simp only [he, if_false, iff_false]
        rcases hopt with h | h
        · exact absurd h he
        · exact isRelation_ne_ellipsis _ h
    · intro he
      simp [he]

/-- Witness for C18 at the tuple `document:123#viewer@user:456#...` and the relationship
`document:123#viewer@user:456#member`. -/
theorem adapter_wildcard_mapping_witness :
    (∃ opt, ToRelationship ⟨some ⟨"document", "123", "viewer"⟩,
        some ⟨some ⟨"user", "456", "..."⟩⟩⟩ =
          .ok ⟨some ⟨"document", "123"⟩, "viewer", some ⟨some ⟨"user", "456"⟩, opt⟩⟩ ∧
      (opt = "" ↔ ("..." : GoString) = "...") ∧ (("..." : GoString) ≠ "..." → opt = "...")) ∧
    (∃ srel, FromRelationship 1 ⟨some ⟨"document", "123"⟩, "viewer",
        some ⟨some ⟨"user", "456"⟩, "member"⟩⟩ =
          .ok ⟨some ⟨"document", "123", "viewer"⟩, some ⟨some ⟨"user", "456", srel⟩⟩⟩ ∧
      (srel = "..." ↔ ("member" : GoString) = "") ∧ (("member" : GoString) ≠ "" → srel = "member")) :=
  ⟨adapter_wildcard_mapping.1 ⟨"document", "123", "viewer"⟩ ⟨"user", "456", "..."⟩
      (by decide) (by decide),
    adapter_wildcard_mapping.2 ⟨"document", "123"⟩ ⟨"user", "456"⟩ "viewer" "member" 0
      (by decide) (by decide) (by decide) (Or.inr (by decide))⟩

/-- C19: for a grammar-valid tuple, `ToFilter` carries the resource namespace, object id
and relation and the subject namespace and object id of the tuple, and the relation of its
subject filter is the optional subject relation that `ToRelationship` gives: empty when the
subject relation of the tuple is the wildcard, that relation otherwise. -/
theorem toFilter_fields (res sub : ObjectAndRelation)
    (hres : res.validResource = true) (hsub : sub.validSubject = true) :
    ∃ opt, ToFilter ⟨some res, some ⟨some sub⟩⟩ =
        .ok ⟨res.Namespace, res.ObjectId, res.Relation,
          some ⟨sub.Namespace, sub.ObjectId, some ⟨opt⟩⟩⟩ ∧
      ToRelationship ⟨some res, some ⟨some sub⟩⟩ =
        .ok ⟨some ⟨res.Namespace, res.ObjectId⟩, res.Relation,
          some ⟨some ⟨sub.Namespace, sub.ObjectId⟩, opt⟩⟩ ∧
      (sub.Relation = "..." → opt = "") ∧ (sub.Relation ≠ "..." → opt = sub.Relation) := by
  have hv := validate_tuple_ok res sub hres hsub
  refine ⟨if sub.Relation = "..." then "" else sub.Relation, ?_,
    toRelationship_valid res sub hres hsub, ?_, ?_⟩
  · simp only [ToFilter, hv, User.GetUserset, default_ellipsis]
  · intro hw; simp [hw]
  · intro hw; simp [hw]

/-- Witness for C19 at the tuple `document:123#viewer@user:456#member`. -/
theorem toFilter_fields_witness :
    ∃ opt, ToFilter ⟨some ⟨"document", "123", "viewer"⟩, some ⟨some ⟨"user", "456", "member"⟩⟩⟩ =
        .ok ⟨"document", "123", "viewer", some ⟨"user", "456", some ⟨opt⟩⟩⟩ ∧
      ToRelationship ⟨some ⟨"document", "123", "viewer"⟩, some ⟨some ⟨"user", "456", "member"⟩⟩⟩ =
        .ok ⟨some ⟨"document", "123"⟩, "viewer", some ⟨some ⟨"user", "456"⟩, opt⟩⟩ ∧
      (("member" : GoString) = "..." → opt = "") ∧ (("member" : GoString) ≠ "..." → opt = "member") :=
  toFilter_fields ⟨"document", "123", "viewer"⟩ ⟨"user", "456", "member"⟩ (by decide) (by decide)

/-- An invalid relationship: neither `FromRelationship` nor `RelString` returns or panics
within any recursion budget, because the panic message is built by `RelString`, which
calls `FromRelationship` on the same relationship. -/
theorem fromRelationship_invalid_diverges (r : Relationship) (err : GoString)
    (h : r.Validate = some err) :
    ∀ fuel, FromRelationship fuel r = .diverge ∧ RelString fuel r = .diverge := by
  intro fuel
  induction fuel with
  | zero => exact ⟨by simp only [FromRelationship], by simp only [RelString]⟩
  | succ n ih =>
    exact ⟨by simp only [FromRelationship, h, ih.2, Result.bind],
      by simp only [RelString, ih.1, Result.bind]⟩

/-- C20, at the relationship `document:123#vi@user:456`, whose relation is too short to
be valid: whatever the recursion budget, `FromRelationship`, `RelString` and
`UpdateFromRelationshipUpdate` are still running, and none of them reaches the
`invalid relationship` panic. -/
theorem fromRelationship_invalid_never_returns :
    Relationship.Validate ⟨some ⟨"document", "123"⟩, "vi", some ⟨some ⟨"user", "456"⟩, ""⟩⟩ =
      some "invalid Relationship.Relation: value does not match regex pattern" ∧
    ∀ fuel,
      FromRelationship fuel ⟨some ⟨"document", "123"⟩, "vi", some ⟨some ⟨"user", "456"⟩, ""⟩⟩ =
        .diverge ∧
      RelString fuel ⟨some ⟨"document", "123"⟩, "vi", some ⟨some ⟨"user", "456"⟩, ""⟩⟩ =
        .diverge ∧
      UpdateFromRelationshipUpdate fuel ⟨.OPERATION_CREATE,
        ⟨some ⟨"document", "123"⟩, "vi", some ⟨some ⟨"user", "456"⟩, ""⟩⟩⟩ = .diverge := by
  have hv : Relationship.Validate
      ⟨some ⟨"document", "123"⟩, "vi", some ⟨some ⟨"user", "456"⟩, ""⟩⟩ =
      some "invalid Relationship.Relation: value does not match regex pattern" := by decide
  refine ⟨hv, fun fuel => ?_⟩
  obtain ⟨h1, h2⟩ := fromRelationship_invalid_diverges _ _ hv fuel
  exact ⟨h1, h2, by simp only [UpdateFromRelationshipUpdate, Result.bind, h1]⟩

/-- The text `a:b#rel@c:d` is not parsed: `Parse` returns no value. -/
theorem parse_short_names_none : ¬ ∃ t, Parse "a:b#rel@c:d" = some t := by
  have h : Parse "a:b#rel@c:d" = none := by decide
  rintro ⟨t, ht⟩
  rw [h] at ht
  exact absurd ht (by simp)

/-- C15, amended: `Parse` returns no value for `a:b#rel@c:d`, whose namespaces and relation
are shorter than the four characters of the pattern; for `docs:b#view@user:d`, a text
without subject relation whose fields match the pattern, it returns the tuple whose subject
relation is the wildcard. -/
theorem parse_wildcard_default :
    Parse "a:b#rel@c:d" = none ∧
    IsNamespace "a" = false ∧ IsNamespace "c" = false ∧ IsRelation "rel" = false ∧
    Parse "docs:b#view@user:d" =
      some ⟨some ⟨"docs", "b", "view"⟩, some ⟨some ⟨"user", "d", "..."⟩⟩⟩ := by
  refine ⟨by decide, by decide, by decide, by decide, by decide⟩

end tuple

/-! ## What the tuple pattern accepts -/

namespace tuple

open regexp

/-- Parsing the fields joined by the delimiters, without a subject relation. -/
theorem parse_fields_plain (ns id rel sns sid : List Char) (s : GoString)
    (e : s.data = ns ++ ':' :: (id ++ '#' :: (rel ++ '@' :: (sns ++ ':' :: (sid ++ [])))))
    (m1 : Matches namespaceNameExpr ns = true) (m2 : Matches objectIDExpr id = true)
    (m3 : Matches relationExpr rel = true) (m4 : Matches namespaceNameExpr sns = true)
    (m5 : Matches objectIDExpr sid = true) :
    Parse s = some (mkTuple ns id rel sns sid ellipsis) := by
  have hm := matches_parserBody ns id rel sns sid [] m1 m2 m3 m4 m5 (Or.inl rfl)
  rw [← e] at hm
  obtain ⟨t, ht⟩ := parse_isSome s hm
  rw [ht]
  obtain ⟨ns1, id1, rel1, sns1, sid1, sfx1, e1, n1, n2, n3, n4, n5, hs⟩ := parse_sound s t ht
  rw [e] at e1
  have hs1 : sfx1 = [] ∨ ∃ r, sfx1 = '#' :: r := by
    rcases hs with ⟨h, _⟩ | ⟨r, h, _⟩
    · exact Or.inl h
    · exact Or.inr ⟨r, h⟩
  obtain ⟨r1, r2, r3, r4, r5, r6⟩ :=
    fields_unique _ _ _ _ _ _ _ _ _ _ _ _ e1 m1 m2 m3 m4 m5 (Or.inl rfl) n1 n2 n3 n4 n5 hs1
  subst r1 r2 r3 r4 r5
  rcases hs with ⟨_, ht1⟩ | ⟨r, h, _, _⟩
  · rw [ht1]
  · rw [h] at r6
    exact absurd r6 (by simp)

/-- Parsing the fields joined by the delimiters, with a subject relation. -/
theorem parse_fields_suffix (ns id rel sns sid srel : List Char) (s : GoString)
    (e : s.data = ns ++ ':' :: (id ++ '#' :: (rel ++ '@' :: (sns ++ ':' :: (sid ++ '#' :: srel)))))
    (m1 : Matches namespaceNameExpr ns = true) (m2 : Matches objectIDExpr id = true)
    (m3 : Matches relationExpr rel = true) (m4 : Matches namespaceNameExpr sns = true)
    (m5 : Matches objectIDExpr sid = true) (m6 : Matches subjectRelExpr srel = true) :
    Parse s = some (mkTuple ns id rel sns sid (String.mk srel)) := by
  have hm := matches_parserBody ns id rel sns sid ('#' :: srel) m1 m2 m3 m4 m5
    (Or.inr ⟨srel, rfl, m6⟩)
  rw [← e] at hm
  obtain ⟨t, ht⟩ := parse_isSome s hm
  rw [ht]
  obtain ⟨ns1, id1, rel1, sns1, sid1, sfx1, e1, n1, n2, n3, n4, n5, hs⟩ := parse_sound s t ht
  rw [e] at e1
  have hs1 : sfx1 = [] ∨ ∃ r, sfx1 = '#' :: r := by
    rcases hs with ⟨h, _⟩ | ⟨r, h, _⟩
    · exact Or.inl h
    · exact Or.inr ⟨r, h⟩
  obtain ⟨r1, r2, r3, r4, r5, r6⟩ :=
    fields_unique _ _ _ _ _ _ _ _ _ _ _ _ e1 m1 m2 m3 m4 m5 (Or.inr ⟨srel, rfl⟩)
      n1 n2 n3 n4 n5 hs1
  subst r1 r2 r3 r4 r5
  rcases hs with ⟨h, _⟩ | ⟨r, h, _, ht1⟩
  · rw [h] at r6
    exact absurd r6 (by simp)
  · rw [h] at r6
    simp only [List.cons.injEq, true_and] at r6
    subst r6
    rw [ht1]

/-- C14: for every text `ns:id#rel@ns2:id2` whose five fields satisfy the grammar, with no
subject relation, `Parse` returns the tuple of these fields with the wildcard as subject
relation, and the same tuple is returned for the text followed by `#...`. -/
theorem parse_missing_subject_relation (ns id rel sns sid : GoString)
    (h1 : IsNamespace ns = true) (h2 : IsObjectID id = true) (h3 : IsRelation rel = true)
    (h4 : IsNamespace sns = true) (h5 : IsObjectID sid = true) :
    Parse (ns ++ ":" ++ id ++ "#" ++ rel ++ "@" ++ sns ++ ":" ++ sid) =
        some ⟨some ⟨ns, id, rel⟩, some ⟨some ⟨sns, sid, "..."⟩⟩⟩ ∧
      Parse (ns ++ ":" ++ id ++ "#" ++ rel ++ "@" ++ sns ++ ":" ++ sid ++ "#...") =
        Parse (ns ++ ":" ++ id ++ "#" ++ rel ++ "@" ++ sns ++ ":" ++ sid) := by
  rw [isNamespace_iff] at h1 h4
  rw [isObjectID_iff] at h2 h5
  rw [isRelation_iff] at h3
  have p1 := parse_fields_plain ns.data id.data rel.data sns.data sid.data
    (ns ++ ":" ++ id ++ "#" ++ rel ++ "@" ++ sns ++ ":" ++ sid)
    (by simp [String.data_append]) h1 h2 h3 h4 h5
  have p2 := parse_fields_suffix ns.data id.data rel.data sns.data sid.data ['.', '.', '.']
    (ns ++ ":" ++ id ++ "#" ++ rel ++ "@" ++ sns ++ ":" ++ sid ++ "#...")
    (by simp [String.data_append]) h1 h2 h3 h4 h5 (by decide)
  rw [p2, p1]
  exact ⟨rfl, rfl⟩

/-- Witness for C14 at the text `document:123#viewer@user:456`. -/
theorem parse_missing_subject_relation_witness :
    Parse ("document" ++ ":" ++ "123" ++ "#" ++ "viewer" ++ "@" ++ "user" ++ ":" ++ "456") =
        some ⟨some ⟨"document", "123", "viewer"⟩, some ⟨some ⟨"user", "456", "..."⟩⟩⟩ ∧
      Parse ("document" ++ ":" ++ "123" ++ "#" ++ "viewer" ++ "@" ++ "user" ++ ":" ++ "456" ++
          "#...") =
        Parse ("document" ++ ":" ++ "123" ++ "#" ++ "viewer" ++ "@" ++ "user" ++ ":" ++ "456") :=
  parse_missing_subject_relation "document" "123" "viewer" "user" "456"
    (by decide) (by decide) (by decide) (by decide) (by decide)

/-- A bounded repetition of a one-character step reads between `min` and `max`
characters, all accepted by the step. -/
theorem mem_repM_stepL (p : Char → Bool) (max : Nat) : ∀ (min : Nat) (s x : List Char),
    x ∈ repM (stepL p) min max s ↔
      ∃ w, s = w ++ x ∧ min ≤ w.length ∧ w.length ≤ max ∧ ∀ c ∈ w, p c = true := by
  induction max with
  | zero =>
    intro min s x
    cases min with
    | zero =>
      simp only [repM, List.mem_singleton]
      constructor
      · intro h; exact ⟨[], by simp [h], by simp, by simp, by simp⟩
      · rintro ⟨w, hs, _, hl, _⟩
        have : w = [] := List.eq_nil_of_length_eq_zero (by omega)
        subst this
        simpa using hs.symm
    | succ m =>
      simp only [repM, List.not_mem_nil, false_iff]
      rintro ⟨w, _, h1, h2, _⟩
      omega
  | succ k ih =>
    intro min s x
    cases min with
    | zero =>
      simp only [repM, List.mem_append, List.mem_flatMap, List.mem_singleton, stepL_mem]
      constructor
      · rintro (⟨y, ⟨c, hc, hs⟩, hx⟩ | h)
        · obtain ⟨w, hy, _, hl, hp⟩ := (ih 0 y x).mp hx
          refine ⟨c :: w, by rw [hs, hy]; rfl, by simp, by simp; omega, ?_⟩
          intro d hd
          rcases List.mem_cons.mp hd with hd | hd
          · rw [hd]; exact hc
          · exact hp d hd
        · exact ⟨[], by simp [h], by simp, by simp, by simp⟩
      · rintro ⟨w, hs, _, hl, hp⟩
        cases w with
        | nil => exact Or.inr (by simpa using hs.symm)
        | cons c w1 =>
          refine Or.inl ⟨w1 ++ x, ⟨c, hp c (by simp), by rw [hs]; rfl⟩, ?_⟩
          exact (ih 0 (w1 ++ x) x).mpr ⟨w1, rfl, by simp, by simp at hl; omega,
            fun d hd => hp d (by simp [hd])⟩
    | succ m =>
      simp only [repM, List.mem_flatMap, stepL_mem]
      constructor
      · rintro ⟨y, ⟨c, hc, hs⟩, hx⟩
        obtain ⟨w, hy, hm, hl, hp⟩ := (ih m y x).mp hx
        refine ⟨c :: w, by rw [hs, hy]; rfl, by simp; omega, by simp; omega, ?_⟩
        intro d hd
        rcases List.mem_cons.mp hd with hd | hd
        · rw [hd]; exact hc
        · exact hp d hd
      · rintro ⟨w, hs, hm, hl, hp⟩
        cases w with
        | nil => simp at hm
        | cons c w1 =>
          refine ⟨w1 ++ x, ⟨c, hp c (by simp), by rw [hs]; rfl⟩, ?_⟩
          exact (ih m (w1 ++ x) x).mpr ⟨w1, rfl, by simp at hm; omega, by simp at hl; omega,
            fun d hd => hp d (by simp [hd])⟩

theorem accepts_cls (rs : List (Char × Char)) : accepts (.cls rs) = stepL (inClass rs) := by
  funext s
  simp only [accepts]

theorem char_eq_iff_le (c d : Char) : (decide (d ≤ c) && decide (c ≤ d)) = (c == d) := by
  by_cases h : c = d
  · subst h
    simp
  · have h1 : (c == d) = false := by simpa using h
    rw [h1]
    simp only [Bool.and_eq_false_imp, decide_eq_true_eq, decide_eq_false_iff_not]
    intro h2 h3
    exact h (le_antisymm h3 h2)

theorem inClass_lower (c : Char) : inClass lower c = isLower c := by
  simp [inClass, lower, isLower]

theorem inClass_lowerDigit (c : Char) : inClass lowerDigit c = isNameEnd c := by
  simp [inClass, lowerDigit, isNameEnd, isLower, isDigit]

theorem inClass_lowerDigitUnderscore (c : Char) :
    inClass lowerDigitUnderscore c = isNameChar c := by
  simp only [inClass, lowerDigitUnderscore, isNameChar, isLower, isDigit, List.any_cons,
    List.any_nil, Bool.or_false, char_eq_iff_le, Bool.or_assoc]

theorem inClass_idFirst (c : Char) :
    inClass [('a', 'z'), ('A', 'Z'), ('0', '9'), ('_', '_')] c = isIdFirst c := by
  simp only [inClass, isIdFirst, isLower, isUpper, isDigit, List.any_cons,
    List.any_nil, Bool.or_false, char_eq_iff_le, Bool.or_assoc]

theorem inClass_idChar (c : Char) :
    inClass [('a', 'z'), ('A', 'Z'), ('0', '9'), ('/', '/'), ('_', '_'), ('-', '-')] c =
      isIdChar c := by
  simp only [inClass, isIdChar, isLower, isUpper, isDigit, List.any_cons,
    List.any_nil, Bool.or_false, char_eq_iff_le, Bool.or_assoc]

theorem nameShape_iff (lo hi : Nat) (w : List Char) :
    nameShape lo hi w = true ↔ NameForm lo hi w := by
  constructor
  · intro h
    cases w with
    | nil => simp [nameShape] at h
    | cons c rest =>
      simp only [nameShape, Bool.and_eq_true, decide_eq_true_eq, List.all_eq_true] at h
      obtain ⟨⟨⟨⟨h1, h2⟩, h3⟩, h4⟩, h5⟩ := h
      have hne : rest ≠ [] := by
        intro h0
        rw [h0] at h2
        simp at h2
      have hr := List.dropLast_append_getLast hne
      have hl : rest.getLast? = some (rest.getLast hne) := List.getLast?_eq_getLast _ hne
      rw [hl] at h5
      refine ⟨c, rest.dropLast, rest.getLast hne, by rw [hr], h1, ?_, ?_, h4, by simpa using h5⟩
      · rw [List.length_dropLast]; omega
      · rw [List.length_dropLast]; omega
  · rintro ⟨c, mid, cl, hw, h1, h2, h3, h4, h5⟩
    subst hw
    simp only [nameShape, Bool.and_eq_true, decide_eq_true_eq, List.all_eq_true,
      List.dropLast_concat, List.getLast?_concat, List.length_append, List.length_singleton]
    exact ⟨⟨⟨⟨h1, by omega⟩, by omega⟩, h4⟩, by simpa using h5⟩

/-- What the pattern of a name reads: a name of the rule, and what follows it. -/
theorem mem_accepts_name (lo hi : Nat) (s x : List Char) :
    x ∈ accepts (.cat (.cls lower) (.cat (.rep (.cls lowerDigitUnderscore) lo hi)
        (.cls lowerDigit))) s ↔ ∃ w, s = w ++ x ∧ NameForm lo hi w := by
  simp only [accepts, List.mem_flatMap, stepL_mem, inClass_lower, inClass_lowerDigit]
  rw [show (fun s => stepL (inClass lowerDigitUnderscore) s) = stepL isNameChar from by
    funext s; rw [show inClass lowerDigitUnderscore = isNameChar from
      funext inClass_lowerDigitUnderscore]]
  constructor
  · rintro ⟨r1, ⟨c, hc, hs⟩, r2, hr2, cl, hcl, hr⟩
    obtain ⟨mid, hm, h1, h2, h3⟩ := (mem_repM_stepL isNameChar hi lo r1 r2).mp hr2
    refine ⟨c :: (mid ++ [cl]), by rw [hs, hm, hr]; simp, c, mid, cl, rfl, hc, h1, h2, h3, hcl⟩
  · rintro ⟨w, hs, c, mid, cl, hw, hc, h1, h2, h3, hcl⟩
    subst hw
    refine ⟨mid ++ cl :: x, ⟨c, hc, by rw [hs]; simp⟩, cl :: x, ?_, cl, hcl, rfl⟩
    exact (mem_repM_stepL isNameChar hi lo _ _).mpr ⟨mid, rfl, h1, h2, h3⟩

/-- What the pattern of a tenant reads: a name of the rule, the character `/`, and what
follows it. -/
theorem mem_accepts_tenant (lo hi : Nat) (s x : List Char) :
    x ∈ accepts (.cat (.cls lower) (.cat (.rep (.cls lowerDigitUnderscore) lo hi)
        (.cat (.cls lowerDigit) (.chr '/')))) s ↔
      ∃ w, s = w ++ '/' :: x ∧ NameForm lo hi w := by
  simp only [accepts, List.mem_flatMap, stepL_mem, inClass_lower, inClass_lowerDigit]
  rw [show (fun s => stepL (inClass lowerDigitUnderscore) s) = stepL isNameChar from by
    funext s; rw [show inClass lowerDigitUnderscore = isNameChar from
      funext inClass_lowerDigitUnderscore]]
  constructor
  · rintro ⟨r1, ⟨c, hc, hs⟩, r2, hr2, r3, ⟨cl, hcl, hr⟩, d, hd, hr3⟩
    have hd1 : d = '/' := by simpa using hd
    subst hd1
    obtain ⟨mid, hm, h1, h2, h3⟩ := (mem_repM_stepL isNameChar hi lo r1 r2).mp hr2
    refine ⟨c :: (mid ++ [cl]), by rw [hs, hm, hr, hr3]; simp, c, mid, cl, rfl, hc, h1, h2, h3,
      hcl⟩
  · rintro ⟨w, hs, c, mid, cl, hw, hc, h1, h2, h3, hcl⟩
    subst hw
    refine ⟨mid ++ cl :: '/' :: x, ⟨c, hc, by rw [hs]; simp⟩, cl :: '/' :: x, ?_, '/' :: x,
      ⟨cl, hcl, rfl⟩, '/', by simp, rfl⟩
    exact (mem_repM_stepL isNameChar hi lo _ _).mpr ⟨mid, rfl, h1, h2, h3⟩

/-- The pattern of a relation name and the rule with 2 to 62 middle characters agree. -/
theorem matches_relationExpr_iff (w : List Char) :
    Matches relationExpr w = true ↔ nameShape 2 62 w = true := by
  rw [matches_iff, nameShape_iff]
  unfold relationExpr
  rw [mem_accepts_name]
  constructor
  · rintro ⟨w1, hs, h⟩
    simp only [List.append_nil] at hs
    rw [hs]; exact h
  · intro h
    exact ⟨w, by simp, h⟩

/-- The pattern of an object id and the rule for object ids agree. -/
theorem matches_objectIDExpr_iff (w : List Char) :
    Matches objectIDExpr w = true ↔ objectIdShape w = true := by
  rw [matches_iff]
  unfold objectIDExpr
  simp only [accepts, List.mem_flatMap, stepL_mem, inClass_idFirst]
  rw [show (fun s => stepL (inClass [('a', 'z'), ('A', 'Z'), ('0', '9'), ('/', '/'), ('_', '_'),
    ('-', '-')]) s) = stepL isIdChar from by
      funext s; rw [show inClass [('a', 'z'), ('A', 'Z'), ('0', '9'), ('/', '/'), ('_', '_'),
        ('-', '-')] = isIdChar from funext inClass_idChar]]
  constructor
  · rintro ⟨r1, ⟨c, hc, hs⟩, hr⟩
    obtain ⟨mid, hm, _, h2, h3⟩ := (mem_repM_stepL isIdChar 127 0 r1 []).mp hr
    simp only [List.append_nil] at hm
    subst hm hs
    simp only [objectIdShape, Bool.and_eq_true, decide_eq_true_eq, List.all_eq_true]
    exact ⟨⟨hc, h2⟩, h3⟩
  · intro h
    cases w with
    | nil => simp [objectIdShape] at h
    | cons c rest =>
      simp only [objectIdShape, Bool.and_eq_true, decide_eq_true_eq, List.all_eq_true] at h
      refine ⟨rest, ⟨c, h.1.1, rfl⟩, ?_⟩
      exact (mem_repM_stepL isIdChar 127 0 rest []).mpr ⟨rest, by simp, by simp, h.1.2, h.2⟩

theorem dropWhile_head_false (p : Char → Bool) : ∀ (w : List Char) (d : Char) (rest : List Char),
    w.dropWhile p = d :: rest → p d = false := by
  intro w
  induction w with
  | nil => intro d rest h; simp at h
  | cons c cs ih =>
    intro d rest h
    by_cases hc : p c
    · rw [List.dropWhile_cons_of_pos hc] at h
      exact ih d rest h
    · rw [List.dropWhile_cons_of_neg hc] at h
      simp only [List.cons.injEq] at h
      rw [← h.1]
      simpa using hc

theorem nameForm_no_slash (lo hi : Nat) (t : List Char) (h : NameForm lo hi t) :
    ∀ c ∈ t, (c != '/') = true := by
  obtain ⟨c0, mid, cl, ht, h0, _, _, hm, hl⟩ := h
  have key : ∀ c : Char, (isLower c = true ∨ isNameChar c = true ∨ isNameEnd c = true) →
      (c != '/') = true := by
    intro c hc
    simp only [bne_iff_ne, ne_eq]
    rintro rfl
    revert hc
    decide
  intro c hc
  subst ht
  simp only [List.mem_cons, List.mem_append, List.mem_singleton, List.not_mem_nil, or_false] at hc
  rcases hc with hc | hc | hc
  · subst hc; exact key _ (Or.inl h0)
  · exact key _ (Or.inr (Or.inl (hm c hc)))
  · subst hc; exact key _ (Or.inr (Or.inr hl))

/-- The pattern of a namespace and the rule with 2 to 61 middle characters in the tenant
and 2 to 62 in the name agree. -/
theorem matches_namespaceNameExpr_iff (w : List Char) :
    Matches namespaceNameExpr w = true ↔ namespaceShape 2 61 2 62 w = true := by
  rw [matches_iff]
  have hacc : [] ∈ accepts namespaceNameExpr w ↔
      NameForm 2 62 w ∨ ∃ t name, w = t ++ '/' :: name ∧ NameForm 2 61 t ∧ NameForm 2 62 name := by
    unfold namespaceNameExpr
    rw [accepts, List.mem_flatMap]
    constructor
    · rintro ⟨y, hy, hn⟩
      obtain ⟨w1, hw1, hf⟩ := (mem_accepts_name 2 62 y []).mp hn
      simp only [List.append_nil] at hw1
      subst hw1
      rw [accepts, List.mem_append, List.mem_singleton] at hy
      rcases hy with hy | hy
      · rw [accepts] at hy
        obtain ⟨t, ht, hft⟩ := (mem_accepts_tenant 2 61 w y).mp hy
        exact Or.inr ⟨t, y, ht, hft, hf⟩
      · subst hy
        exact Or.inl hf
    · rintro (hf | ⟨t, name, hw, hft, hfn⟩)
      · refine ⟨w, ?_, (mem_accepts_name 2 62 w []).mpr ⟨w, by simp, hf⟩⟩
        rw [accepts, List.mem_append, List.mem_singleton]
        exact Or.inr rfl
      · refine ⟨name, ?_, (mem_accepts_name 2 62 name []).mpr ⟨name, by simp, hfn⟩⟩
        rw [accepts, List.mem_append]
        refine Or.inl ?_
        rw [accepts]
        exact (mem_accepts_tenant 2 61 w name).mpr ⟨t, hw, hft⟩
  rw [hacc]
  simp only [namespaceShape, Bool.or_eq_true, nameShape_iff]
  constructor
  · rintro (hf | ⟨t, name, hw, hft, hfn⟩)
    · exact Or.inl hf
    · refine Or.inr ?_
      have hp := nameForm_no_slash 2 61 t hft
      have h1 : w.takeWhile (fun c => c != '/') = t := by
        rw [hw, List.takeWhile_append_of_pos hp]
        simp
      have h2 : w.dropWhile (fun c => c != '/') = '/' :: name := by
        rw [hw, List.dropWhile_append_of_pos hp]
        simp
      rw [h2, h1]
      simp only [Bool.and_eq_true, nameShape_iff]
      exact ⟨hft, hfn⟩
  · rintro (hf | h)
    · exact Or.inl hf
    · refine Or.inr ?_
      cases hd : w.dropWhile (fun c => c != '/') with
      | nil => simp [hd] at h
      | cons d name =>
        rw [hd] at h
        simp only [Bool.and_eq_true, nameShape_iff] at h
        have hd1 := dropWhile_head_false _ w d name hd
        have hd2 : d = '/' := by simpa using hd1
        subst hd2
        refine ⟨w.takeWhile (fun c => c != '/'), name, ?_, h.1, h.2⟩
        rw [← hd]
        exact (List.takeWhile_append_dropWhile _ w).symm

theorem split_unique_right (c : Char) (a a1 b b1 : List Char) (e : a ++ c :: b = a1 ++ c :: b1)
    (h : c ∉ b) (h1 : c ∉ b1) : a = a1 ∧ b = b1 := by
  have er := congrArg List.reverse e
  simp only [List.reverse_append, List.reverse_cons, List.append_assoc, List.singleton_append]
    at er
  obtain ⟨r1, r2⟩ := split_unique c b.reverse b1.reverse a.reverse a1.reverse er
    (by simpa using h) (by simpa using h1)
  exact ⟨List.reverse_injective r2, List.reverse_injective r1⟩

theorem matches_subjectRelExpr_iff (w : List Char) :
    Matches subjectRelExpr w = true ↔ Matches relationExpr w = true ∨ w = ['.', '.', '.'] := by
  rw [matches_iff, matches_iff]
  unfold subjectRelExpr
  rw [accepts, List.mem_append]
  have hd : [] ∈ accepts (Re.cat (Re.chr '.') (Re.cat (Re.chr '.') (Re.chr '.'))) w ↔
      w = ['.', '.', '.'] := by
    simp only [accepts, List.mem_flatMap, stepL_mem, beq_iff_eq]
    constructor
    · rintro ⟨r1, ⟨c1, h1, e1⟩, r2, ⟨c2, h2, e2⟩, c3, h3, e3⟩
      rw [e1, e2, e3, h1, h2, h3]
    · intro h
      exact ⟨['.', '.'], ⟨'.', rfl, h⟩, ['.'], ⟨'.', rfl, rfl⟩, '.', rfl, rfl⟩
  rw [hd]

/-- The characters of the subject half of a tuple text. -/
theorem not_mem_subject (c : Char) (sns sid sfx : List Char)
    (m4 : Matches namespaceNameExpr sns = true) (m5 : Matches objectIDExpr sid = true)
    (hs : sfx = [] ∨ ∃ srel, sfx = '#' :: srel ∧ Matches subjectRelExpr srel = true)
    (hc1 : alphabet namespaceNameExpr c = false) (hc2 : alphabet objectIDExpr c = false)
    (hc3 : alphabet subjectRelExpr c = false) (hc4 : c ≠ ':') (hc5 : c ≠ '#') :
    c ∉ sns ++ ':' :: (sid ++ sfx) := by
  intro hm
  simp only [List.mem_append, List.mem_cons] at hm
  rcases hm with hm | hm | hm | hm
  · exact not_mem_of_alphabet _ (by decide) sns m4 c hc1 hm
  · exact hc4 hm
  · exact not_mem_of_alphabet _ (by decide) sid m5 c hc2 hm
  · rcases hs with hs | ⟨srel, hs, m6⟩
    · rw [hs] at hm; simp at hm
    · rw [hs, List.mem_cons] at hm
      rcases hm with hm | hm
      · exact hc5 hm
      · exact not_mem_of_alphabet _ (by decide) srel m6 c hc3 hm

theorem suffix_shape (sfx : List Char) (t : RelationTuple) (ns id rel sns sid : List Char)
    (hs : (sfx = [] ∧ t = mkTuple ns id rel sns sid ellipsis) ∨
      (∃ srel, sfx = '#' :: srel ∧ Matches subjectRelExpr srel = true ∧
        t = mkTuple ns id rel sns sid (String.mk srel))) :
    sfx = [] ∨ ∃ srel, sfx = '#' :: srel ∧ Matches subjectRelExpr srel = true := by
  rcases hs with ⟨h, _⟩ | ⟨r, h, m, _⟩
  · exact Or.inl h
  · exact Or.inr ⟨r, h, m⟩

/-- In a parsed text with the other four fields valid, what stands in resource
relation position is matched by the pattern of a relation name. -/
theorem resource_relation_of_parse (ns id rel sns sid : List Char) (s : GoString)
    (e : s.data = ns ++ ':' :: (id ++ '#' :: (rel ++ '@' :: (sns ++ ':' :: sid))))
    (m1 : Matches namespaceNameExpr ns = true) (m2 : Matches objectIDExpr id = true)
    (m4 : Matches namespaceNameExpr sns = true) (m5 : Matches objectIDExpr sid = true)
    (t : RelationTuple) (h : Parse s = some t) : Matches relationExpr rel = true := by
  obtain ⟨ns1, id1, rel1, sns1, sid1, sfx1, e1, n1, n2, n3, n4, n5, hs⟩ := parse_sound s t h
  rw [e] at e1
  obtain ⟨-, e2⟩ := split_unique ':' _ _ _ _ e1
    (not_mem_of_alphabet _ (by decide) ns m1 ':' (by decide))
    (not_mem_of_alphabet _ (by decide) ns1 n1 ':' (by decide))
  obtain ⟨-, e3⟩ := split_unique '#' _ _ _ _ e2
    (not_mem_of_alphabet _ (by decide) id m2 '#' (by decide))
    (not_mem_of_alphabet _ (by decide) id1 n2 '#' (by decide))
  have h0 := not_mem_subject '@' sns sid [] m4 m5 (Or.inl rfl) (by decide) (by decide)
    (by decide) (by decide) (by decide)
  rw [List.append_nil] at h0
  obtain ⟨r3, -⟩ := split_unique_right '@' _ _ _ _ e3 h0
    (not_mem_subject '@' sns1 sid1 sfx1 n4 n5 (suffix_shape _ _ _ _ _ _ _ hs) (by decide)
      (by decide) (by decide) (by decide) (by decide))
  rw [r3]
  exact n3

/-- In a parsed text with the five fields before it valid, what stands in subject relation
position is matched by the pattern of a relation name or is the wildcard. -/
theorem subject_relation_of_parse (ns id rel sns sid srel : List Char) (s : GoString)
    (e : s.data = ns ++ ':' :: (id ++ '#' :: (rel ++ '@' :: (sns ++ ':' :: (sid ++ '#' :: srel)))))
    (m1 : Matches namespaceNameExpr ns = true) (m2 : Matches objectIDExpr id = true)
    (m3 : Matches relationExpr rel = true)
    (m4 : Matches namespaceNameExpr sns = true) (m5 : Matches objectIDExpr sid = true)
    (t : RelationTuple) (h : Parse s = some t) : Matches subjectRelExpr srel = true := by
  obtain ⟨ns1, id1, rel1, sns1, sid1, sfx1, e1, n1, n2, n3, n4, n5, hs⟩ := parse_sound s t h
  rw [e] at e1
  have hs1 := suffix_shape _ _ _ _ _ _ _ hs
  obtain ⟨-, -, -, -, -, r6⟩ :=
    fields_unique _ _ _ _ _ _ _ _ _ _ _ _ e1 m1 m2 m3 m4 m5 (Or.inr ⟨srel, rfl⟩) n1 n2 n3 n4 n5
      (by
        rcases hs1 with h0 | ⟨r, h0, _⟩
        · exact Or.inl h0
        · exact Or.inr ⟨r, h0⟩)
  rcases hs1 with h0 | ⟨r, h0, m6⟩
  · rw [h0] at r6
    exact absurd r6 (by simp)
  · rw [h0] at r6
    simp only [List.cons.injEq, true_and] at r6
    rw [r6]
    exact m6

theorem cut_at_subject (a rel z a1 rel1 z1 : List Char) (c : Char)
    (e : a ++ c :: (rel ++ '@' :: z) = a1 ++ c :: (rel1 ++ '@' :: z1))
    (h : '@' ∉ z) (h1 : '@' ∉ z1) : a ++ c :: rel = a1 ++ c :: rel1 ∧ z = z1 := by
  have e2 : (a ++ c :: rel) ++ '@' :: z = (a1 ++ c :: rel1) ++ '@' :: z1 := by
    simpa using e
  exact split_unique_right '@' _ _ _ _ e2 h h1

/-- In a parsed text with the other four fields valid, what stands in resource object id
position is matched by the pattern of an object id. -/
theorem resource_id_of_parse (ns id rel sns sid : List Char) (s : GoString)
    (e : s.data = ns ++ ':' :: (id ++ '#' :: (rel ++ '@' :: (sns ++ ':' :: sid))))
    (m1 : Matches namespaceNameExpr ns = true) (m3 : Matches relationExpr rel = true)
    (m4 : Matches namespaceNameExpr sns = true) (m5 : Matches objectIDExpr sid = true)
    (t : RelationTuple) (h : Parse s = some t) : Matches objectIDExpr id = true := by
  obtain ⟨ns1, id1, rel1, sns1, sid1, sfx1, e1, n1, n2, n3, n4, n5, hs⟩ := parse_sound s t h
  rw [e] at e1
  obtain ⟨-, e2⟩ := split_unique ':' _ _ _ _ e1
    (not_mem_of_alphabet _ (by decide) ns m1 ':' (by decide))
    (not_mem_of_alphabet _ (by decide) ns1 n1 ':' (by decide))
  have h0 := not_mem_subject '@' sns sid [] m4 m5 (Or.inl rfl) (by decide) (by decide)
    (by decide) (by decide) (by decide)
  rw [List.append_nil] at h0
  obtain ⟨e3, -⟩ := cut_at_subject _ _ _ _ _ _ '#' e2 h0
    (not_mem_subject '@' sns1 sid1 sfx1 n4 n5 (suffix_shape _ _ _ _ _ _ _ hs) (by decide)
      (by decide) (by decide) (by decide) (by decide))
  obtain ⟨r2, -⟩ := split_unique_right '#' _ _ _ _ e3
    (not_mem_of_alphabet _ (by decide) rel m3 '#' (by decide))
    (not_mem_of_alphabet _ (by decide) rel1 n3 '#' (by decide))
  rw [r2]
  exact n2

/-- In a parsed text with the other four fields valid, what stands in resource namespace
position is matched by the pattern of a namespace. -/
theorem resource_namespace_of_parse (ns id rel sns sid : List Char) (s : GoString)
    (e : s.data = ns ++ ':' :: (id ++ '#' :: (rel ++ '@' :: (sns ++ ':' :: sid))))
    (m2 : Matches objectIDExpr id = true) (m3 : Matches relationExpr rel = true)
    (m4 : Matches namespaceNameExpr sns = true) (m5 : Matches objectIDExpr sid = true)
    (t : RelationTuple) (h : Parse s = some t) : Matches namespaceNameExpr ns = true := by
  obtain ⟨ns1, id1, rel1, sns1, sid1, sfx1, e1, n1, n2, n3, n4, n5, hs⟩ := parse_sound s t h
  rw [e] at e1
  have h0 := not_mem_subject '@' sns sid [] m4 m5 (Or.inl rfl) (by decide) (by decide)
    (by decide) (by decide) (by decide)
  rw [List.append_nil] at h0
  have e1a : (ns ++ ':' :: id) ++ '#' :: (rel ++ '@' :: (sns ++ ':' :: sid)) =
      (ns1 ++ ':' :: id1) ++ '#' :: (rel1 ++ '@' :: (sns1 ++ ':' :: (sid1 ++ sfx1))) := by
    simpa using e1
  obtain ⟨e3, -⟩ := cut_at_subject _ _ _ _ _ _ '#' e1a h0
    (not_mem_subject '@' sns1 sid1 sfx1 n4 n5 (suffix_shape _ _ _ _ _ _ _ hs) (by decide)
      (by decide) (by decide) (by decide) (by decide))
  obtain ⟨e4, -⟩ := split_unique_right '#' _ _ _ _ e3
    (not_mem_of_alphabet _ (by decide) rel m3 '#' (by decide))
    (not_mem_of_alphabet _ (by decide) rel1 n3 '#' (by decide))
  obtain ⟨r1, -⟩ := split_unique_right ':' _ _ _ _ e4
    (not_mem_of_alphabet _ (by decide) id m2 ':' (by decide))
    (not_mem_of_alphabet _ (by decide) id1 n2 ':' (by decide))
  rw [r1]
  exact n1

/-- The start of both readings of a text up to the subject half. -/
theorem subject_half (ns id rel z ns1 id1 rel1 z1 : List Char)
    (e : ns ++ ':' :: (id ++ '#' :: (rel ++ '@' :: z)) =
      ns1 ++ ':' :: (id1 ++ '#' :: (rel1 ++ '@' :: z1)))
    (m1 : Matches namespaceNameExpr ns = true) (m2 : Matches objectIDExpr id = true)
    (m3 : Matches relationExpr rel = true) (n1 : Matches namespaceNameExpr ns1 = true)
    (n2 : Matches objectIDExpr id1 = true) (n3 : Matches relationExpr rel1 = true) : z = z1 := by
  obtain ⟨-, e2⟩ := split_unique ':' _ _ _ _ e
    (not_mem_of_alphabet _ (by decide) ns m1 ':' (by decide))
    (not_mem_of_alphabet _ (by decide) ns1 n1 ':' (by decide))
  obtain ⟨-, e3⟩ := split_unique '#' _ _ _ _ e2
    (not_mem_of_alphabet _ (by decide) id m2 '#' (by decide))
    (not_mem_of_alphabet _ (by decide) id1 n2 '#' (by decide))
  obtain ⟨-, e4⟩ := split_unique '@' _ _ _ _ e3
    (not_mem_of_alphabet _ (by decide) rel m3 '@' (by decide))
    (not_mem_of_alphabet _ (by decide) rel1 n3 '@' (by decide))
  exact e4

/-- In a parsed text with the other four fields valid, what stands in subject namespace
position is matched by the pattern of a namespace. -/
theorem subject_namespace_of_parse (ns id rel sns sid : List Char) (s : GoString)
    (e : s.data = ns ++ ':' :: (id ++ '#' :: (rel ++ '@' :: (sns ++ ':' :: sid))))
    (m1 : Matches namespaceNameExpr ns = true) (m2 : Matches objectIDExpr id = true)
    (m3 : Matches relationExpr rel = true) (m5 : Matches objectIDExpr sid = true)
    (t : RelationTuple) (h : Parse s = some t) : Matches namespaceNameExpr sns = true := by
  obtain ⟨ns1, id1, rel1, sns1, sid1, sfx1, e1, n1, n2, n3, n4, n5, hs⟩ := parse_sound s t h
  rw [e] at e1
  have e2 := subject_half _ _ _ _ _ _ _ _ e1 m1 m2 m3 n1 n2 n3
  have hs1 := suffix_shape _ _ _ _ _ _ _ hs
  have hc : ':' ∉ sid1 ++ sfx1 := by
    intro hm
    rcases List.mem_append.mp hm with hm | hm
    · exact not_mem_of_alphabet _ (by decide) sid1 n5 ':' (by decide) hm
    · rcases hs1 with h0 | ⟨r, h0, m6⟩
      · rw [h0] at hm; simp at hm
      · rw [h0, List.mem_cons] at hm
        rcases hm with hm | hm
        · exact absurd hm (by decide)
        · exact not_mem_of_alphabet _ (by decide) r m6 ':' (by decide) hm
  obtain ⟨r4, -⟩ := split_unique_right ':' _ _ _ _ e2
    (not_mem_of_alphabet _ (by decide) sid m5 ':' (by decide)) hc
  rw [r4]
  exact n4

/-- In a parsed text with the other four fields valid and no `#` in what stands in
subject object id position, that text is matched by the pattern of an object id. -/
theorem subject_id_of_parse (ns id rel sns sid : List Char) (s : GoString)
    (e : s.data = ns ++ ':' :: (id ++ '#' :: (rel ++ '@' :: (sns ++ ':' :: sid))))
    (m1 : Matches namespaceNameExpr ns = true) (m2 : Matches objectIDExpr id = true)
    (m3 : Matches relationExpr rel = true) (m4 : Matches namespaceNameExpr sns = true)
    (hsid : '#' ∉ sid)
    (t : RelationTuple) (h : Parse s = some t) : Matches objectIDExpr sid = true := by
  obtain ⟨ns1, id1, rel1, sns1, sid1, sfx1, e1, n1, n2, n3, n4, n5, hs⟩ := parse_sound s t h
  rw [e] at e1
  have e2 := subject_half _ _ _ _ _ _ _ _ e1 m1 m2 m3 n1 n2 n3
  obtain ⟨-, e3⟩ := split_unique ':' _ _ _ _ e2
    (not_mem_of_alphabet _ (by decide) sns m4 ':' (by decide))
    (not_mem_of_alphabet _ (by decide) sns1 n4 ':' (by decide))
  rcases suffix_shape _ _ _ _ _ _ _ hs with h0 | ⟨r, h0, _⟩
  · rw [h0, List.append_nil] at e3
    rw [e3]
    exact n5
  · rw [h0] at e3
    exact absurd (by rw [e3]; simp) hsid

/-- The fields of a parsed tuple are matched by the patterns of their positions. -/
theorem parse_fields_match (s : GoString) (t : RelationTuple) (h : Parse s = some t) :
    ∃ res sub, t = ⟨some res, some ⟨some sub⟩⟩ ∧
      Matches namespaceNameExpr res.Namespace.data = true ∧
      Matches objectIDExpr res.ObjectId.data = true ∧
      Matches relationExpr res.Relation.data = true ∧
      Matches namespaceNameExpr sub.Namespace.data = true ∧
      Matches objectIDExpr sub.ObjectId.data = true ∧
      (sub.Relation = "..." ∨ Matches relationExpr sub.Relation.data = true) := by
  obtain ⟨ns, id, rel, sns, sid, sfx, -, m1, m2, m3, m4, m5, hs⟩ := parse_sound s t h
  rcases hs with ⟨-, ht⟩ | ⟨srel, -, m6, ht⟩
  · exact ⟨⟨String.mk ns, String.mk id, String.mk rel⟩, ⟨String.mk sns, String.mk sid, "..."⟩,
      ht, m1, m2, m3, m4, m5, Or.inl rfl⟩
  · refine ⟨⟨String.mk ns, String.mk id, String.mk rel⟩, ⟨String.mk sns, String.mk sid,
      String.mk srel⟩, ht, m1, m2, m3, m4, m5, ?_⟩
    rcases (matches_subjectRelExpr_iff srel).mp m6 with h6 | h6
    · exact Or.inr h6
    · exact Or.inl (by rw [h6])

theorem plain_data (ns id rel sns sid : GoString) :
    (ns ++ ":" ++ id ++ "#" ++ rel ++ "@" ++ sns ++ ":" ++ sid).data =
      ns.data ++ ':' :: (id.data ++ '#' :: (rel.data ++ '@' :: (sns.data ++ ':' :: sid.data))) := by
  simp [String.data_append]

theorem suffixed_data (ns id rel sns sid srel : GoString) :
    (ns ++ ":" ++ id ++ "#" ++ rel ++ "@" ++ sns ++ ":" ++ sid ++ "#" ++ srel).data =
      ns.data ++ ':' :: (id.data ++ '#' :: (rel.data ++ '@' :: (sns.data ++ ':' ::
        (sid.data ++ '#' :: srel.data)))) := by
  simp [String.data_append]

/-- A name of 64 characters is not a relation name in the sense of the rule with 1 to 61
middle characters, and `Parse` accepts it as resource relation. -/
theorem relation_of_length_64 :
    nameShape 1 61 "a123456789012345678901234567890123456789012345678901234567890123".data =
      false ∧
    "a123456789012345678901234567890123456789012345678901234567890123".length = 64 ∧
    ∃ t, Parse ("document" ++ ":" ++ "123" ++ "#" ++
      "a123456789012345678901234567890123456789012345678901234567890123" ++ "@" ++ "user" ++
      ":" ++ "456") = some t := by
  refine ⟨by decide, by decide, _, parse_fields_plain _ _ _ _ _ _
    (by rw [plain_data, List.append_nil]) (by decide) (by decide)
    ((matches_relationExpr_iff _).mpr (by decide)) (by decide) (by decide)⟩

/-- The text `rel` is a relation name in the sense of the rule with 1 to 61 middle
characters, and `Parse` returns no value for `document:123#rel@user:456`, where it stands
in relation position. -/
theorem relation_of_length_3_rejected :
    nameShape 1 61 "rel".data = true ∧ Parse "document:123#rel@user:456" = none := by
  refine ⟨by decide, by decide⟩

/-- C11, amended: the relation names `Parse` accepts, as resource relation and as explicit
subject relation other than the wildcard, are exactly the texts made of one lowercase
letter, then 2 to 62 characters from lowercase letters, digits and underscore, then one
lowercase letter or digit; for any other text in relation position `Parse` returns no
value. -/
theorem parse_relation_names :
    (∀ (s : GoString) (t : RelationTuple), Parse s = some t →
      ∃ res sub, t = ⟨some res, some ⟨some sub⟩⟩ ∧ nameShape 2 62 res.Relation.data = true ∧
        (sub.Relation = "..." ∨ nameShape 2 62 sub.Relation.data = true)) ∧
    (∀ ns id rel sns sid : GoString, IsNamespace ns = true → IsObjectID id = true →
      IsNamespace sns = true → IsObjectID sid = true →
      ((∃ t, Parse (ns ++ ":" ++ id ++ "#" ++ rel ++ "@" ++ sns ++ ":" ++ sid) = some t) ↔
        nameShape 2 62 rel.data = true)) ∧
    (∀ ns id rel sns sid srel : GoString, IsNamespace ns = true → IsObjectID id = true →
      IsRelation rel = true → IsNamespace sns = true → IsObjectID sid = true →
      ((∃ t, Parse (ns ++ ":" ++ id ++ "#" ++ rel ++ "@" ++ sns ++ ":" ++ sid ++ "#" ++ srel) =
          some t) ↔ (nameShape 2 62 srel.data = true ∨ srel = "..."))) := by
  refine ⟨?_, ?_, ?_⟩
  · intro s t h
    obtain ⟨res, sub, ht, -, -, m3, -, -, m6⟩ := parse_fields_match s t h
    refine ⟨res, sub, ht, (matches_relationExpr_iff _).mp m3, ?_⟩
    rcases m6 with m6 | m6
    · exact Or.inl m6
    · exact Or.inr ((matches_relationExpr_iff _).mp m6)
  · intro ns id rel sns sid h1 h2 h4 h5
    rw [isNamespace_iff] at h1 h4
    rw [isObjectID_iff] at h2 h5
    constructor
    · rintro ⟨t, ht⟩
      exact (matches_relationExpr_iff _).mp
        (resource_relation_of_parse _ _ _ _ _ _ (plain_data ns id rel sns sid) h1 h2 h4 h5 t ht)
    · intro h3
      exact ⟨_, parse_fields_plain _ _ _ _ _ _
        (by rw [plain_data, List.append_nil]) h1 h2 ((matches_relationExpr_iff _).mpr h3) h4 h5⟩
  · intro ns id rel sns sid srel h1 h2 h3 h4 h5
    rw [isNamespace_iff] at h1 h4
    rw [isObjectID_iff] at h2 h5
    rw [isRelation_iff] at h3
    constructor
    · rintro ⟨t, ht⟩
      have m6 := subject_relation_of_parse _ _ _ _ _ _ _ (suffixed_data ns id rel sns sid srel)
        h1 h2 h3 h4 h5 t ht
      rcases (matches_subjectRelExpr_iff _).mp m6 with h6 | h6
      · exact Or.inl ((matches_relationExpr_iff _).mp h6)
      · exact Or.inr (String.ext h6)
    · intro h6
      refine ⟨_, parse_fields_suffix _ _ _ _ _ _ _ (suffixed_data ns id rel sns sid srel)
        h1 h2 h3 h4 h5 ((matches_subjectRelExpr_iff _).mpr ?_)⟩
      rcases h6 with h6 | h6
      · exact Or.inl ((matches_relationExpr_iff _).mpr h6)
      · exact Or.inr (by rw [h6])

/-- Witness for C11: `view` is accepted as resource relation of
`document:123#view@user:456`, and `vi` is not accepted as subject relation of
`document:123#view@user:456#vi`. -/
theorem parse_relation_names_witness :
    (∃ t, Parse ("document" ++ ":" ++ "123" ++ "#" ++ "view" ++ "@" ++ "user" ++ ":" ++ "456") =
      some t) ∧
    ¬ (∃ t, Parse ("document" ++ ":" ++ "123" ++ "#" ++ "view" ++ "@" ++ "user" ++ ":" ++ "456" ++
      "#" ++ "vi") = some t) :=
  ⟨(parse_relation_names.2.1 "document" "123" "view" "user" "456"
      (by decide) (by decide) (by decide) (by decide)).mpr (by decide),
    fun h => absurd ((parse_relation_names.2.2 "document" "123" "view" "user" "456" "vi"
      (by decide) (by decide) (by decide) (by decide) (by decide)).mp h) (by decide)⟩

/-- The texts `doc` and `ten/document` are namespaces in the sense of the rule with 1 to
60 middle characters in the tenant and 1 to 61 in the name, and `Parse` returns no value
for `doc:123#viewer@user:456` and for `ten/document:123#viewer@user:456`, where they stand
in namespace position. -/
theorem namespace_of_length_3_rejected :
    namespaceShape 1 60 1 61 "doc".data = true ∧ Parse "doc:123#viewer@user:456" = none ∧
    namespaceShape 1 60 1 61 "ten/document".data = true ∧
    Parse "ten/document:123#viewer@user:456" = none := by
  refine ⟨by decide, by decide, by decide, by decide⟩

/-- C12, amended: the namespaces `Parse` accepts, as resource type and as subject type,
are exactly the texts made of an optional tenant (one lowercase letter, then 2 to 61
characters from lowercase letters, digits and underscore, then one lowercase letter or
digit, then `/`) followed by a name (one lowercase letter, then 2 to 62 characters from
lowercase letters, digits and underscore, then one lowercase letter or digit); for any
other text in namespace position `Parse` returns no value. -/
theorem parse_namespaces :
    (∀ (s : GoString) (t : RelationTuple), Parse s = some t →
      ∃ res sub, t = ⟨some res, some ⟨some sub⟩⟩ ∧
        namespaceShape 2 61 2 62 res.Namespace.data = true ∧
        namespaceShape 2 61 2 62 sub.Namespace.data = true) ∧
    (∀ ns id rel sns sid : GoString, IsObjectID id = true → IsRelation rel = true →
      IsNamespace sns = true → IsObjectID sid = true →
      ((∃ t, Parse (ns ++ ":" ++ id ++ "#" ++ rel ++ "@" ++ sns ++ ":" ++ sid) = some t) ↔
        namespaceShape 2 61 2 62 ns.data = true)) ∧
    (∀ ns id rel sns sid : GoString, IsNamespace ns = true → IsObjectID id = true →
      IsRelation rel = true → IsObjectID sid = true →
      ((∃ t, Parse (ns ++ ":" ++ id ++ "#" ++ rel ++ "@" ++ sns ++ ":" ++ sid) = some t) ↔
        namespaceShape 2 61 2 62 sns.data = true)) := by
  refine ⟨?_, ?_, ?_⟩
  · intro s t h
    obtain ⟨res, sub, ht, m1, -, -, m4, -, -⟩ := parse_fields_match s t h
    exact ⟨res, sub, ht, (matches_namespaceNameExpr_iff _).mp m1,
      (matches_namespaceNameExpr_iff _).mp m4⟩
  · intro ns id rel sns sid h2 h3 h4 h5
    rw [isNamespace_iff] at h4
    rw [isObjectID_iff] at h2 h5
    rw [isRelation_iff] at h3
    constructor
    · rintro ⟨t, ht⟩
      exact (matches_namespaceNameExpr_iff _).mp
        (resource_namespace_of_parse _ _ _ _ _ _ (plain_data ns id rel sns sid) h2 h3 h4 h5 t ht)
    · intro h1
      exact ⟨_, parse_fields_plain _ _ _ _ _ _
        (by rw [plain_data, List.append_nil]) ((matches_namespaceNameExpr_iff _).mpr h1)
        h2 h3 h4 h5⟩
  · intro ns id rel sns sid h1 h2 h3 h5
    rw [isNamespace_iff] at h1
    rw [isObjectID_iff] at h2 h5
    rw [isRelation_iff] at h3
    constructor
    · rintro ⟨t, ht⟩
      exact (matches_namespaceNameExpr_iff _).mp
        (subject_namespace_of_parse _ _ _ _ _ _ (plain_data ns id rel sns sid) h1 h2 h3 h5 t ht)
    · intro h4
      exact ⟨_, parse_fields_plain _ _ _ _ _ _
        (by rw [plain_data, List.append_nil]) h1 h2 h3
        ((matches_namespaceNameExpr_iff _).mpr h4) h5⟩

/-- Witness for C12: `tenant/document` is accepted as resource type of
`tenant/document:123#viewer@user:456`, and `usr` is not accepted as subject type of
`document:123#viewer@usr:456`. -/
theorem parse_namespaces_witness :
    (∃ t, Parse ("tenant/document" ++ ":" ++ "123" ++ "#" ++ "viewer" ++ "@" ++ "user" ++ ":" ++
      "456") = some t) ∧
    ¬ (∃ t, Parse ("document" ++ ":" ++ "123" ++ "#" ++ "viewer" ++ "@" ++ "usr" ++ ":" ++ "456") =
      some t) :=
  ⟨(parse_namespaces.2.1 "tenant/document" "123" "viewer" "user" "456"
      (by decide) (by decide) (by decide) (by decide)).mpr (by decide),
    fun h => absurd ((parse_namespaces.2.2 "document" "123" "viewer" "usr" "456"
      (by decide) (by decide) (by decide) (by decide)).mp h) (by decide)⟩

theorem objectIdShape_length (w : List Char) (h : objectIdShape w = true) :
    1 ≤ w.length ∧ w.length ≤ 128 := by
  cases w with
  | nil => simp [objectIdShape] at h
  | cons c rest =>
    simp only [objectIdShape, Bool.and_eq_true, decide_eq_true_eq] at h
    simp only [List.length_cons]
    omega

/-- C13: the object ids `Parse` accepts, for the resource and for the subject, are exactly
the texts of 1 to 128 characters whose first character is a letter, a digit or the
underscore and whose other characters are letters, digits, underscore, slash or hyphen;
for any other text in object id position `Parse` returns no value, in particular for the
empty text and for a text of 129 characters. In subject position, where `#` starts the
subject relation, this is for a text without `#`. -/
theorem parse_object_ids :
    (∀ (s : GoString) (t : RelationTuple), Parse s = some t →
      ∃ res sub, t = ⟨some res, some ⟨some sub⟩⟩ ∧
        objectIdShape res.ObjectId.data = true ∧ objectIdShape sub.ObjectId.data = true) ∧
    (∀ ns id rel sns sid : GoString, IsNamespace ns = true → IsRelation rel = true →
      IsNamespace sns = true → IsObjectID sid = true →
      ((∃ t, Parse (ns ++ ":" ++ id ++ "#" ++ rel ++ "@" ++ sns ++ ":" ++ sid) = some t) ↔
        objectIdShape id.data = true)) ∧
    (∀ ns id rel sns sid : GoString, IsNamespace ns = true → IsObjectID id = true →
      IsRelation rel = true → IsNamespace sns = true → '#' ∉ sid.data →
      ((∃ t, Parse (ns ++ ":" ++ id ++ "#" ++ rel ++ "@" ++ sns ++ ":" ++ sid) = some t) ↔
        objectIdShape sid.data = true)) ∧
    (∀ w : List Char, objectIdShape w = true → 1 ≤ w.length ∧ w.length ≤ 128) := by
  refine ⟨?_, ?_, ?_, objectIdShape_length⟩
  · intro s t h
    obtain ⟨res, sub, ht, -, m2, -, -, m5, -⟩ := parse_fields_match s t h
    exact ⟨res, sub, ht, (matches_objectIDExpr_iff _).mp m2, (matches_objectIDExpr_iff _).mp m5⟩
  · intro ns id rel sns sid h1 h3 h4 h5
    rw [isNamespace_iff] at h1 h4
    rw [isObjectID_iff] at h5
    rw [isRelation_iff] at h3
    constructor
    · rintro ⟨t, ht⟩
      exact (matches_objectIDExpr_iff _).mp
        (resource_id_of_parse _ _ _ _ _ _ (plain_data ns id rel sns sid) h1 h3 h4 h5 t ht)
    · intro h2
      exact ⟨_, parse_fields_plain _ _ _ _ _ _
        (by rw [plain_data, List.append_nil]) h1 ((matches_objectIDExpr_iff _).mpr h2) h3 h4 h5⟩
  · intro ns id rel sns sid h1 h2 h3 h4 hsid
    rw [isNamespace_iff] at h1 h4
    rw [isObjectID_iff] at h2
    rw [isRelation_iff] at h3
    constructor
    · rintro ⟨t, ht⟩
      exact (matches_objectIDExpr_iff _).mp
        (subject_id_of_parse _ _ _ _ _ _ (plain_data ns id rel sns sid) h1 h2 h3 h4 hsid t ht)
    · intro h5
      exact ⟨_, parse_fields_plain _ _ _ _ _ _
        (by rw [plain_data, List.append_nil]) h1 h2 h3 h4 ((matches_objectIDExpr_iff _).mpr h5)⟩

/-- Witness for C13: `my-object/1` is accepted as resource object id of
`document:my-object/1#viewer@user:456`, and the empty text is not accepted as subject
object id of `document:123#viewer@user:`. -/
theorem parse_object_ids_witness :
    (∃ t, Parse ("document" ++ ":" ++ "my-object/1" ++ "#" ++ "viewer" ++ "@" ++ "user" ++ ":" ++
      "456") = some t) ∧
    ¬ (∃ t, Parse ("document" ++ ":" ++ "123" ++ "#" ++ "viewer" ++ "@" ++ "user" ++ ":" ++ "") =
      some t) :=
  ⟨(parse_object_ids.2.1 "document" "my-object/1" "viewer" "user" "456"
      (by decide) (by decide) (by decide) (by decide)).mpr (by decide),
    fun h => absurd ((parse_object_ids.2.2.1 "document" "123" "viewer" "user" ""
      (by decide) (by decide) (by decide) (by decide) (by decide)).mp h) (by decide)⟩

end tuple
